import Mathlib

/-!
# MCTS for tic-tac-toe: a shallow embedding of `main.cpp`

The program is embedded as follows.

* `Board` is `std::vector<std::vector<int>>`: a list of rows. `cell` reads
  `board[i][j]`, `setCell` performs the assignment `board[i][j] = v`.
* `Node*` values are addresses into a `Heap` (a list of nodes); `new Node()`
  allocates at the next free address, `nullptr` is `none`.
* every loop that the source leaves unbounded takes a `fuel` argument; a
  result `none` stands for "out of fuel" or for behaviour that the source
  leaves undefined (dereference of an invalid pointer, index out of range,
  a distribution with empty range).
* the generator `rng` is a stream of raw draws `Nat → Nat` together with a
  position; `dist a b r` maps a raw draw into the closed range `[a, b]` of
  `std::uniform_int_distribution<>(a, b)`.
* `rollout_boards`, `select_path` and `search_trace` are the loops of
  `simulate`, `select` and `search` once more, recording the boards and nodes
  they meet, so that statements can speak of the states and nodes that occur.
* a `double` is a finite IEEE binary64 number, kept as the dyadic number
  `m * 2^e` (`Dbl`); division, square root and addition round to nearest, ties
  to even, as the hardware does. The counters are 32-bit, so every value met
  by `best_child` lies in the normal range of the format (`score_normal`).
* `int` counters are integers. `backpropagate_int` is `MCTS::backpropagate`
  with the range of a 32-bit `int`: an increment at `INT_MAX` is a signed
  overflow, which the source leaves undefined. `backpropagate` is the same
  loop without the range check; the two agree as long as no counter on the
  chain is `INT_MAX` (`backpropagate_int_chain`, `backpropagate_int_some`).
  `search` is written with `backpropagate`: from a fresh root no counter
  exceeds the number of iterations, itself an `int`, so that no increment of
  `search` overflows (`search_no_overflow`).
-/

namespace MCTS

/-! ## Boards -/

def HUMAN_PLAYER : Int := 1
def AI_PLAYER : Int := -1

abbrev Board := List (List Int)

/-- The read `board[i][j]`. -/
def cell (board : Board) (i j : Nat) : Int := (board.getD i []).getD j 0

/-- The write `board[i][j] = v`. -/
def setCell (board : Board) (i j : Nat) (v : Int) : Board :=
  board.set i ((board.getD i []).set j v)

/-- A board of three rows of three cells, as built by `Node()` and `main`. -/
def is3x3 (board : Board) : Prop :=
  board.length = 3 ∧ ∀ row ∈ board, row.length = 3

instance (board : Board) : Decidable (is3x3 board) := by
  unfold is3x3; infer_instance

/-- The value `Board(3, std::vector<int>(3, 0))`. -/
def emptyBoard : Board := List.replicate 3 (List.replicate 3 0)

/-- Inner loop of `get_legal_moves` for row `i`: appends the empty cells of the row. -/
def legal_moves_row (board : Board) (i : Nat) (acc : List (Nat × Nat)) : List (Nat × Nat) :=
  (List.range 3).foldl (fun acc j => if cell board i j = 0 then acc ++ [(i, j)] else acc) acc

def get_legal_moves (board : Board) : List (Nat × Nat) :=
  (List.range 3).foldl (fun acc i => legal_moves_row board i acc) []

/-- One pass of the `for` loop of `get_winner`: row `i`, then column `i`. -/
def winner_step (board : Board) (i : Nat) : Option Int :=
  if cell board i 0 = cell board i 1 ∧ cell board i 1 = cell board i 2 ∧ cell board i 0 ≠ 0 then
    some (cell board i 0)
  else if cell board 0 i = cell board 1 i ∧ cell board 1 i = cell board 2 i ∧ cell board 0 i ≠ 0 then
    some (cell board 0 i)
  else none

def get_winner (board : Board) : Int :=
  match (List.range 3).findSome? (winner_step board) with
  | some w => w
  | none =>
    if cell board 0 0 = cell board 1 1 ∧ cell board 1 1 = cell board 2 2 ∧ cell board 0 0 ≠ 0 then
      cell board 0 0
    else if cell board 0 2 = cell board 1 1 ∧ cell board 1 1 = cell board 2 0 ∧ cell board 0 2 ≠ 0 then
      cell board 0 2
    else 0

/-! ## Nodes and the heap -/

structure Node where
  state : Board
  player : Int
  parent : Option Nat
  children : List Nat
  visits : Int
  wins : Int
deriving DecidableEq, Repr

/-- The constructor `Node()`. -/
def newNode : Node :=
  { state := emptyBoard, player := HUMAN_PLAYER, parent := none, children := [], visits := 0, wins := 0 }

def Node.is_terminal (n : Node) : Bool :=
  get_winner n.state != 0 || (get_legal_moves n.state).isEmpty

def Node.is_fully_expanded (n : Node) : Bool :=
  n.children.length == (get_legal_moves n.state).length

/-- The store of all allocated nodes; a `Node*` is an index into it. -/
abbrev Heap := List Node

/-- The value of `std::uniform_int_distribution<>(a, b)` on the raw draw `r`. -/
def dist (a b r : Nat) : Nat := a + r % (b - a + 1)

/-! ## Expansion -/

/-- Body of the `for` loop of `expand` for one move: allocate the child, fill
it in, and push it on the children of `node`. -/
def expand_step (node : Nat) (h : Heap) (move : Nat × Nat) : Option Heap :=
  match h[node]? with
  | none => none
  | some n =>
    let child : Node :=
      { newNode with
        state := setCell n.state move.1 move.2 n.player
        player := -n.player
        parent := some node }
    some ((h ++ [child]).set node { n with children := n.children ++ [h.length] })

/-- The child that `expand` builds from the node `n` at address `node` for `move`. -/
def childNode (n : Node) (node : Nat) (move : Nat × Nat) : Node :=
  { state := setCell n.state move.1 move.2 n.player, player := -n.player, parent := some node,
    children := [], visits := 0, wins := 0 }

/-- The function `MCTS::expand`; `r` is the raw draw consumed by `dist(rng)`.
With no legal move the bounds of the distribution are `(0, -1)`, which the
library leaves undefined: the result is `none`. -/
def expand (h : Heap) (node : Nat) (r : Nat) : Option (Heap × Nat) :=
  match h[node]? with
  | none => none
  | some n =>
    let legal_moves := get_legal_moves n.state
    if legal_moves.isEmpty then none
    else
      match legal_moves.foldlM (expand_step node) h with
      | none => none
      | some h1 =>
        match h1[node]? with
        | none => none
        | some n1 =>
          match n1.children[dist 0 (legal_moves.length - 1) r]? with
          | none => none
          | some c => some (h1, c)

/-! ## Doubles

A finite `double` is the dyadic number `m * 2^e`. The operations below are
those that `best_child` applies: the quotient of two `int`s converted to
`double`, `std::sqrt`, the product with 2 and the sum, each correctly rounded
(to nearest, ties to even, 53 significant bits; see `roundNat_spec`,
`roundNat_tie`, `Dbl.ofQuot_spec`, `Dbl.sqrt_spec`, `Dbl.add_spec`). Exponents
are not bounded: with 32-bit counters no operation leaves the normal range
(`score_normal`). -/

/-- A finite IEEE double, written as the dyadic number `m * 2^e`. -/
structure Dbl where
  m : Int
  e : Int
deriving DecidableEq, Repr

/-- The number of binary digits of `n`, computed in at most `fuel` steps. -/
def bitLength : Nat → Nat → Nat
  | 0, _ => 0
  | fuel + 1, n => if n = 0 then 0 else bitLength fuel (n / 2) + 1

/-- The integer part of `a / (b * 2^e)`. -/
def floorAt (a b : Nat) (e : Int) : Nat :=
  if 0 ≤ e then a / (b * 2 ^ e.toNat) else a * 2 ^ (-e).toNat / b

/-- The quotient `a / (b * 2^e)` rounded to the nearest integer, ties to even. -/
def roundAt (a b : Nat) (e : Int) : Nat :=
  let num := if 0 ≤ e then a else a * 2 ^ (-e).toNat
  let den := if 0 ≤ e then b * 2 ^ e.toNat else b
  let q := num / den
  let r := num % den
  if den < 2 * r ∨ (2 * r = den ∧ q % 2 = 1) then q + 1 else q

/-- The positive rational `a / b` rounded to 53 significant bits, to nearest
with ties to even: the result `(m, e)` stands for `m * 2^e`. The exponent `e`
is the one for which the integer part of `a / (b * 2^e)` has 53 bits. -/
def roundNat (a b : Nat) : Nat × Int :=
  let e : Int := (bitLength a a : Int) - (bitLength b b : Int) - 53
  if floorAt a b e < 2 ^ 53 then (roundAt a b e, e) else (roundAt a b (e + 1), e + 1)

/-- The double `static_cast<double>(p) / q` for two `int`s `p` and `q ≠ 0`:
the conversions are exact, the quotient is rounded. -/
def Dbl.ofQuot (p q : Int) : Dbl :=
  if p = 0 then ⟨0, 0⟩
  else
    let r := roundNat p.natAbs q.natAbs
    ⟨if (p < 0) = (q < 0) then (r.1 : Int) else -(r.1 : Int), r.2⟩

/-- The double sum `x + y`: the exact sum, rounded. -/
def Dbl.add (x y : Dbl) : Dbl :=
  let e0 := min x.e y.e
  let s : Int := x.m * 2 ^ (x.e - e0).toNat + y.m * 2 ^ (y.e - e0).toNat
  if s = 0 then ⟨0, 0⟩
  else
    let r := if 0 ≤ e0 then roundNat (s.natAbs * 2 ^ e0.toNat) 1
      else roundNat s.natAbs (2 ^ (-e0).toNat)
    ⟨if 0 < s then (r.1 : Int) else -(r.1 : Int), r.2⟩

/-- The integer square root of `R < 4^i`, found bit by bit from bit `i - 1` down. -/
def isqrtAux (R : Nat) : Nat → Nat → Nat
  | 0, acc => acc
  | i + 1, acc =>
    if (acc + 2 ^ i) * (acc + 2 ^ i) ≤ R then isqrtAux R i (acc + 2 ^ i) else isqrtAux R i acc

/-- The double `std::sqrt(x)` for a double `x ≥ 0` (a significand below
`2^54`, as `Dbl.ofQuot` returns), correctly rounded: `x` is scaled by the even
power `2^(2 * t)` to an integer `R` of 105 or 106 bits, whose integer square
root `s` has 53 bits; the result is `s` or `s + 1` times `2^(-t)`, whichever
is nearer (`R` lies above `(s + 1/2)²` exactly when `R - s² > s`; a tie cannot
occur). The square root of zero is zero; a negative `x`, for which the source
gets NaN, is excluded by `score_nan` before this function is used. -/
def Dbl.sqrt (x : Dbl) : Dbl :=
  if x.m ≤ 0 then ⟨0, 0⟩
  else
    let t : Int := Int.fdiv (106 - (bitLength x.m.natAbs x.m.natAbs : Int) - x.e) 2
    let R : Nat := x.m.natAbs * 2 ^ (x.e + 2 * t).toNat
    let s := isqrtAux R 53 0
    ⟨if s < R - s * s then (s : Int) + 1 else (s : Int), -t⟩

/-- The double `2 * x`, which is exact. -/
def Dbl.twice (x : Dbl) : Dbl := ⟨x.m, x.e + 1⟩

/-- The comparison `x < y` of two doubles, after scaling both to the smaller
exponent. -/
def Dbl.lt (x y : Dbl) : Bool :=
  decide (x.m * 2 ^ (x.e - min x.e y.e).toNat < y.m * 2 ^ (y.e - min x.e y.e).toNat)

/-! ## UCT scores -/

/-- The local `score` of `best_child` for a child with wins `w` and visits
`v ≠ 0` of a node with visits `N`, when it is not NaN:
`static_cast<double>(w) / v + 2 * std::sqrt(static_cast<double>(N) / v)`. -/
def score (N w v : Int) : Dbl :=
  Dbl.add (Dbl.ofQuot w v) (Dbl.twice (Dbl.sqrt (Dbl.ofQuot N v)))

/-- The score is NaN exactly when the quotient `N / visits` under the square
root is negative. -/
def score_nan (N v : Int) : Bool := decide (N * v < 0)

/-- The test `score > best_score`; `best = none` is `best_score = -∞`,
otherwise `best` holds the address, wins and visits of the current best child,
and `best_score` is the score of that child. A NaN score is not greater than
anything. -/
def score_better (N : Int) (child : Node) (best : Option (Nat × Int × Int)) : Bool :=
  !score_nan N child.visits &&
    match best with
    | none => true
    | some (_, bw, bv) => Dbl.lt (score N bw bv) (score N child.wins child.visits)

/-- The `for` loop of `best_child` over the remaining children. -/
def best_child_loop (h : Heap) (N : Int) :
    List Nat → Option (Nat × Int × Int) → Option (Option Nat)
  | [], best => some (best.map (fun b => b.1))
  | c :: cs, best =>
    match h[c]? with
    | none => none
    | some child =>
      if child.visits = 0 then some (some c)
      else if score_better N child best then
        best_child_loop h N cs (some (c, child.wins, child.visits))
      else best_child_loop h N cs best

/-- The function `MCTS::best_child`; the inner option is the returned pointer
(`none` for `nullptr`). -/
def best_child (h : Heap) (node : Nat) : Option (Option Nat) :=
  match h[node]? with
  | none => none
  | some n => best_child_loop h n.visits n.children none

/-! ## Selection, simulation, backpropagation, search -/

/-- The `while` loop of `select`, started at `node`. Returns the heap, the
selected node and the position of the generator. -/
def select_loop (rng : Nat → Nat) : Nat → Heap → Nat → Nat → Option (Heap × Nat × Nat)
  | 0, _, _, _ => none
  | fuel + 1, h, pos, node =>
    match h[node]? with
    | none => none
    | some n =>
      if n.is_terminal then some (h, node, pos)
      else if !n.is_fully_expanded then
        match expand h node (rng pos) with
        | none => none
        | some (h1, c) => some (h1, c, pos + 1)
      else
        match best_child h node with
        | some (some c) => select_loop rng fuel h pos c
        | _ => none

def select (rng : Nat → Nat) (fuel : Nat) (h : Heap) (root pos : Nat) :
    Option (Heap × Nat × Nat) :=
  select_loop rng fuel h pos root

/-- The move picked in one rollout step of `simulate` on the raw draw `r`:
`legal_moves[dist(rng) % legal_moves.size()]` with `dist(0, 2)`. -/
def rollout_move (state : Board) (r : Nat) : Option (Nat × Nat) :=
  (get_legal_moves state)[dist 0 2 r % (get_legal_moves state).length]?

/-- The `while` loop of `simulate`. Returns the result and the position of
the generator. -/
def simulate_loop (rng : Nat → Nat) : Nat → Board → Int → Nat → Option (Int × Nat)
  | 0, _, _, _ => none
  | fuel + 1, state, player, pos =>
    if get_winner state = 0 then
      if (get_legal_moves state).isEmpty then some (0, pos)
      else
        match rollout_move state (rng pos) with
        | none => none
        | some move =>
          simulate_loop rng fuel (setCell state move.1 move.2 player) (-player) (pos + 1)
    else some (get_winner state, pos)

def simulate (rng : Nat → Nat) (fuel : Nat) (h : Heap) (node pos : Nat) : Option (Int × Nat) :=
  match h[node]? with
  | none => none
  | some n => simulate_loop rng fuel n.state n.player pos

/-- The largest value of a 32-bit `int`. -/
def INT_MAX : Int := 2147483647

/-- The function `MCTS::backpropagate` with 32-bit `int` counters. The
increments `node->visits++` and `node->wins++` overflow when the counter is
`INT_MAX`, which the source leaves undefined: the result is `none`. -/
def backpropagate_int : Nat → Heap → Option Nat → Int → Option Heap
  | _, h, none, _ => some h
  | 0, _, some _, _ => none
  | fuel + 1, h, some node, result =>
    match h[node]? with
    | none => none
    | some n =>
      if INT_MAX ≤ n.visits then none
      else
        let n1 : Node := { n with visits := n.visits + 1 }
        if n1.player = result then
          if INT_MAX ≤ n1.wins then none
          else backpropagate_int fuel (h.set node { n1 with wins := n1.wins + 1 }) n1.parent result
        else backpropagate_int fuel (h.set node n1) n1.parent result

/-- The loop of `MCTS::backpropagate` without the range check on the
counters: it returns what `backpropagate_int` returns whenever that one
returns a heap. -/
def backpropagate : Nat → Heap → Option Nat → Int → Option Heap
  | _, h, none, _ => some h
  | 0, _, some _, _ => none
  | fuel + 1, h, some node, result =>
    match h[node]? with
    | none => none
    | some n =>
      let n1 : Node := { n with visits := n.visits + 1 }
      let n2 : Node := if n1.player = result then { n1 with wins := n1.wins + 1 } else n1
      backpropagate fuel (h.set node n2) n2.parent result

/-- One pass of the `for` loop of `search`. -/
def search_step (rng : Nat → Nat) (fuel root : Nat) (h : Heap) (pos : Nat) : Option (Heap × Nat) :=
  match select rng fuel h root pos with
  | none => none
  | some (h1, node, pos1) =>
    match simulate rng fuel h1 node pos1 with
    | none => none
    | some (result, pos2) =>
      match backpropagate fuel h1 (some node) result with
      | none => none
      | some h2 => some (h2, pos2)

def search_loop (rng : Nat → Nat) (fuel root : Nat) : Nat → Heap → Nat → Option (Heap × Nat)
  | 0, h, pos => some (h, pos)
  | n + 1, h, pos =>
    match search_step rng fuel root h pos with
    | none => none
    | some (h1, pos1) => search_loop rng fuel root n h1 pos1

/-- The function `MCTS::search`: the final heap and the returned pointer. -/
def search (rng : Nat → Nat) (fuel root n : Nat) (h : Heap) (pos : Nat) :
    Option (Heap × Option Nat) :=
  match search_loop rng fuel root n h pos with
  | none => none
  | some (h1, _) =>
    match best_child h1 root with
    | none => none
    | some r => some (h1, r)

/-- The root built by `main` for a given board and player. -/
def freshRoot (state : Board) (player : Int) : Node :=
  { newNode with state := state, player := player }

/-! ## Notions used to state the properties -/

/-- The eight lines of the board: rows, columns, main and anti diagonal. -/
def lines : List (List (Nat × Nat)) :=
  [[(0, 0), (0, 1), (0, 2)], [(1, 0), (1, 1), (1, 2)], [(2, 0), (2, 1), (2, 2)],
   [(0, 0), (1, 0), (2, 0)], [(0, 1), (1, 1), (2, 1)], [(0, 2), (1, 2), (2, 2)],
   [(0, 0), (1, 1), (2, 2)], [(0, 2), (1, 1), (2, 0)]]

/-- Every cell of `line` holds the non-zero mark `m`. -/
def complete (board : Board) (line : List (Nat × Nat)) (m : Int) : Prop :=
  m ≠ 0 ∧ ∀ p ∈ line, cell board p.1 p.2 = m

/-- The nine coordinates in row-major order. -/
def allCells : List (Nat × Nat) :=
  [(0, 0), (0, 1), (0, 2), (1, 0), (1, 1), (1, 2), (2, 0), (2, 1), (2, 2)]

/-- Row-major order on coordinates. -/
def rowMajorLt (p q : Nat × Nat) : Prop := p.1 < q.1 ∨ (p.1 = q.1 ∧ p.2 < q.2)

instance (p q : Nat × Nat) : Decidable (rowMajorLt p q) := by
  unfold rowMajorLt; infer_instance

/-- The heap after the `for` loop of `expand` on the node `n` at address
`node`: the children are allocated at the end of the heap, one per legal move. -/
def expandHeap (h : Heap) (node : Nat) (n : Node) : Heap :=
  h.set node
      { n with children := n.children ++ List.range' h.length (get_legal_moves n.state).length } ++
    (get_legal_moves n.state).map (childNode n node)

/-- The score of a child with `(w1, v1)` is strictly below the score of a
child with `(w2, v2)` as `best_child` computes and compares them, in doubles;
`N` is the visits of the parent. -/
def doubleScoreLt (N w1 v1 w2 v2 : Int) : Prop :=
  Dbl.lt (score N w1 v1) (score N w2 v2) = true

instance (N w1 v1 w2 v2 : Int) : Decidable (doubleScoreLt N w1 v1 w2 v2) := by
  unfold doubleScoreLt; infer_instance

/-- The rational number that a double stands for. -/
def Dbl.val (x : Dbl) : ℚ := (x.m : ℚ) * (2 : ℚ) ^ x.e

/-- The double is zero or a normal number of the binary64 format: a
significand of 53 bits and an exponent within the range of the format. -/
def Dbl.normal (x : Dbl) : Prop :=
  x.m = 0 ∨ (2 ^ 52 ≤ |x.m| ∧ |x.m| ≤ 2 ^ 53 ∧ -1074 ≤ x.e ∧ x.e ≤ 970)

/-- The score of a child with `(w1, v1)` is strictly below the score of a
child with `(w2, v2)` when the formula `wins / visits + 2 * sqrt(N / visits)`
is read over the reals, without rounding; `N` is the visits of the parent. -/
def scoreLt (N w1 v1 w2 v2 : Int) : Prop :=
  (w1 : ℝ) / v1 + 2 * Real.sqrt ((N : ℝ) / v1) < (w2 : ℝ) / v2 + 2 * Real.sqrt ((N : ℝ) / v2)

/-- Decides `a + √P > √Q` over the reals for integers `a`, `0 ≤ P`, `0 ≤ Q`. -/
def sqrt_gt (a P Q : Int) : Bool :=
  if 0 < a then
    decide (Q - a * a - P < 0 ∨ (Q - a * a - P) * (Q - a * a - P) < 4 * (a * a) * P)
  else if a = 0 then decide (Q < P)
  else
    decide (0 < P - Q - a * a ∧ 4 * (a * a) * Q < (P - Q - a * a) * (P - Q - a * a))

/-- Decides `scoreLt N w2 v2 w1 v1`, the comparison of two scores over the
reals, for `v1`, `v2` nonzero and `N / v1`, `N / v2` not negative: after
multiplying both scores by `v1² * v2²` the comparison is `a + √P > √Q` with
the three arguments passed to `sqrt_gt`, since `v² * sqrt(N / v) = sqrt(N * v³)`.
The program does not compute this; it serves to evaluate `scoreLt`. -/
def score_gt (N w1 v1 w2 v2 : Int) : Bool :=
  sqrt_gt (w1 * v1 * (v2 * v2) - w2 * v2 * (v1 * v1))
    (4 * (v2 * v2 * (v2 * v2)) * (N * v1 * (v1 * v1)))
    (4 * (v1 * v1 * (v1 * v1)) * (N * v2 * (v2 * v2)))

/-- A heap used to instantiate the statements on `best_child` and
`backpropagate`: a root with four visits whose first child was visited three
times (three wins), whose second child was never visited and whose third child
was visited once. -/
def sampleHeap : Heap :=
  [{ state := emptyBoard, player := -1, parent := none, children := [1, 2, 3], visits := 4, wins := 0 },
   { state := [[-1, 0, 0], [0, 0, 0], [0, 0, 0]], player := 1, parent := some 0, children := [],
     visits := 3, wins := 3 },
   { state := [[0, -1, 0], [0, 0, 0], [0, 0, 0]], player := 1, parent := some 0, children := [],
     visits := 0, wins := 0 },
   { state := [[0, 0, -1], [0, 0, 0], [0, 0, 0]], player := 1, parent := some 0, children := [],
     visits := 1, wins := 0 }]

/-- The same tree once every child has been visited. -/
def sampleHeapVisited : Heap :=
  [{ state := emptyBoard, player := -1, parent := none, children := [1, 2, 3], visits := 5, wins := 0 },
   { state := [[-1, 0, 0], [0, 0, 0], [0, 0, 0]], player := 1, parent := some 0, children := [],
     visits := 3, wins := 3 },
   { state := [[0, -1, 0], [0, 0, 0], [0, 0, 0]], player := 1, parent := some 0, children := [],
     visits := 1, wins := 1 },
   { state := [[0, 0, -1], [0, 0, 0], [0, 0, 0]], player := 1, parent := some 0, children := [],
     visits := 1, wins := 0 }]

/-- A node with two visited children whose scores are equal over the reals:
`72 / 80 + 2 * sqrt(125 / 80) = 0.9 + 2.5` and
`3 / 45 + 2 * sqrt(125 / 45) = 1 / 15 + 10 / 3` are both `3.4`. -/
def tieHeap : Heap :=
  [{ state := emptyBoard, player := -1, parent := none, children := [1, 2], visits := 125, wins := 0 },
   { state := [[-1, 0, 0], [0, 0, 0], [0, 0, 0]], player := 1, parent := some 0, children := [],
     visits := 80, wins := 72 },
   { state := [[0, -1, 0], [0, 0, 0], [0, 0, 0]], player := 1, parent := some 0, children := [],
     visits := 45, wins := 3 }]

/-- A node with visits 0 and two visited children whose scores
`2147483645 / 2147483646` and `2147483646 / 2147483647` differ over the reals
by less than the spacing of doubles below 1. -/
def nearHeap : Heap :=
  [{ state := emptyBoard, player := -1, parent := none, children := [1, 2], visits := 0, wins := 0 },
   { state := [[-1, 0, 0], [0, 0, 0], [0, 0, 0]], player := 1, parent := some 0, children := [],
     visits := 2147483646, wins := 2147483645 },
   { state := [[0, -1, 0], [0, 0, 0], [0, 0, 0]], player := 1, parent := some 0, children := [],
     visits := 2147483647, wins := 2147483646 }]

/-- A tree of one node whose visits are `INT_MAX`. -/
def saturatedHeap : Heap :=
  [{ state := emptyBoard, player := -1, parent := none, children := [], visits := 2147483647, wins := 0 }]

/-- The addresses met when following `parent` links from `p` up to `nullptr`:
the parent chain from a node to the root inclusive. -/
def parentChain : Nat → Heap → Option Nat → Option (List Nat)
  | _, _, none => some []
  | 0, _, some _ => none
  | fuel + 1, h, some k =>
    match h[k]? with
    | none => none
    | some n => (parentChain fuel h n.parent).map (fun l => k :: l)

/-- One more visit, and one more win when the player of the node is `result`. -/
def bump (result : Int) (n : Node) : Node :=
  { n with visits := n.visits + 1, wins := if n.player = result then n.wins + 1 else n.wins }

/-- The number of empty cells of a board. -/
def emptyCount (board : Board) : Nat := (get_legal_moves board).length

/-- The shape of the tree that `search` maintains in the heap, with the root
at address 0: every state is 3x3, every player is 1 or -1, visits are not
negative; the root has no parent; every other node has its parent at a
smaller address, with strictly more empty cells; a node with children has one
child per legal move, in enumeration order, at larger addresses, each pointing
back to the node, with the opposite player and the state after the move. -/
structure TreeInv (h : Heap) : Prop where
  root_parent : ∃ r, h[0]? = some r ∧ r.parent = none
  node_ok : ∀ (k : Nat) (n : Node), h[k]? = some n →
    is3x3 n.state ∧ (n.player = 1 ∨ n.player = -1) ∧ 0 ≤ n.visits
  parent_ok : ∀ (k : Nat) (n : Node), h[k]? = some n → k ≠ 0 →
    ∃ (p : Nat) (pn : Node), n.parent = some p ∧ p < k ∧ h[p]? = some pn ∧
      emptyCount n.state < emptyCount pn.state
  children_ok : ∀ (k : Nat) (n : Node), h[k]? = some n → n.children ≠ [] →
    n.children.length = (get_legal_moves n.state).length ∧
    ∀ (i : Nat) (hi : i < (get_legal_moves n.state).length),
      ∃ (c : Nat) (cn : Node), n.children[i]? = some c ∧ k < c ∧ h[c]? = some cn ∧
        cn.parent = some k ∧ cn.player = -n.player ∧
        cn.state = setCell n.state ((get_legal_moves n.state).get ⟨i, hi⟩).1
          ((get_legal_moves n.state).get ⟨i, hi⟩).2 n.player

/-- The heap `h1` keeps every node of `h` at its address with the same state,
player, parent, visits and wins, and with the same children unless it had none. -/
def Extends (h h1 : Heap) : Prop :=
  ∀ (j : Nat) (n : Node), h[j]? = some n → ∃ n1, h1[j]? = some n1 ∧ n1.state = n.state ∧
    n1.player = n.player ∧ n1.parent = n.parent ∧ n1.visits = n.visits ∧ n1.wins = n.wins ∧
    (n.children ≠ [] → n1.children = n.children)

/-- The mark of `line` when its cells hold three identical non-empty marks. -/
def lineMark (board : Board) (line : List (Nat × Nat)) : Option Int :=
  match line with
  | [] => none
  | p :: rest =>
    if cell board p.1 p.2 ≠ 0 ∧ ∀ q ∈ rest, cell board q.1 q.2 = cell board p.1 p.2 then
      some (cell board p.1 p.2)
    else none

/-- Reference scan, following the words of the specification: the three rows,
then the three columns, then the two diagonals are tested for three identical
non-empty marks; the mark of the first such line is returned, or 0. -/
def winner_reference (board : Board) : Int :=
  match lines.findSome? (lineMark board) with
  | some w => w
  | none => 0

/-- A board without winner and with two empty cells, used to instantiate
statements on nodes late in a game. -/
def lateBoard : Board := [[1, -1, 1], [1, -1, -1], [-1, 0, 0]]

/-- The boards met by the `while` loop of `simulate`, in order: the state of
the node first, the board on which the loop stops last. Same loop as
`simulate_loop`, recording `state` at every test of the loop condition. -/
def rollout_boards (rng : Nat → Nat) : Nat → Board → Int → Nat → Option (List Board)
  | 0, _, _, _ => none
  | fuel + 1, state, player, pos =>
    if get_winner state = 0 then
      if (get_legal_moves state).isEmpty then some [state]
      else
        match rollout_move state (rng pos) with
        | none => none
        | some move =>
          (rollout_boards rng fuel (setCell state move.1 move.2 player) (-player) (pos + 1)).map
            (fun bs => state :: bs)
    else some [state]

/-- One move of a rollout: a non-zero mark is written into an empty cell, and
the number of empty cells strictly decreases. -/
def RolloutStep (b1 b2 : Board) : Prop :=
  ∃ (mv : Nat × Nat) (v : Int), mv ∈ get_legal_moves b1 ∧ cell b1 mv.1 mv.2 = 0 ∧ v ≠ 0 ∧
    b2 = setCell b1 mv.1 mv.2 v ∧ emptyCount b2 < emptyCount b1

/-- How many of the three conditions of the classification of a state hold:
(1) no winner and a legal move, (2) a winner, (3) no legal move. -/
def stateClasses (board : Board) : Nat :=
  (if get_winner board = 0 ∧ get_legal_moves board ≠ [] then 1 else 0) +
    (if get_winner board ≠ 0 then 1 else 0) + (if get_legal_moves board = [] then 1 else 0)

/-- A stream of draws: the second draw is 1, every other draw is 0. -/
def sampleDraws : Nat → Nat := fun i => if i = 1 then 1 else 0

/-- A full board on which the first player (-1) completed the main diagonal
with the last move. -/
def fullWonBoard : Board := [[-1, -1, 1], [1, -1, 1], [-1, 1, -1]]

/-- The nodes at which the `while` loop of `select` tests its condition, in
order: the descent path from the start node. Same loop as `select_loop`. -/
def select_path (rng : Nat → Nat) : Nat → Heap → Nat → Nat → Option (List Nat)
  | 0, _, _, _ => none
  | fuel + 1, h, pos, node =>
    match h[node]? with
    | none => none
    | some n =>
      if n.is_terminal then some [node]
      else if !n.is_fully_expanded then
        match expand h node (rng pos) with
        | none => none
        | some _ => some [node]
      else
        match best_child h node with
        | some (some c) => (select_path rng fuel h pos c).map (fun p => node :: p)
        | _ => none

/-- The visits of the node at address `c`, 0 when nothing is allocated there. -/
def visitsAt (h : Heap) (c : Nat) : Int :=
  match h[c]? with
  | some cn => cn.visits
  | none => 0

/-- The sum of the visits of the children of `n`. -/
def childVisits (h : Heap) (n : Node) : Int := (n.children.map (visitsAt h)).sum

/-- The nodes returned by `select` in the successive iterations of `search`
(the simulated nodes), first iteration first. Same loop as `search_loop`. -/
def search_trace (rng : Nat → Nat) (fuel root : Nat) : Nat → Heap → Nat → Option (List Nat)
  | 0, _, _ => some []
  | n + 1, h, pos =>
    match select rng fuel h root pos with
    | none => none
    | some (_, node, _) =>
      match search_step rng fuel root h pos with
      | none => none
      | some (h2, pos2) => (search_trace rng fuel root n h2 pos2).map (fun t => node :: t)

/-- Further facts on the shape of the tree of `search`: terminal nodes have no
children, no address is listed twice among the children of a node, and every
node with a parent is listed among the children of that parent. -/
structure ShapeInv (h : Heap) : Prop where
  tree : TreeInv h
  terminal_leaf : ∀ (k : Nat) (n : Node), h[k]? = some n → n.is_terminal = true →
    n.children = []
  children_nodup : ∀ (k : Nat) (n : Node), h[k]? = some n → n.children.Nodup
  listed : ∀ (k : Nat) (n : Node) (p : Nat), h[k]? = some n → n.parent = some p →
    ∃ pn, h[p]? = some pn ∧ k ∈ pn.children

/-- The counters of the tree of `search`, where `cnt k` is the number of
iterations in which the node `k` was the simulated node: wins lie between 0
and visits; the visits of a node are its own simulations plus the visits of
its children; only allocated nodes were simulated; a non-terminal node was
simulated at most once, and never if it is the root. -/
structure CountInv (h : Heap) (cnt : Nat → Nat) : Prop where
  wins_ok : ∀ (k : Nat) (n : Node), h[k]? = some n → 0 ≤ n.wins ∧ n.wins ≤ n.visits
  visits_eq : ∀ (k : Nat) (n : Node), h[k]? = some n →
    n.visits = (cnt k : Int) + childVisits h n
  cnt_alloc : ∀ k : Nat, h[k]? = none → cnt k = 0
  cnt_nonterminal : ∀ (k : Nat) (n : Node), h[k]? = some n → n.is_terminal = false →
    cnt k ≤ 1 ∧ (k = 0 → cnt k = 0)

/-- A board on which player 1 has completed the first row: a terminal state. -/
def wonBoard : Board := [[1, 1, 1], [-1, -1, 0], [0, 0, 0]]

/-! # Theorems -/

/-! ## The winner (C1) -/

theorem get_winner_unfold (b : Board) :
    get_winner b =
      if cell b 0 0 = cell b 0 1 ∧ cell b 0 1 = cell b 0 2 ∧ cell b 0 0 ≠ 0 then cell b 0 0
      else if cell b 0 0 = cell b 1 0 ∧ cell b 1 0 = cell b 2 0 ∧ cell b 0 0 ≠ 0 then cell b 0 0
      else if cell b 1 0 = cell b 1 1 ∧ cell b 1 1 = cell b 1 2 ∧ cell b 1 0 ≠ 0 then cell b 1 0
      else if cell b 0 1 = cell b 1 1 ∧ cell b 1 1 = cell b 2 1 ∧ cell b 0 1 ≠ 0 then cell b 0 1
      else if cell b 2 0 = cell b 2 1 ∧ cell b 2 1 = cell b 2 2 ∧ cell b 2 0 ≠ 0 then cell b 2 0
      else if cell b 0 2 = cell b 1 2 ∧ cell b 1 2 = cell b 2 2 ∧ cell b 0 2 ≠ 0 then cell b 0 2
      else if cell b 0 0 = cell b 1 1 ∧ cell b 1 1 = cell b 2 2 ∧ cell b 0 0 ≠ 0 then cell b 0 0
      else if cell b 0 2 = cell b 1 1 ∧ cell b 1 1 = cell b 2 0 ∧ cell b 0 2 ≠ 0 then cell b 0 2
      else 0 := by
  have hr : List.range 3 = [0, 1, 2] := rfl
  simp only [get_winner, hr, List.findSome?, winner_step]
  split_ifs <;> rfl

theorem complete_three (b : Board) (p q r : Nat × Nat) (m : Int) :
    complete b [p, q, r] m ↔
      m ≠ 0 ∧ cell b p.1 p.2 = m ∧ cell b q.1 q.2 = m ∧ cell b r.1 r.2 = m := by
  simp [complete]

theorem exists_line_iff (b : Board) (m : Int) :
    (∃ l ∈ lines, complete b l m) ↔ m ≠ 0 ∧
      ((cell b 0 0 = m ∧ cell b 0 1 = m ∧ cell b 0 2 = m) ∨
       (cell b 1 0 = m ∧ cell b 1 1 = m ∧ cell b 1 2 = m) ∨
       (cell b 2 0 = m ∧ cell b 2 1 = m ∧ cell b 2 2 = m) ∨
       (cell b 0 0 = m ∧ cell b 1 0 = m ∧ cell b 2 0 = m) ∨
       (cell b 0 1 = m ∧ cell b 1 1 = m ∧ cell b 2 1 = m) ∨
       (cell b 0 2 = m ∧ cell b 1 2 = m ∧ cell b 2 2 = m) ∨
       (cell b 0 0 = m ∧ cell b 1 1 = m ∧ cell b 2 2 = m) ∨
       (cell b 0 2 = m ∧ cell b 1 1 = m ∧ cell b 2 0 = m)) := by
  simp only [lines, List.mem_cons, List.mem_singleton, List.not_mem_nil, or_false,
    exists_eq_or_imp, exists_eq_left, complete_three]
  generalize cell b 0 0 = a00
  generalize cell b 0 1 = a01
  generalize cell b 0 2 = a02
  generalize cell b 1 0 = a10
  generalize cell b 1 1 = a11
  generalize cell b 1 2 = a12
  generalize cell b 2 0 = a20
  generalize cell b 2 1 = a21
  generalize cell b 2 2 = a22
  by_cases hm : m = 0 <;> simp [hm]

theorem get_winner_line (b : Board) (hw : get_winner b ≠ 0) :
    ∃ l ∈ lines, complete b l (get_winner b) := by
  rw [exists_line_iff]
  refine ⟨hw, ?_⟩
  rw [get_winner_unfold] at hw ⊢
  generalize cell b 0 0 = a00 at *
  generalize cell b 0 1 = a01 at *
  generalize cell b 0 2 = a02 at *
  generalize cell b 1 0 = a10 at *
  generalize cell b 1 1 = a11 at *
  generalize cell b 1 2 = a12 at *
  generalize cell b 2 0 = a20 at *
  generalize cell b 2 1 = a21 at *
  generalize cell b 2 2 = a22 at *
  split_ifs at hw ⊢ with h1 h2 h3 h4 h5 h6 h7 h8
  · obtain ⟨e1, e2, -⟩ := h1; subst e1; subst e2; simp
  · obtain ⟨e1, e2, -⟩ := h2; subst e1; subst e2; simp
  · obtain ⟨e1, e2, -⟩ := h3; subst e1; subst e2; simp
  · obtain ⟨e1, e2, -⟩ := h4; subst e1; subst e2; simp
  · obtain ⟨e1, e2, -⟩ := h5; subst e1; subst e2; simp
  · obtain ⟨e1, e2, -⟩ := h6; subst e1; subst e2; simp
  · obtain ⟨e1, e2, -⟩ := h7; subst e1; subst e2; simp
  · obtain ⟨e1, e2, -⟩ := h8; subst e1; subst e2; simp
  · exact absurd rfl hw

theorem get_winner_zero (b : Board) (hn : ¬ ∃ l ∈ lines, ∃ m, complete b l m) :
    get_winner b = 0 := by
  by_contra hw
  obtain ⟨l, hl, hc⟩ := get_winner_line b hw
  exact hn ⟨l, hl, _, hc⟩

theorem get_winner_of_line (b : Board) (l : List (Nat × Nat)) (hl : l ∈ lines) (m : Int)
    (hc : complete b l m) : get_winner b ≠ 0 := by
  obtain ⟨hm, h⟩ := (exists_line_iff b m).1 ⟨l, hl, hc⟩
  rw [get_winner_unfold]
  generalize cell b 0 0 = a00 at *
  generalize cell b 0 1 = a01 at *
  generalize cell b 0 2 = a02 at *
  generalize cell b 1 0 = a10 at *
  generalize cell b 1 1 = a11 at *
  generalize cell b 1 2 = a12 at *
  generalize cell b 2 0 = a20 at *
  generalize cell b 2 1 = a21 at *
  generalize cell b 2 2 = a22 at *
  split_ifs with h1 h2 h3 h4 h5 h6 h7 h8
  · exact h1.2.2
  · exact h2.2.2
  · exact h3.2.2
  · exact h4.2.2
  · exact h5.2.2
  · exact h6.2.2
  · exact h7.2.2
  · exact h8.2.2
  · exfalso
    rcases h with ⟨e1, e2, e3⟩ | ⟨e1, e2, e3⟩ | ⟨e1, e2, e3⟩ | ⟨e1, e2, e3⟩ | ⟨e1, e2, e3⟩ |
      ⟨e1, e2, e3⟩ | ⟨e1, e2, e3⟩ | ⟨e1, e2, e3⟩
    · exact h1 ⟨by rw [e1, e2], by rw [e2, e3], by rw [e1]; exact hm⟩
    · exact h3 ⟨by rw [e1, e2], by rw [e2, e3], by rw [e1]; exact hm⟩
    · exact h5 ⟨by rw [e1, e2], by rw [e2, e3], by rw [e1]; exact hm⟩
    · exact h2 ⟨by rw [e1, e2], by rw [e2, e3], by rw [e1]; exact hm⟩
    · exact h4 ⟨by rw [e1, e2], by rw [e2, e3], by rw [e1]; exact hm⟩
    · exact h6 ⟨by rw [e1, e2], by rw [e2, e3], by rw [e1]; exact hm⟩
    · exact h7 ⟨by rw [e1, e2], by rw [e2, e3], by rw [e1]; exact hm⟩
    · exact h8 ⟨by rw [e1, e2], by rw [e2, e3], by rw [e1]; exact hm⟩

/-- C1: `get_winner` is non-zero exactly when some row, column or diagonal is
complete (three identical non-zero marks); a non-zero result is the mark of a
complete line, so it is `m` when every complete line carries `m`; a full board
without a complete line gives 0. Holds for every board, in particular for
every 3x3 board with cells in {0, 1, -1}. -/
theorem get_winner_spec (b : Board) :
    (get_winner b ≠ 0 ↔ ∃ l ∈ lines, ∃ m, complete b l m) ∧
    (get_winner b ≠ 0 → ∃ l ∈ lines, complete b l (get_winner b)) ∧
    (∀ m, (∃ l ∈ lines, complete b l m) →
      (∀ l ∈ lines, ∀ k, complete b l k → k = m) → get_winner b = m) ∧
    ((∀ i < 3, ∀ j < 3, cell b i j ≠ 0) → (¬ ∃ l ∈ lines, ∃ m, complete b l m) →
      get_winner b = 0) := by
  refine ⟨⟨fun hw => ?_, fun ⟨l, hl, m, hc⟩ => get_winner_of_line b l hl m hc⟩,
    get_winner_line b, fun m ⟨l, hl, hc⟩ hu => ?_, fun _ hn => get_winner_zero b hn⟩
  · obtain ⟨l, hl, hc⟩ := get_winner_line b hw
    exact ⟨l, hl, _, hc⟩
  · obtain ⟨k, hk, hck⟩ := get_winner_line b (get_winner_of_line b l hl m hc)
    exact hu k hk _ hck

/-! ## Legal moves (C2) -/

theorem legal_moves_row_eq (b : Board) (i : Nat) (acc : List (Nat × Nat)) :
    legal_moves_row b i acc =
      acc ++ [(i, 0), (i, 1), (i, 2)].filter (fun p => cell b p.1 p.2 = 0) := by
  have hr : List.range 3 = [0, 1, 2] := rfl
  simp only [legal_moves_row, hr, List.foldl, List.filter]
  by_cases h0 : cell b i 0 = 0 <;> by_cases h1 : cell b i 1 = 0 <;>
    by_cases h2 : cell b i 2 = 0 <;> simp [h0, h1, h2]

theorem get_legal_moves_eq_filter (b : Board) :
    get_legal_moves b = allCells.filter (fun p => cell b p.1 p.2 = 0) := by
  have hr : List.range 3 = [0, 1, 2] := rfl
  have ha : allCells = [(0, 0), (0, 1), (0, 2)] ++ ([(1, 0), (1, 1), (1, 2)] ++
      [(2, 0), (2, 1), (2, 2)]) := rfl
  simp only [get_legal_moves, hr, List.foldl, legal_moves_row_eq, ha, List.filter_append,
    List.nil_append, List.append_assoc]

theorem mem_allCells (p : Nat × Nat) : p ∈ allCells ↔ p.1 < 3 ∧ p.2 < 3 := by
  obtain ⟨i, j⟩ := p
  simp only [allCells, List.mem_cons, Prod.mk.injEq, List.not_mem_nil, or_false]
  omega

theorem mem_get_legal_moves (b : Board) (p : Nat × Nat) :
    p ∈ get_legal_moves b ↔ p.1 < 3 ∧ p.2 < 3 ∧ cell b p.1 p.2 = 0 := by
  rw [get_legal_moves_eq_filter, List.mem_filter, mem_allCells]
  simp [and_assoc]

theorem get_legal_moves_nodup (b : Board) : (get_legal_moves b).Nodup := by
  rw [get_legal_moves_eq_filter]
  exact List.Nodup.filter _ (by decide)

theorem get_legal_moves_eq_nil (b : Board) :
    get_legal_moves b = [] ↔ ∀ i < 3, ∀ j < 3, cell b i j ≠ 0 := by
  rw [List.eq_nil_iff_forall_not_mem]
  constructor
  · intro h i hi j hj hz
    exact h (i, j) ((mem_get_legal_moves b (i, j)).2 ⟨hi, hj, hz⟩)
  · intro h p hp
    obtain ⟨h1, h2, h3⟩ := (mem_get_legal_moves b p).1 hp
    exact h p.1 h1 p.2 h2 h3

/-- C2: `get_legal_moves` lists exactly the coordinates of the zero cells, in
row-major order and without duplicates; it is empty exactly when the board has
no zero cell; the list is computed without looking at `get_winner`, so a
board with a winner still lists its remaining empty cells. -/
theorem get_legal_moves_spec (b : Board) :
    get_legal_moves b = allCells.filter (fun p => cell b p.1 p.2 = 0) ∧
    (get_legal_moves b).Pairwise rowMajorLt ∧
    (get_legal_moves b).Nodup ∧
    (get_legal_moves b = [] ↔ ∀ i < 3, ∀ j < 3, cell b i j ≠ 0) ∧
    (get_winner b ≠ 0 → ∀ i < 3, ∀ j < 3, cell b i j = 0 → (i, j) ∈ get_legal_moves b) := by
  refine ⟨get_legal_moves_eq_filter b, ?_, get_legal_moves_nodup b, get_legal_moves_eq_nil b,
    fun _ i hi j hj hz => (mem_get_legal_moves b (i, j)).2 ⟨hi, hj, hz⟩⟩
  rw [get_legal_moves_eq_filter]
  exact List.Pairwise.filter _ (by decide)

/-! ## Cells and writes -/

theorem cell_setCell (b : Board) (i j a c : Nat) (v : Int) :
    cell (setCell b i j v) a c =
      if a = i ∧ c = j ∧ i < b.length ∧ j < (b.getD i []).length then v else cell b a c := by
  unfold cell setCell
  simp only [List.getD_eq_getElem?_getD, List.getElem?_set]
  by_cases hai : i = a
  · subst hai
    by_cases hi : i < b.length
    · simp only [hi, if_true, true_and, and_true]
      simp only [Option.getD_some, List.getElem?_set]
      by_cases hcj : j = c
      · subst hcj
        by_cases hj : j < (b[i]?.getD []).length
        · simp [hj]
        · simp [hj, List.getElem?_eq_none (not_lt.1 hj)]
      · simp [hcj, Ne.symm hcj]
    · simp [hi, List.getElem?_eq_none (not_lt.1 hi)]
  · simp [hai, Ne.symm hai]

theorem is3x3_row (b : Board) (h3 : is3x3 b) (i : Nat) (hi : i < 3) :
    (b.getD i []).length = 3 := by
  obtain ⟨hl, hr⟩ := h3
  have : i < b.length := by omega
  rw [List.getD_eq_getElem?_getD, List.getElem?_eq_getElem this]
  exact hr _ (List.getElem_mem _)

theorem cell_setCell_3x3 (b : Board) (h3 : is3x3 b) (i j a c : Nat) (v : Int) (hi : i < 3)
    (hj : j < 3) : cell (setCell b i j v) a c = if (a, c) = (i, j) then v else cell b a c := by
  rw [cell_setCell]
  have h1 : i < b.length := by rw [h3.1]; exact hi
  have h2 : j < (b.getD i []).length := by rw [is3x3_row b h3 i hi]; exact hj
  have hiff : (a = i ∧ c = j ∧ i < b.length ∧ j < (b.getD i []).length) ↔ (a, c) = (i, j) := by
    simp only [Prod.mk.injEq]; tauto
  simp only [hiff]

theorem is3x3_setCell (b : Board) (h3 : is3x3 b) (i j : Nat) (v : Int) :
    is3x3 (setCell b i j v) := by
  obtain ⟨hl, hr⟩ := h3
  refine ⟨by simp [setCell, hl], fun row hrow => ?_⟩
  unfold setCell at hrow
  by_cases hi : i < b.length
  · rcases List.mem_or_eq_of_mem_set hrow with h | h
    · exact hr row h
    · rw [h, List.length_set, List.getD_eq_getElem?_getD, List.getElem?_eq_getElem hi]
      exact hr _ (List.getElem_mem _)
  · rw [List.set_eq_of_length_le (not_lt.1 hi)] at hrow
    exact hr row hrow

/-! ## Expansion (C3) -/

theorem set_self (h : Heap) (node : Nat) (n : Node) (hn : h[node]? = some n) :
    h.set node n = h := by
  apply List.ext_getElem?
  intro i
  rw [List.getElem?_set]
  split_ifs with h1 h2
  · rw [← h1, hn]
  · rw [← h1, List.getElem?_eq_none (not_lt.1 h2)]
  · rfl

theorem expand_step_eq (h : Heap) (node : Nat) (n : Node) (hn : h[node]? = some n)
    (move : Nat × Nat) :
    expand_step node h move =
      some (h.set node { n with children := n.children ++ [h.length] } ++
        [childNode n node move]) := by
  have hlt : node < h.length := (List.getElem?_eq_some_iff.1 hn).1
  simp only [expand_step, hn, childNode, newNode]
  rw [List.set_append_left _ _ hlt]

theorem expand_loop_eq (moves : List (Nat × Nat)) (h : Heap) (node : Nat) (n : Node)
    (hn : h[node]? = some n) :
    moves.foldlM (expand_step node) h =
      some (h.set node { n with children := n.children ++ List.range' h.length moves.length } ++
        moves.map (childNode n node)) := by
  induction moves generalizing h n with
  | nil =>
    simp only [List.foldlM_nil, List.length_nil, List.range'_zero, List.append_nil, List.map_nil,
      pure, Option.some.injEq]
    exact (set_self h node n hn).symm
  | cons m ms ih =>
    have hlt : node < h.length := (List.getElem?_eq_some_iff.1 hn).1
    rw [List.foldlM_cons, expand_step_eq h node n hn m]
    simp only [Option.bind_eq_bind, Option.some_bind]
    have hn1 : (h.set node { n with children := n.children ++ [h.length] } ++
        [childNode n node m])[node]? = some { n with children := n.children ++ [h.length] } := by
      rw [List.getElem?_append_left (by simpa using hlt)]
      simp [List.getElem?_set, hlt]
    rw [ih _ _ hn1]
    congr 1
    rw [List.set_append_left _ _ (by simpa using hlt), List.set_set]
    simp only [List.length_append, List.length_set, List.length_singleton, List.append_assoc,
      List.map_cons, List.singleton_append, List.length_cons]
    simp only [List.range'_succ, List.append_assoc, List.singleton_append, List.cons.injEq,
      true_and, and_true]
    rfl

theorem dist_zero_lt (k r : Nat) (hk : 0 < k) : dist 0 (k - 1) r < k := by
  unfold dist
  have : k - 1 - 0 + 1 = k := by omega
  rw [this, Nat.zero_add]
  exact Nat.mod_lt _ hk

theorem expand_eq (h : Heap) (node : Nat) (n : Node) (r : Nat) (hn : h[node]? = some n)
    (hc : n.children = []) (hlm : get_legal_moves n.state ≠ []) :
    expand h node r = some (expandHeap h node n,
      h.length + dist 0 ((get_legal_moves n.state).length - 1) r) := by
  have hlt : node < h.length := (List.getElem?_eq_some_iff.1 hn).1
  have hk : 0 < (get_legal_moves n.state).length := List.length_pos.2 hlm
  have hd := dist_zero_lt _ r hk
  have hne : (get_legal_moves n.state).isEmpty = false := by
    cases hl : get_legal_moves n.state with
    | nil => exact absurd hl hlm
    | cons a l => rfl
  have hnode : (expandHeap h node n)[node]? = some
      { n with children := n.children ++ List.range' h.length (get_legal_moves n.state).length } := by
    unfold expandHeap
    rw [List.getElem?_append_left (by simpa using hlt)]
    simp [List.getElem?_set, hlt]
  unfold expand
  simp only [hn, hne, Bool.false_eq_true, if_false, expand_loop_eq _ h node n hn]
  change (match (expandHeap h node n)[node]? with
    | none => none
    | some n1 =>
      match n1.children[dist 0 ((get_legal_moves n.state).length - 1) r]? with
      | none => none
      | some c => some (expandHeap h node n, c)) = _
  rw [hnode]
  simp only [hc, List.nil_append]
  rw [List.getElem?_eq_getElem (by simpa using hd)]
  simp [List.getElem_range']

theorem expandHeap_length (h : Heap) (node : Nat) (n : Node) :
    (expandHeap h node n).length = h.length + (get_legal_moves n.state).length := by
  simp [expandHeap]

theorem expandHeap_node (h : Heap) (node : Nat) (n : Node) (hn : h[node]? = some n) :
    (expandHeap h node n)[node]? = some
      { n with children := n.children ++ List.range' h.length (get_legal_moves n.state).length } := by
  have hlt : node < h.length := (List.getElem?_eq_some_iff.1 hn).1
  unfold expandHeap
  rw [List.getElem?_append_left (by simpa using hlt)]
  simp [List.getElem?_set, hlt]

theorem expandHeap_old (h : Heap) (node : Nat) (n : Node) (j : Nat) (hj : j < h.length)
    (hne : j ≠ node) : (expandHeap h node n)[j]? = h[j]? := by
  unfold expandHeap
  rw [List.getElem?_append_left (by simpa using hj)]
  simp [List.getElem?_set, Ne.symm hne]

theorem expandHeap_new (h : Heap) (node : Nat) (n : Node) (i : Nat)
    (hi : i < (get_legal_moves n.state).length) :
    (expandHeap h node n)[h.length + i]? =
      some (childNode n node ((get_legal_moves n.state).get ⟨i, hi⟩)) := by
  unfold expandHeap
  rw [List.getElem?_append_right (by simp)]
  simp [hi]

/-- C3: `expand` on a node without children, with at least one legal move and a
3x3 state, succeeds; afterwards the node has one child per legal move and is
otherwise unchanged, the returned node is one of the children, and the i-th
child has parent `node`, the opposite player, visits and wins 0, no children,
and a 3x3 state equal to the state of the node except at the i-th legal move,
whose cell was 0 and now holds the player of the node. -/
theorem expand_spec (h : Heap) (node : Nat) (n : Node) (r : Nat) (hn : h[node]? = some n)
    (hc : n.children = []) (hlm : get_legal_moves n.state ≠ []) (h3 : is3x3 n.state) :
    ∃ h1 c n1, expand h node r = some (h1, c) ∧ h1[node]? = some n1 ∧
      n1.children.length = (get_legal_moves n.state).length ∧ c ∈ n1.children ∧
      n1 = { n with children := n1.children } ∧
      ∀ i (hi : i < (get_legal_moves n.state).length),
        ∃ ci cn, n1.children[i]? = some ci ∧ h1[ci]? = some cn ∧
          cn.parent = some node ∧ cn.player = -n.player ∧ cn.visits = 0 ∧ cn.wins = 0 ∧
          cn.children = [] ∧ is3x3 cn.state ∧
          cell n.state ((get_legal_moves n.state).get ⟨i, hi⟩).1
            ((get_legal_moves n.state).get ⟨i, hi⟩).2 = 0 ∧
          cell cn.state ((get_legal_moves n.state).get ⟨i, hi⟩).1
            ((get_legal_moves n.state).get ⟨i, hi⟩).2 = n.player ∧
          ∀ a b, (a, b) ≠ (get_legal_moves n.state).get ⟨i, hi⟩ →
            cell cn.state a b = cell n.state a b := by
  have hk : 0 < (get_legal_moves n.state).length := List.length_pos.2 hlm
  have hd := dist_zero_lt _ r hk
  refine ⟨_, _, _, expand_eq h node n r hn hc hlm, expandHeap_node h node n hn, ?_, ?_, ?_, ?_⟩
  · simp [hc]
  · simp only [hc, List.nil_append, List.mem_range'_1]
    omega
  · rfl
  · intro i hi
    have hmem := (mem_get_legal_moves n.state _).1 (List.get_mem (get_legal_moves n.state) i hi)
    obtain ⟨ha, hb, hz⟩ := hmem
    refine ⟨h.length + i, _, ?_, expandHeap_new h node n i hi, rfl, rfl, rfl, rfl, rfl,
      is3x3_setCell _ h3 _ _ _, hz, ?_, ?_⟩
    · simp only [hc, List.nil_append]
      rw [List.getElem?_eq_getElem (by simpa using hi)]
      simp [List.getElem_range']
    · simp only [childNode]
      rw [cell_setCell_3x3 _ h3 _ _ _ _ _ ha hb]
      simp
    · intro a b hab
      simp only [childNode]
      rw [cell_setCell_3x3 _ h3 _ _ _ _ _ ha hb, if_neg hab]

theorem expand_spec_witness :
    [freshRoot emptyBoard AI_PLAYER][0]? = some (freshRoot emptyBoard AI_PLAYER) ∧
    get_legal_moves (freshRoot emptyBoard AI_PLAYER).state ≠ [] ∧
    ∃ h1 c, expand [freshRoot emptyBoard AI_PLAYER] 0 4 = some (h1, c) ∧ h1.length = 10 := by
  have h0 : [freshRoot emptyBoard AI_PLAYER][0]? = some (freshRoot emptyBoard AI_PLAYER) := rfl
  have h1 : get_legal_moves (freshRoot emptyBoard AI_PLAYER).state ≠ [] := by decide
  obtain ⟨h, c, n1, he, _⟩ :=
    expand_spec [freshRoot emptyBoard AI_PLAYER] 0 (freshRoot emptyBoard AI_PLAYER) 4 h0 rfl h1
      (by decide)
  refine ⟨h0, h1, h, c, he, ?_⟩
  have he2 := expand_eq [freshRoot emptyBoard AI_PLAYER] 0 (freshRoot emptyBoard AI_PLAYER) 4 h0
    rfl h1
  rw [he2] at he
  injection he with he
  injection he with he3 _
  rw [← he3, expandHeap_length]
  decide

/-! ## Doubles

The comparison of doubles is the comparison of the rational numbers they stand
for. Each operation returns a number with a significand of 53 bits that is
nearest to the exact result, the even one of two nearest: the IEEE rounding
to nearest, ties to even. -/

theorem Dbl.val_eq (x : Dbl) (e0 : Int) (h : e0 ≤ x.e) :
    x.val = ((x.m * 2 ^ (x.e - e0).toNat : Int) : ℚ) * (2 : ℚ) ^ e0 := by
  have hx : x.e = ((x.e - e0).toNat : Int) + e0 := by omega
  unfold Dbl.val
  conv_lhs => rw [hx]
  rw [zpow_add₀ (by norm_num : (2 : ℚ) ≠ 0), zpow_natCast]
  push_cast
  ring

/-- The comparison of doubles is the comparison of the numbers they stand for. -/
theorem Dbl.lt_iff (x y : Dbl) : Dbl.lt x y = true ↔ x.val < y.val := by
  rw [Dbl.val_eq x (min x.e y.e) (min_le_left _ _), Dbl.val_eq y (min x.e y.e) (min_le_right _ _)]
  have hpos : (0 : ℚ) < (2 : ℚ) ^ (min x.e y.e) := zpow_pos (by norm_num) _
  rw [mul_lt_mul_right hpos, Int.cast_lt]
  simp only [Dbl.lt, decide_eq_true_eq]

theorem Dbl.twice_val (x : Dbl) : (Dbl.twice x).val = 2 * x.val := by
  simp only [Dbl.twice, Dbl.val]
  rw [zpow_add₀ (by norm_num : (2 : ℚ) ≠ 0), zpow_one]
  ring

theorem bitLength_spec (fuel n : Nat) (hn : 0 < n) (hf : n ≤ fuel) :
    2 ^ (bitLength fuel n - 1) ≤ n ∧ n < 2 ^ bitLength fuel n := by
  induction fuel generalizing n with
  | zero => omega
  | succ fuel ih =>
    simp only [bitLength, hn.ne', if_false]
    by_cases h2 : n / 2 = 0
    · have h1 : n = 1 := by omega
      subst h1
      cases fuel <;> simp [bitLength]
    · have hpos : 0 < n / 2 := Nat.pos_of_ne_zero h2
      obtain ⟨h1, h3⟩ := ih (n / 2) hpos (by omega)
      have hb : 1 ≤ bitLength fuel (n / 2) := by
        by_contra hc
        have h0 : bitLength fuel (n / 2) = 0 := by omega
        rw [h0] at h3
        simp at h3
        omega
      constructor
      · have he : bitLength fuel (n / 2) + 1 - 1 = (bitLength fuel (n / 2) - 1) + 1 := by omega
        rw [he, pow_succ]
        omega
      · rw [pow_succ]
        omega

theorem isqrtAux_spec (R : Nat) (i acc : Nat) (h1 : acc * acc ≤ R)
    (h2 : R < (acc + 2 ^ i) * (acc + 2 ^ i)) :
    isqrtAux R i acc * isqrtAux R i acc ≤ R ∧
      R < (isqrtAux R i acc + 1) * (isqrtAux R i acc + 1) := by
  induction i generalizing acc with
  | zero => simpa [isqrtAux] using ⟨h1, h2⟩
  | succ i ih =>
    simp only [isqrtAux]
    by_cases hc : (acc + 2 ^ i) * (acc + 2 ^ i) ≤ R
    · simp only [hc, if_true]
      refine ih _ hc ?_
      have : acc + 2 ^ i + 2 ^ i = acc + 2 ^ (i + 1) := by rw [pow_succ]; omega
      rw [this]
      exact h2
    · simp only [hc, if_false]
      exact ih _ h1 (not_le.1 hc)

/-- Rounding a quotient to the nearest integer leaves an error of at most one half. -/
theorem round_half (num den : Nat) (hd : 0 < den) :
    |(num : ℚ) / den - ((if den < 2 * (num % den) ∨ (2 * (num % den) = den ∧ num / den % 2 = 1)
        then num / den + 1 else num / den : Nat) : ℚ)| ≤ 1 / 2 := by
  have hdm : ((den * (num / den) + num % den : Nat) : ℚ) = (num : ℚ) := by
    rw [Nat.div_add_mod]
  have hlt : num % den < den := Nat.mod_lt _ hd
  have hd' : (0 : ℚ) < (den : ℚ) := by exact_mod_cast hd
  push_cast at hdm
  have hq : (num : ℚ) / den = ((num / den : Nat) : ℚ) + ((num % den : Nat) : ℚ) / den := by
    rw [← hdm]
    field_simp
    ring
  have hr0 : (0 : ℚ) ≤ ((num % den : Nat) : ℚ) / den := by positivity
  rw [hq, abs_le]
  split_ifs with hc
  · have h2 : den ≤ 2 * (num % den) := by
      rcases hc with hc | hc
      · omega
      · omega
    have h2' : (den : ℚ) ≤ 2 * ((num % den : Nat) : ℚ) := by exact_mod_cast h2
    have hlt' : ((num % den : Nat) : ℚ) < (den : ℚ) := by exact_mod_cast hlt
    have h3 : (1 : ℚ) / 2 ≤ ((num % den : Nat) : ℚ) / den := by
      rw [le_div_iff₀ hd']
      linarith
    have h4 : ((num % den : Nat) : ℚ) / den < 1 := by
      rw [div_lt_one hd']
      exact hlt'
    push_cast
    constructor <;> linarith
  · have h2 : 2 * (num % den) ≤ den := by
      by_contra h
      exact hc (Or.inl (by omega))
    have h2' : 2 * ((num % den : Nat) : ℚ) ≤ (den : ℚ) := by exact_mod_cast h2
    have h3 : ((num % den : Nat) : ℚ) / den ≤ 1 / 2 := by
      rw [div_le_iff₀ hd']
      linarith
    constructor <;> linarith

theorem quot_scaled (a b : Nat) (e : Int) :
    (a : ℚ) / (b * 2 ^ e) = ((if 0 ≤ e then a else a * 2 ^ (-e).toNat : Nat) : ℚ) /
      ((if 0 ≤ e then b * 2 ^ e.toNat else b : Nat) : ℚ) := by
  split_ifs with he
  · have h2 : (2 : ℚ) ^ e = ((2 ^ e.toNat : Nat) : ℚ) := by
      push_cast
      rw [← zpow_natCast, Int.toNat_of_nonneg he]
    rw [h2]
    push_cast
    rfl
  · have h2 : (2 : ℚ) ^ e = (((2 ^ (-e).toNat : Nat) : ℚ))⁻¹ := by
      push_cast
      rw [← zpow_natCast, Int.toNat_of_nonneg (by omega), zpow_neg, inv_inv]
    rw [h2]
    push_cast
    field_simp

theorem scaled_den_pos (b : Nat) (e : Int) (hb : 0 < b) :
    0 < (if 0 ≤ e then b * 2 ^ e.toNat else b : Nat) := by
  split_ifs
  · positivity
  · exact hb

/-- The value `roundAt a b e` is an integer nearest to `a / (b * 2^e)`. -/
theorem roundAt_spec (a b : Nat) (e : Int) (hb : 0 < b) :
    |(a : ℚ) / (b * 2 ^ e) - (roundAt a b e : ℚ)| ≤ 1 / 2 := by
  rw [quot_scaled]
  exact round_half _ _ (scaled_den_pos b e hb)

/-- The value `floorAt a b e` is the integer part of `a / (b * 2^e)`. -/
theorem floorAt_spec (a b : Nat) (e : Int) (hb : 0 < b) :
    (floorAt a b e : ℚ) ≤ (a : ℚ) / (b * 2 ^ e) ∧ (a : ℚ) / (b * 2 ^ e) < (floorAt a b e : ℚ) + 1 := by
  have hf : floorAt a b e = (if 0 ≤ e then a else a * 2 ^ (-e).toNat : Nat) /
      (if 0 ≤ e then b * 2 ^ e.toNat else b : Nat) := by
    unfold floorAt
    split_ifs <;> rfl
  rw [quot_scaled, hf, ← Nat.floor_div_eq_div (α := ℚ)]
  have hnn : (0 : ℚ) ≤ ((if 0 ≤ e then a else a * 2 ^ (-e).toNat : Nat) : ℚ) /
      ((if 0 ≤ e then b * 2 ^ e.toNat else b : Nat) : ℚ) := by positivity
  exact ⟨Nat.floor_le hnn, Nat.lt_floor_add_one _⟩

theorem near_range (y : ℚ) (m lo hi : Nat) (h : |y - (m : ℚ)| ≤ 1 / 2) (h1 : (lo : ℚ) ≤ y)
    (h2 : y ≤ (hi : ℚ)) : lo ≤ m ∧ m ≤ hi := by
  rw [abs_le] at h
  constructor
  · by_contra hc
    have h3 : m + 1 ≤ lo := by omega
    have h4 : ((m + 1 : Nat) : ℚ) ≤ (lo : ℚ) := Nat.cast_le.2 h3
    push_cast at h4
    linarith
  · by_contra hc
    have h3 : hi + 1 ≤ m := by omega
    have h4 : ((hi + 1 : Nat) : ℚ) ≤ (m : ℚ) := Nat.cast_le.2 h3
    push_cast at h4
    linarith

theorem bitLength_zpow (n : Nat) (hn : 0 < n) :
    (2 : ℚ) ^ ((bitLength n n : Int) - 1) ≤ (n : ℚ) ∧ (n : ℚ) < (2 : ℚ) ^ (bitLength n n : Int) := by
  obtain ⟨h1, h2⟩ := bitLength_spec n n hn (le_refl _)
  have hb : 1 ≤ bitLength n n := by
    by_contra hc
    have h0 : bitLength n n = 0 := by omega
    rw [h0] at h2
    simp at h2
    omega
  have e1 : ((bitLength n n : Int) - 1) = ((bitLength n n - 1 : Nat) : Int) := by omega
  rw [e1, zpow_natCast, zpow_natCast]
  exact ⟨by exact_mod_cast h1, by exact_mod_cast h2⟩

/-- The result `(m, e)` of `roundNat a b` has a significand of 53 bits
(`2^52 ≤ m ≤ 2^53`) and `m * 2^e` is within half a unit `2^e` of `a / b`. -/
theorem roundNat_spec (a b : Nat) (ha : 0 < a) (hb : 0 < b) :
    2 ^ 52 ≤ (roundNat a b).1 ∧ (roundNat a b).1 ≤ 2 ^ 53 ∧
    |(a : ℚ) / b - ((roundNat a b).1 : ℚ) * (2 : ℚ) ^ (roundNat a b).2| ≤
      (2 : ℚ) ^ (roundNat a b).2 / 2 := by
  obtain ⟨ha1, ha2⟩ := bitLength_zpow a ha
  obtain ⟨hb1, hb2⟩ := bitLength_zpow b hb
  have hr : roundNat a b =
      if floorAt a b ((bitLength a a : Int) - (bitLength b b : Int) - 53) < 2 ^ 53 then
        (roundAt a b ((bitLength a a : Int) - (bitLength b b : Int) - 53),
          (bitLength a a : Int) - (bitLength b b : Int) - 53)
      else (roundAt a b ((bitLength a a : Int) - (bitLength b b : Int) - 53 + 1),
          (bitLength a a : Int) - (bitLength b b : Int) - 53 + 1) := rfl
  generalize (bitLength a a : Int) = la at *
  generalize (bitLength b b : Int) = lb at *
  have h2 : (2 : ℚ) ≠ 0 := by norm_num
  have hP : (0 : ℚ) < (2 : ℚ) ^ (la - lb - 53) := zpow_pos (by norm_num) _
  have hP1 : (2 : ℚ) ^ (la - lb - 53 + 1) = 2 * (2 : ℚ) ^ (la - lb - 53) := by
    rw [zpow_add₀ h2, zpow_one]
    ring
  have ha' : (0 : ℚ) < (a : ℚ) := by exact_mod_cast ha
  have hb' : (0 : ℚ) < (b : ℚ) := by exact_mod_cast hb
  have e1 : (2 : ℚ) ^ (52 : Int) * (2 : ℚ) ^ lb * (2 : ℚ) ^ (la - lb - 53) = (2 : ℚ) ^ (la - 1) := by
    rw [← zpow_add₀ h2, ← zpow_add₀ h2]
    congr 1
    ring
  have e2 : (2 : ℚ) ^ (54 : Int) * (2 : ℚ) ^ (lb - 1) * (2 : ℚ) ^ (la - lb - 53) = (2 : ℚ) ^ la := by
    rw [← zpow_add₀ h2, ← zpow_add₀ h2]
    congr 1
    ring
  have hlo : ((2 ^ 52 : Nat) : ℚ) ≤ (a : ℚ) / (b * (2 : ℚ) ^ (la - lb - 53)) := by
    rw [le_div_iff₀ (by positivity)]
    push_cast
    have h3 : (2 : ℚ) ^ 52 * ((b : ℚ) * (2 : ℚ) ^ (la - lb - 53)) ≤
        (2 : ℚ) ^ (52 : Int) * (2 : ℚ) ^ lb * (2 : ℚ) ^ (la - lb - 53) := by
      have h4 : (2 : ℚ) ^ (52 : Int) = (2 : ℚ) ^ 52 := by norm_cast
      rw [h4]
      have h5 : (b : ℚ) * (2 : ℚ) ^ (la - lb - 53) ≤ (2 : ℚ) ^ lb * (2 : ℚ) ^ (la - lb - 53) :=
        mul_le_mul_of_nonneg_right hb2.le hP.le
      nlinarith
    rw [e1] at h3
    linarith
  have hhi : (a : ℚ) / (b * (2 : ℚ) ^ (la - lb - 53)) ≤ ((2 ^ 54 : Nat) : ℚ) := by
    rw [div_le_iff₀ (by positivity)]
    push_cast
    have h3 : (2 : ℚ) ^ (54 : Int) * (2 : ℚ) ^ (lb - 1) * (2 : ℚ) ^ (la - lb - 53) ≤
        (2 : ℚ) ^ 54 * ((b : ℚ) * (2 : ℚ) ^ (la - lb - 53)) := by
      have h4 : (2 : ℚ) ^ (54 : Int) = (2 : ℚ) ^ 54 := by norm_cast
      rw [h4]
      have h5 : (2 : ℚ) ^ (lb - 1) * (2 : ℚ) ^ (la - lb - 53) ≤ (b : ℚ) * (2 : ℚ) ^ (la - lb - 53) :=
        mul_le_mul_of_nonneg_right hb1 hP.le
      nlinarith
    rw [e2] at h3
    linarith
  obtain ⟨hf1, hf2⟩ := floorAt_spec a b (la - lb - 53) hb
  rw [hr]
  split_ifs with hfl
  · have hs := roundAt_spec a b (la - lb - 53) hb
    have hfl' : ((floorAt a b (la - lb - 53) + 1 : Nat) : ℚ) ≤ ((2 ^ 53 : Nat) : ℚ) :=
      Nat.cast_le.2 hfl
    push_cast at hfl'
    obtain ⟨r1, r2⟩ := near_range _ _ (2 ^ 52) (2 ^ 53) hs hlo (by push_cast; linarith)
    refine ⟨r1, r2, ?_⟩
    simp only []
    have hx : (a : ℚ) / b = (a : ℚ) / (b * (2 : ℚ) ^ (la - lb - 53)) * (2 : ℚ) ^ (la - lb - 53) := by
      field_simp
      ring
    rw [hx, ← sub_mul, abs_mul, abs_of_pos hP]
    nlinarith
  · have hs := roundAt_spec a b (la - lb - 53 + 1) hb
    have hfl' : ((2 ^ 53 : Nat) : ℚ) ≤ ((floorAt a b (la - lb - 53) : Nat) : ℚ) :=
      Nat.cast_le.2 (not_lt.1 hfl)
    push_cast at hfl'
    have hy : (a : ℚ) / (b * (2 : ℚ) ^ (la - lb - 53 + 1)) =
        (a : ℚ) / (b * (2 : ℚ) ^ (la - lb - 53)) / 2 := by
      rw [hP1, div_div]
      congr 1
      ring
    push_cast at hlo hhi
    obtain ⟨r1, r2⟩ := near_range _ _ (2 ^ 52) (2 ^ 53) hs
      (by rw [hy]; push_cast; linarith) (by rw [hy]; push_cast; linarith)
    refine ⟨r1, r2, ?_⟩
    simp only []
    have hP' : (0 : ℚ) < (2 : ℚ) ^ (la - lb - 53 + 1) := zpow_pos (by norm_num) _
    have hx : (a : ℚ) / b =
        (a : ℚ) / (b * (2 : ℚ) ^ (la - lb - 53 + 1)) * (2 : ℚ) ^ (la - lb - 53 + 1) := by
      field_simp
      ring
    rw [hx, ← sub_mul, abs_mul, abs_of_pos hP']
    nlinarith

/-- When the quotient lies halfway between two integers, the rounded value is
even. -/
theorem round_tie_even (num den : Nat) (hd : 0 < den)
    (ht : |(num : ℚ) / den - ((if den < 2 * (num % den) ∨ (2 * (num % den) = den ∧ num / den % 2 = 1)
        then num / den + 1 else num / den : Nat) : ℚ)| = 1 / 2) :
    (if den < 2 * (num % den) ∨ (2 * (num % den) = den ∧ num / den % 2 = 1)
        then num / den + 1 else num / den) % 2 = 0 := by
  have hdm : ((den * (num / den) + num % den : Nat) : ℚ) = (num : ℚ) := by
    rw [Nat.div_add_mod]
  have hlt : num % den < den := Nat.mod_lt _ hd
  have hd' : (0 : ℚ) < (den : ℚ) := by exact_mod_cast hd
  push_cast at hdm
  have hq : (num : ℚ) / den = ((num / den : Nat) : ℚ) + ((num % den : Nat) : ℚ) / den := by
    rw [← hdm]
    field_simp
    ring
  have hr0 : (0 : ℚ) ≤ ((num % den : Nat) : ℚ) / den := by positivity
  have hlt' : ((num % den : Nat) : ℚ) < (den : ℚ) := by exact_mod_cast hlt
  have h4 : ((num % den : Nat) : ℚ) / den < 1 := by
    rw [div_lt_one hd']
    exact hlt'
  rw [hq] at ht
  have key : ((num % den : Nat) : ℚ) / den = 1 / 2 → 2 * (num % den) = den := by
    intro h
    rw [div_eq_iff hd'.ne'] at h
    have h5 : (2 : ℚ) * ((num % den : Nat) : ℚ) = (den : ℚ) := by linarith
    exact_mod_cast h5
  split_ifs at ht ⊢ with hc
  · push_cast at ht
    have e : ((num / den : Nat) : ℚ) + ((num % den : Nat) : ℚ) / den - (((num / den : Nat) : ℚ) + 1) =
        -(1 - ((num % den : Nat) : ℚ) / den) := by ring
    rw [e, abs_neg, abs_of_pos (by linarith)] at ht
    have h2 := key (by linarith)
    rcases hc with hc | hc
    · omega
    · omega
  · have e : ((num / den : Nat) : ℚ) + ((num % den : Nat) : ℚ) / den - ((num / den : Nat) : ℚ) =
        ((num % den : Nat) : ℚ) / den := by ring
    rw [e, abs_of_nonneg hr0] at ht
    have h2 := key ht
    by_contra hodd
    exact hc (Or.inr ⟨h2, by omega⟩)

theorem roundAt_tie (a b : Nat) (e : Int) (hb : 0 < b)
    (ht : |(a : ℚ) / (b * 2 ^ e) - (roundAt a b e : ℚ)| = 1 / 2) : roundAt a b e % 2 = 0 := by
  rw [quot_scaled] at ht
  exact round_tie_even _ _ (scaled_den_pos b e hb) ht

/-- When `a / b` lies halfway between two neighbours of 53 bits, `roundNat`
returns the one with the even significand. -/
theorem roundNat_tie (a b : Nat) (hb : 0 < b)
    (ht : |(a : ℚ) / b - ((roundNat a b).1 : ℚ) * (2 : ℚ) ^ (roundNat a b).2| =
      (2 : ℚ) ^ (roundNat a b).2 / 2) : (roundNat a b).1 % 2 = 0 := by
  have hr : roundNat a b =
      if floorAt a b ((bitLength a a : Int) - (bitLength b b : Int) - 53) < 2 ^ 53 then
        (roundAt a b ((bitLength a a : Int) - (bitLength b b : Int) - 53),
          (bitLength a a : Int) - (bitLength b b : Int) - 53)
      else (roundAt a b ((bitLength a a : Int) - (bitLength b b : Int) - 53 + 1),
          (bitLength a a : Int) - (bitLength b b : Int) - 53 + 1) := rfl
  have hb' : (0 : ℚ) < (b : ℚ) := by exact_mod_cast hb
  have key : ∀ e : Int, |(a : ℚ) / b - (roundAt a b e : ℚ) * (2 : ℚ) ^ e| = (2 : ℚ) ^ e / 2 →
      roundAt a b e % 2 = 0 := by
    intro e h
    have hP : (0 : ℚ) < (2 : ℚ) ^ e := zpow_pos (by norm_num) _
    apply roundAt_tie a b e hb
    have hx : (a : ℚ) / b = (a : ℚ) / (b * (2 : ℚ) ^ e) * (2 : ℚ) ^ e := by
      field_simp
      ring
    rw [hx, ← sub_mul, abs_mul, abs_of_pos hP] at h
    have h1 : |(a : ℚ) / (b * (2 : ℚ) ^ e) - (roundAt a b e : ℚ)| * (2 : ℚ) ^ e = 1 / 2 * (2 : ℚ) ^ e := by
      rw [h]
      ring
    exact mul_right_cancel₀ hP.ne' h1
  rw [hr] at ht ⊢
  split_ifs at ht ⊢ with hfl
  · exact key _ ht
  · exact key _ ht

/-- The double `p / q` of two non-zero integers has a significand of 53 bits
and is within half a unit of the last place of the quotient. -/
theorem Dbl.ofQuot_spec (p q : Int) (hp : p ≠ 0) (hq : q ≠ 0) :
    2 ^ 52 ≤ |(Dbl.ofQuot p q).m| ∧ |(Dbl.ofQuot p q).m| ≤ 2 ^ 53 ∧
    |(p : ℚ) / q - (Dbl.ofQuot p q).val| ≤ (2 : ℚ) ^ (Dbl.ofQuot p q).e / 2 := by
  obtain ⟨h1, h2, h3⟩ := roundNat_spec p.natAbs q.natAbs (Int.natAbs_pos.2 hp) (Int.natAbs_pos.2 hq)
  have h1' : (2 : Int) ^ 52 ≤ ((roundNat p.natAbs q.natAbs).1 : Int) := by exact_mod_cast h1
  have h2' : ((roundNat p.natAbs q.natAbs).1 : Int) ≤ (2 : Int) ^ 53 := by exact_mod_cast h2
  have hnn : (0 : Int) ≤ ((roundNat p.natAbs q.natAbs).1 : Int) := Int.natCast_nonneg _
  rw [Nat.cast_natAbs, Nat.cast_natAbs, Int.cast_abs, Int.cast_abs] at h3
  simp only [Dbl.ofQuot, hp, if_false, Dbl.val]
  by_cases hs : (p < 0) = (q < 0)
  · simp only [hs, if_true]
    refine ⟨by rw [abs_of_nonneg hnn]; exact h1', by rw [abs_of_nonneg hnn]; exact h2', ?_⟩
    have hpq : |(p : ℚ)| / |(q : ℚ)| = (p : ℚ) / q := by
      rw [← abs_div]
      apply abs_of_nonneg
      rcases lt_or_gt_of_ne hp with hp1 | hp1 <;> rcases lt_or_gt_of_ne hq with hq1 | hq1
      · have a1 : (p : ℚ) < 0 := by exact_mod_cast hp1
        have a2 : (q : ℚ) < 0 := by exact_mod_cast hq1
        exact (div_pos_of_neg_of_neg a1 a2).le
      · exfalso
        have : ¬ (q < 0) := not_lt.2 hq1.le
        rw [← hs] at this
        exact this hp1
      · exfalso
        have : ¬ (p < 0) := not_lt.2 hp1.le
        rw [hs] at this
        exact this hq1
      · have a1 : (0 : ℚ) < p := by exact_mod_cast hp1
        have a2 : (0 : ℚ) < q := by exact_mod_cast hq1
        exact (div_pos a1 a2).le
    rw [hpq] at h3
    push_cast
    exact h3
  · simp only [hs, if_false]
    refine ⟨by rw [abs_neg, abs_of_nonneg hnn]; exact h1',
      by rw [abs_neg, abs_of_nonneg hnn]; exact h2', ?_⟩
    have hpq : |(p : ℚ)| / |(q : ℚ)| = -((p : ℚ) / q) := by
      rw [← abs_div]
      apply abs_of_nonpos
      rcases lt_or_gt_of_ne hp with hp1 | hp1 <;> rcases lt_or_gt_of_ne hq with hq1 | hq1
      · exfalso
        apply hs
        simp [hp1, hq1]
      · have a1 : (p : ℚ) < 0 := by exact_mod_cast hp1
        have a2 : (0 : ℚ) < q := by exact_mod_cast hq1
        exact (div_neg_of_neg_of_pos a1 a2).le
      · have a1 : (0 : ℚ) < p := by exact_mod_cast hp1
        have a2 : (q : ℚ) < 0 := by exact_mod_cast hq1
        exact (div_neg_of_pos_of_neg a1 a2).le
      · exfalso
        apply hs
        simp [not_lt.2 hp1.le, not_lt.2 hq1.le]
    rw [hpq] at h3
    push_cast
    rw [abs_sub_comm] at h3
    have e : (p : ℚ) / q - -((roundNat p.natAbs q.natAbs).1 : ℚ) * 2 ^ (roundNat p.natAbs q.natAbs).2 =
        -(-((p : ℚ) / q) - ((roundNat p.natAbs q.natAbs).1 : ℚ) * 2 ^ (roundNat p.natAbs q.natAbs).2) := by
      ring
    rw [e, abs_neg, abs_sub_comm]
    exact h3

theorem Dbl.add_exact (x y : Dbl) :
    x.val + y.val = ((x.m * 2 ^ (x.e - min x.e y.e).toNat +
      y.m * 2 ^ (y.e - min x.e y.e).toNat : Int) : ℚ) * (2 : ℚ) ^ (min x.e y.e) := by
  rw [Dbl.val_eq x (min x.e y.e) (min_le_left _ _), Dbl.val_eq y (min x.e y.e) (min_le_right _ _)]
  push_cast
  ring

/-- The double sum of two doubles whose exact sum is not zero has a
significand of 53 bits and is within half a unit of the last place of the
exact sum. -/
theorem Dbl.add_spec (x y : Dbl) (hs : x.val + y.val ≠ 0) :
    2 ^ 52 ≤ |(Dbl.add x y).m| ∧ |(Dbl.add x y).m| ≤ 2 ^ 53 ∧
    |x.val + y.val - (Dbl.add x y).val| ≤ (2 : ℚ) ^ (Dbl.add x y).e / 2 := by
  have hex := Dbl.add_exact x y
  generalize hS : (x.m * 2 ^ (x.e - min x.e y.e).toNat + y.m * 2 ^ (y.e - min x.e y.e).toNat : Int) = s
    at hex
  have hs0 : s ≠ 0 := by
    intro h0
    apply hs
    rw [hex, h0]
    simp
  have hadd : Dbl.add x y =
      ⟨if 0 < s then (((if 0 ≤ min x.e y.e then roundNat (s.natAbs * 2 ^ (min x.e y.e).toNat) 1
          else roundNat s.natAbs (2 ^ (-(min x.e y.e)).toNat)).1 : Nat) : Int)
        else -(((if 0 ≤ min x.e y.e then roundNat (s.natAbs * 2 ^ (min x.e y.e).toNat) 1
          else roundNat s.natAbs (2 ^ (-(min x.e y.e)).toNat)).1 : Nat) : Int),
       (if 0 ≤ min x.e y.e then roundNat (s.natAbs * 2 ^ (min x.e y.e).toNat) 1
          else roundNat s.natAbs (2 ^ (-(min x.e y.e)).toNat)).2⟩ := by
    simp only [Dbl.add, hS, hs0, if_false]
  generalize min x.e y.e = e0 at hex hadd
  have hspec : ∃ r : Nat × Int, (if 0 ≤ e0 then roundNat (s.natAbs * 2 ^ e0.toNat) 1
      else roundNat s.natAbs (2 ^ (-e0).toNat)) = r ∧ 2 ^ 52 ≤ r.1 ∧ r.1 ≤ 2 ^ 53 ∧
      |(|(s : ℚ)| * (2 : ℚ) ^ e0) - (r.1 : ℚ) * (2 : ℚ) ^ r.2| ≤ (2 : ℚ) ^ r.2 / 2 := by
    have hsp : 0 < s.natAbs := Int.natAbs_pos.2 hs0
    split_ifs with he
    · obtain ⟨h1, h2, h3⟩ := roundNat_spec (s.natAbs * 2 ^ e0.toNat) 1 (by positivity) (by norm_num)
      refine ⟨_, rfl, h1, h2, ?_⟩
      have e : ((s.natAbs * 2 ^ e0.toNat : Nat) : ℚ) / ((1 : Nat) : ℚ) = |(s : ℚ)| * (2 : ℚ) ^ e0 := by
        push_cast
        rw [Nat.cast_natAbs, Int.cast_abs, div_one]
        congr 1
        rw [← zpow_natCast, Int.toNat_of_nonneg he]
      rw [e] at h3
      exact h3
    · obtain ⟨h1, h2, h3⟩ := roundNat_spec s.natAbs (2 ^ (-e0).toNat) hsp (by positivity)
      refine ⟨_, rfl, h1, h2, ?_⟩
      have e : ((s.natAbs : Nat) : ℚ) / ((2 ^ (-e0).toNat : Nat) : ℚ) = |(s : ℚ)| * (2 : ℚ) ^ e0 := by
        push_cast
        rw [Nat.cast_natAbs, Int.cast_abs, div_eq_mul_inv]
        congr 1
        rw [← zpow_natCast, Int.toNat_of_nonneg (by omega), zpow_neg, inv_inv]
      rw [e] at h3
      exact h3
  obtain ⟨r, hr, h1, h2, h3⟩ := hspec
  rw [hr] at hadd
  have h1' : (2 : Int) ^ 52 ≤ (r.1 : Int) := by exact_mod_cast h1
  have h2' : (r.1 : Int) ≤ (2 : Int) ^ 53 := by exact_mod_cast h2
  have hnn : (0 : Int) ≤ (r.1 : Int) := Int.natCast_nonneg _
  rw [hadd, hex]
  simp only [Dbl.val]
  by_cases hpos : 0 < s
  · simp only [hpos, if_true]
    refine ⟨by rw [abs_of_nonneg hnn]; exact h1', by rw [abs_of_nonneg hnn]; exact h2', ?_⟩
    have hq : |(s : ℚ)| = (s : ℚ) := abs_of_pos (by exact_mod_cast hpos)
    rw [hq] at h3
    push_cast
    exact h3
  · simp only [hpos, if_false]
    refine ⟨by rw [abs_neg, abs_of_nonneg hnn]; exact h1',
      by rw [abs_neg, abs_of_nonneg hnn]; exact h2', ?_⟩
    have hneg : s < 0 := lt_of_le_of_ne (not_lt.1 hpos) hs0
    have hq : |(s : ℚ)| = -(s : ℚ) := abs_of_neg (by exact_mod_cast hneg)
    rw [hq] at h3
    push_cast
    have e : (s : ℚ) * 2 ^ e0 - -(r.1 : ℚ) * 2 ^ r.2 = -(-(s : ℚ) * 2 ^ e0 - (r.1 : ℚ) * 2 ^ r.2) := by
      ring
    rw [e, abs_neg]
    exact h3

theorem Dbl.add_zero_sum (x y : Dbl) (hs : x.val + y.val = 0) : (Dbl.add x y).val = 0 := by
  have hex := Dbl.add_exact x y
  rw [hs] at hex
  have h0 : (x.m * 2 ^ (x.e - min x.e y.e).toNat + y.m * 2 ^ (y.e - min x.e y.e).toNat : Int) = 0 := by
    have hP : (2 : ℚ) ^ (min x.e y.e) ≠ 0 := (zpow_pos (by norm_num) _).ne'
    rcases mul_eq_zero.1 hex.symm with h | h
    · exact_mod_cast h
    · exact absurd h hP
  simp [Dbl.add, h0, Dbl.val]

/-- The double square root of a positive double (a significand below `2^54`)
has a significand of 53 bits, and the exact square root lies within half a
unit of the last place of it. -/
theorem Dbl.sqrt_spec (x : Dbl) (hm : 0 < x.m) (hb : x.m < 2 ^ 54) :
    2 ^ 52 ≤ (Dbl.sqrt x).m ∧ (Dbl.sqrt x).m ≤ 2 ^ 53 ∧
    ((Dbl.sqrt x).val - (2 : ℚ) ^ (Dbl.sqrt x).e / 2) ^ 2 ≤ x.val ∧
    x.val ≤ ((Dbl.sqrt x).val + (2 : ℚ) ^ (Dbl.sqrt x).e / 2) ^ 2 := by
  have hsq : Dbl.sqrt x =
      ⟨if isqrtAux (x.m.natAbs * 2 ^ (x.e + 2 * Int.fdiv (106 - (bitLength x.m.natAbs x.m.natAbs : Int) - x.e) 2).toNat) 53 0 <
          x.m.natAbs * 2 ^ (x.e + 2 * Int.fdiv (106 - (bitLength x.m.natAbs x.m.natAbs : Int) - x.e) 2).toNat -
          isqrtAux (x.m.natAbs * 2 ^ (x.e + 2 * Int.fdiv (106 - (bitLength x.m.natAbs x.m.natAbs : Int) - x.e) 2).toNat) 53 0 *
          isqrtAux (x.m.natAbs * 2 ^ (x.e + 2 * Int.fdiv (106 - (bitLength x.m.natAbs x.m.natAbs : Int) - x.e) 2).toNat) 53 0
        then (isqrtAux (x.m.natAbs * 2 ^ (x.e + 2 * Int.fdiv (106 - (bitLength x.m.natAbs x.m.natAbs : Int) - x.e) 2).toNat) 53 0 : Int) + 1
        else (isqrtAux (x.m.natAbs * 2 ^ (x.e + 2 * Int.fdiv (106 - (bitLength x.m.natAbs x.m.natAbs : Int) - x.e) 2).toNat) 53 0 : Int),
       -Int.fdiv (106 - (bitLength x.m.natAbs x.m.natAbs : Int) - x.e) 2⟩ := by
    simp only [Dbl.sqrt, not_le.2 hm, if_false]
  have hmabs : (x.m.natAbs : Int) = x.m := Int.natAbs_of_nonneg hm.le
  have hmpos : 0 < x.m.natAbs := Int.natAbs_pos.2 hm.ne'
  have hmlt : x.m.natAbs < 2 ^ 54 := by
    have : (x.m.natAbs : Int) < 2 ^ 54 := by rw [hmabs]; exact hb
    exact_mod_cast this
  obtain ⟨hl1, hl2⟩ := bitLength_spec x.m.natAbs x.m.natAbs hmpos (le_refl _)
  have hxv : x.val = (x.m.natAbs : ℚ) * (2 : ℚ) ^ x.e := by
    have h : ((x.m.natAbs : Nat) : ℚ) = (x.m : ℚ) := by rw [← Int.cast_natCast, hmabs]
    unfold Dbl.val
    rw [h]
  generalize x.m.natAbs = m at *
  generalize hlm : bitLength m m = lm at *
  have hlm1 : 1 ≤ lm := by
    by_contra hc
    have h0 : lm = 0 := by omega
    rw [h0] at hl2
    simp at hl2
    omega
  have hlm2 : lm ≤ 54 := by
    by_contra hc
    have h1 : 54 ≤ lm - 1 := by omega
    have h2 : 2 ^ 54 ≤ 2 ^ (lm - 1) := Nat.pow_le_pow_right (by norm_num) h1
    omega
  have hfd : Int.fdiv (106 - (lm : Int) - x.e) 2 = (106 - (lm : Int) - x.e) / 2 :=
    Int.fdiv_eq_ediv _ (by norm_num)
  rw [hfd] at hsq
  generalize ht : (106 - (lm : Int) - x.e) / 2 = t at hsq
  have ht1 : 2 * t ≤ 106 - (lm : Int) - x.e := by omega
  have ht2 : 106 - (lm : Int) - x.e < 2 * t + 2 := by omega
  have hE : ((x.e + 2 * t).toNat : Int) = x.e + 2 * t := Int.toNat_of_nonneg (by omega)
  generalize hEd : (x.e + 2 * t).toNat = E at hsq hE
  have hE1 : 105 ≤ lm + E := by omega
  have hE2 : lm + E ≤ 106 := by omega
  -- the radicand has 105 or 106 bits
  have hR1 : 2 ^ 104 ≤ m * 2 ^ E := by
    calc 2 ^ 104 = 2 ^ (lm - 1) * 2 ^ (105 - lm) := by
          rw [← pow_add]
          congr 1
          omega
      _ ≤ m * 2 ^ E := Nat.mul_le_mul hl1 (Nat.pow_le_pow_right (by norm_num) (by omega))
  have hR2 : m * 2 ^ E < 2 ^ 106 := by
    calc m * 2 ^ E < 2 ^ lm * 2 ^ E := Nat.mul_lt_mul_of_pos_right hl2 (by positivity)
      _ = 2 ^ (lm + E) := by rw [← pow_add]
      _ ≤ 2 ^ 106 := Nat.pow_le_pow_right (by norm_num) hE2
  have hxR : x.val = ((m * 2 ^ E : Nat) : ℚ) * ((2 : ℚ) ^ (-t)) ^ 2 := by
    rw [hxv]
    push_cast
    rw [mul_assoc]
    congr 1
    rw [← zpow_natCast, ← zpow_natCast ((2 : ℚ) ^ (-t)), ← zpow_mul, ← zpow_add₀ (by norm_num), hE]
    congr 1
    push_cast
    ring
  generalize m * 2 ^ E = R at hsq hR1 hR2 hxR
  obtain ⟨hs1, hs2⟩ := isqrtAux_spec R 53 0 (by simp) (by simpa using hR2)
  generalize isqrtAux R 53 0 = s at hsq hs1 hs2
  have hs3 : 2 ^ 52 ≤ s := by
    by_contra hc
    have h1 : s + 1 ≤ 2 ^ 52 := by omega
    have h2 : (s + 1) * (s + 1) ≤ 2 ^ 52 * 2 ^ 52 := Nat.mul_le_mul h1 h1
    have h3 : (2 : Nat) ^ 52 * 2 ^ 52 = 2 ^ 104 := by norm_num
    omega
  have hs4 : s < 2 ^ 53 := by
    by_contra hc
    have h1 : 2 ^ 53 ≤ s := by omega
    have h2 : 2 ^ 53 * 2 ^ 53 ≤ s * s := Nat.mul_le_mul h1 h1
    have h3 : (2 : Nat) ^ 53 * 2 ^ 53 = 2 ^ 106 := by norm_num
    omega
  have hu : (0 : ℚ) < (2 : ℚ) ^ (-t) := zpow_pos (by norm_num) _
  have hs1' : (s : ℚ) * s ≤ (R : ℚ) := by exact_mod_cast hs1
  have hs2' : (R : ℚ) < ((s : ℚ) + 1) * ((s : ℚ) + 1) := by exact_mod_cast hs2
  have h2e : ((s : ℚ) + 1) * ((s : ℚ) + 1) = (s : ℚ) * s + 2 * s + 1 := by ring
  rw [h2e] at hs2'
  have hs3' : (1 : ℚ) ≤ (s : ℚ) := by
    have : 1 ≤ s := le_trans (by norm_num) hs3
    exact_mod_cast this
  rw [hsq, hxR]
  simp only [Dbl.val]
  generalize (2 : ℚ) ^ (-t) = u at hu
  have hu2 : 0 ≤ u ^ 2 := by positivity
  by_cases hc : s < R - s * s
  · simp only [hc, if_true]
    have hc1 : s * s + s + 1 ≤ R := by omega
    have hc1' : (s : ℚ) * s + s + 1 ≤ (R : ℚ) := by exact_mod_cast hc1
    refine ⟨by omega, by omega, ?_, ?_⟩
    · have e : (((s : Int) + 1 : Int) : ℚ) * u - u / 2 = ((s : ℚ) + 1 / 2) * u := by
        push_cast
        ring
      rw [e, mul_pow]
      apply mul_le_mul_of_nonneg_right _ hu2
      have e2 : ((s : ℚ) + 1 / 2) ^ 2 = (s : ℚ) * s + s + 1 / 4 := by ring
      rw [e2]
      linarith
    · have e : (((s : Int) + 1 : Int) : ℚ) * u + u / 2 = ((s : ℚ) + 3 / 2) * u := by
        push_cast
        ring
      rw [e, mul_pow]
      apply mul_le_mul_of_nonneg_right _ hu2
      have e2 : ((s : ℚ) + 3 / 2) ^ 2 = (s : ℚ) * s + 3 * s + 9 / 4 := by ring
      rw [e2]
      linarith
  · simp only [hc, if_false]
    have hc1 : R ≤ s * s + s := by omega
    have hc1' : (R : ℚ) ≤ (s : ℚ) * s + s := by exact_mod_cast hc1
    refine ⟨by omega, by omega, ?_, ?_⟩
    · have e : ((s : Int) : ℚ) * u - u / 2 = ((s : ℚ) - 1 / 2) * u := by
        push_cast
        ring
      rw [e, mul_pow]
      apply mul_le_mul_of_nonneg_right _ hu2
      have e2 : ((s : ℚ) - 1 / 2) ^ 2 = (s : ℚ) * s - s + 1 / 4 := by ring
      rw [e2]
      linarith
    · have e : ((s : Int) : ℚ) * u + u / 2 = ((s : ℚ) + 1 / 2) * u := by
        push_cast
        ring
      rw [e, mul_pow]
      apply mul_le_mul_of_nonneg_right _ hu2
      have e2 : ((s : ℚ) + 1 / 2) ^ 2 = (s : ℚ) * s + s + 1 / 4 := by ring
      rw [e2]
      linarith

theorem bitLength_le (n k : Nat) (hn : 0 < n) (h : n < 2 ^ k) :
    1 ≤ bitLength n n ∧ bitLength n n ≤ k := by
  obtain ⟨h1, h2⟩ := bitLength_spec n n hn (le_refl _)
  constructor
  · by_contra hc
    have h0 : bitLength n n = 0 := by omega
    rw [h0] at h2
    simp at h2
    omega
  · by_contra hc
    have h3 : k ≤ bitLength n n - 1 := by omega
    have h4 : 2 ^ k ≤ 2 ^ (bitLength n n - 1) := Nat.pow_le_pow_right (by norm_num) h3
    omega

theorem bitLength_ge (n k : Nat) (h : 2 ^ k ≤ n) : k + 1 ≤ bitLength n n := by
  have hn : 0 < n := lt_of_lt_of_le (by positivity) h
  obtain ⟨h1, h2⟩ := bitLength_spec n n hn (le_refl _)
  by_contra hc
  have h4 : 2 ^ bitLength n n ≤ 2 ^ k := Nat.pow_le_pow_right (by norm_num) (by omega)
  omega

theorem roundNat_exponent (a b : Nat) :
    (roundNat a b).2 = (bitLength a a : Int) - (bitLength b b : Int) - 53 ∨
      (roundNat a b).2 = (bitLength a a : Int) - (bitLength b b : Int) - 53 + 1 := by
  unfold roundNat
  simp only []
  split_ifs
  · exact Or.inl rfl
  · exact Or.inr rfl

/-- The exponent of the quotient of two non-zero 32-bit integers. -/
theorem Dbl.ofQuot_exponent (p q : Int) (hp : p ≠ 0) (hq : q ≠ 0) (hp1 : p.natAbs < 2 ^ 31)
    (hq1 : q.natAbs < 2 ^ 31) : -83 ≤ (Dbl.ofQuot p q).e ∧ (Dbl.ofQuot p q).e ≤ -21 := by
  obtain ⟨a1, a2⟩ := bitLength_le p.natAbs 31 (Int.natAbs_pos.2 hp) hp1
  obtain ⟨b1, b2⟩ := bitLength_le q.natAbs 31 (Int.natAbs_pos.2 hq) hq1
  have he : (Dbl.ofQuot p q).e = (roundNat p.natAbs q.natAbs).2 := by
    simp only [Dbl.ofQuot, hp, if_false]
  rw [he]
  rcases roundNat_exponent p.natAbs q.natAbs with h | h <;> rw [h] <;> omega

/-- The exponent of the square root of a double with a significand of 53 bits. -/
theorem Dbl.sqrt_exponent (x : Dbl) (h1 : 2 ^ 52 ≤ x.m) (h2 : x.m ≤ 2 ^ 53) (lo hi : Int)
    (h3 : lo ≤ x.e) (h4 : x.e ≤ hi) :
    2 * (Dbl.sqrt x).e ≤ hi - 51 ∧ lo - 53 ≤ 2 * (Dbl.sqrt x).e := by
  have hm : 0 < x.m := lt_of_lt_of_le (by norm_num) h1
  have hmabs : (x.m.natAbs : Int) = x.m := Int.natAbs_of_nonneg hm.le
  have ha1 : 2 ^ 52 ≤ x.m.natAbs := by
    have : ((2 ^ 52 : Nat) : Int) ≤ (x.m.natAbs : Int) := by rw [hmabs]; exact_mod_cast h1
    exact_mod_cast this
  have ha2 : x.m.natAbs < 2 ^ 54 := by
    have : (x.m.natAbs : Int) < ((2 ^ 54 : Nat) : Int) := by
      rw [hmabs]
      exact lt_of_le_of_lt h2 (by norm_num)
    exact_mod_cast this
  have b1 := bitLength_ge x.m.natAbs 52 ha1
  obtain ⟨-, b2⟩ := bitLength_le x.m.natAbs 54 (by omega) ha2
  have he : (Dbl.sqrt x).e =
      -Int.fdiv (106 - (bitLength x.m.natAbs x.m.natAbs : Int) - x.e) 2 := by
    simp only [Dbl.sqrt, not_le.2 hm, if_false]
  rw [he, Int.fdiv_eq_ediv _ (by norm_num)]
  omega

/-- The exponent of a sum that is not zero. -/
theorem Dbl.add_exponent (x y : Dbl) (hs : x.val + y.val ≠ 0) (hx : |x.m| ≤ 2 ^ 53)
    (hy : |y.m| ≤ 2 ^ 53) (hxe : -100 ≤ x.e ∧ x.e ≤ 100) (hye : -100 ≤ y.e ∧ y.e ≤ 100) :
    -154 ≤ (Dbl.add x y).e ∧ (Dbl.add x y).e ≤ 303 := by
  have hex := Dbl.add_exact x y
  generalize hS : (x.m * 2 ^ (x.e - min x.e y.e).toNat + y.m * 2 ^ (y.e - min x.e y.e).toNat : Int) = s
    at hex
  have hs0 : s ≠ 0 := by
    intro h0
    apply hs
    rw [hex, h0]
    simp
  have hsb : s.natAbs < 2 ^ 255 := by
    have hp1 : (2 : Int) ^ (x.e - min x.e y.e).toNat ≤ 2 ^ 200 :=
      pow_le_pow_right₀ (by norm_num) (by omega)
    have hp2 : (2 : Int) ^ (y.e - min x.e y.e).toNat ≤ 2 ^ 200 :=
      pow_le_pow_right₀ (by norm_num) (by omega)
    have hp1' : (0 : Int) ≤ 2 ^ (x.e - min x.e y.e).toNat := by positivity
    have hp2' : (0 : Int) ≤ 2 ^ (y.e - min x.e y.e).toNat := by positivity
    have h1 : |x.m * 2 ^ (x.e - min x.e y.e).toNat| ≤ 2 ^ 53 * 2 ^ 200 := by
      rw [abs_mul, abs_of_nonneg hp1']
      exact mul_le_mul hx hp1 hp1' (by norm_num)
    have h2 : |y.m * 2 ^ (y.e - min x.e y.e).toNat| ≤ 2 ^ 53 * 2 ^ 200 := by
      rw [abs_mul, abs_of_nonneg hp2']
      exact mul_le_mul hy hp2 hp2' (by norm_num)
    have h3 : |s| ≤ 2 ^ 53 * 2 ^ 200 + 2 ^ 53 * 2 ^ 200 := by
      rw [← hS]
      exact le_trans (abs_add _ _) (add_le_add h1 h2)
    have h4 : (s.natAbs : Int) < ((2 ^ 255 : Nat) : Int) := by
      rw [Int.natCast_natAbs]
      exact lt_of_le_of_lt h3 (by norm_num)
    exact_mod_cast h4
  have hsp : 0 < s.natAbs := Int.natAbs_pos.2 hs0
  have he : (Dbl.add x y).e =
      (if 0 ≤ min x.e y.e then roundNat (s.natAbs * 2 ^ (min x.e y.e).toNat) 1
        else roundNat s.natAbs (2 ^ (-(min x.e y.e)).toNat)).2 := by
    simp only [Dbl.add, hS, hs0, if_false]
  rw [he]
  have hmin : -100 ≤ min x.e y.e ∧ min x.e y.e ≤ 100 := by
    constructor
    · exact le_min hxe.1 hye.1
    · exact le_trans (min_le_left _ _) hxe.2
  generalize min x.e y.e = e0 at hmin
  have hone : bitLength 1 1 = 1 := rfl
  split_ifs with h0
  · have hb : s.natAbs * 2 ^ e0.toNat < 2 ^ 355 := by
      calc s.natAbs * 2 ^ e0.toNat < 2 ^ 255 * 2 ^ e0.toNat :=
            Nat.mul_lt_mul_of_pos_right hsb (by positivity)
        _ ≤ 2 ^ 255 * 2 ^ 100 :=
            Nat.mul_le_mul_left _ (Nat.pow_le_pow_right (by norm_num) (by omega))
        _ = 2 ^ 355 := by norm_num
    obtain ⟨a1, a2⟩ := bitLength_le (s.natAbs * 2 ^ e0.toNat) 355 (by positivity) hb
    rcases roundNat_exponent (s.natAbs * 2 ^ e0.toNat) 1 with h | h <;> rw [h, hone] <;> omega
  · obtain ⟨a1, a2⟩ := bitLength_le s.natAbs 255 hsp hsb
    have hbl : bitLength (2 ^ (-e0).toNat) (2 ^ (-e0).toNat) ≤ 101 := by
      have hlt : 2 ^ (-e0).toNat < 2 ^ 101 := Nat.pow_lt_pow_right (by norm_num) (by omega)
      exact (bitLength_le _ 101 (by positivity) hlt).2
    have hbl1 := (bitLength_le (2 ^ (-e0).toNat) 101 (by positivity)
      (Nat.pow_lt_pow_right (by norm_num) (by omega))).1
    rcases roundNat_exponent s.natAbs (2 ^ (-e0).toNat) with h | h <;> rw [h] <;> omega

theorem Dbl.ofQuot_range (p q : Int) (hp : 0 ≤ p ∧ p ≤ INT_MAX) (hq : 0 < q ∧ q ≤ INT_MAX) :
    ((Dbl.ofQuot p q).m = 0 ∧ (Dbl.ofQuot p q).e = 0) ∨
      (2 ^ 52 ≤ (Dbl.ofQuot p q).m ∧ (Dbl.ofQuot p q).m ≤ 2 ^ 53 ∧ -83 ≤ (Dbl.ofQuot p q).e ∧
        (Dbl.ofQuot p q).e ≤ -21) := by
  have e : INT_MAX = 2147483647 := rfl
  rw [e] at hp hq
  by_cases h0 : p = 0
  · left
    simp [Dbl.ofQuot, h0]
  · right
    have hq0 : q ≠ 0 := hq.1.ne'
    obtain ⟨h1, h2, -⟩ := Dbl.ofQuot_spec p q h0 hq0
    obtain ⟨h3, h4⟩ := Dbl.ofQuot_exponent p q h0 hq0 (by omega) (by omega)
    have hs : (p < 0) = (q < 0) := by
      rw [eq_iff_iff]
      constructor <;> intro h <;> omega
    have hnn : 0 ≤ (Dbl.ofQuot p q).m := by
      simp only [Dbl.ofQuot, h0, if_false, hs, if_true]
      exact Int.natCast_nonneg _
    rw [abs_of_nonneg hnn] at h1 h2
    exact ⟨h1, h2, h3, h4⟩

/-- With counters in the range of a 32-bit `int`, every double that
`best_child` computes for a score is zero or a normal number: no operation
overflows or reaches the subnormal range. -/
theorem score_normal (N w v : Int) (hN : 0 ≤ N ∧ N ≤ INT_MAX) (hv : 0 < v ∧ v ≤ INT_MAX)
    (hw : 0 ≤ w ∧ w ≤ INT_MAX) :
    (Dbl.ofQuot w v).normal ∧ (Dbl.ofQuot N v).normal ∧ (Dbl.sqrt (Dbl.ofQuot N v)).normal ∧
      (score N w v).normal := by
  have hx := Dbl.ofQuot_range w v hw hv
  have hq := Dbl.ofQuot_range N v hN hv
  have hr : ((Dbl.sqrt (Dbl.ofQuot N v)).m = 0 ∧ (Dbl.sqrt (Dbl.ofQuot N v)).e = 0) ∨
      (2 ^ 52 ≤ (Dbl.sqrt (Dbl.ofQuot N v)).m ∧ (Dbl.sqrt (Dbl.ofQuot N v)).m ≤ 2 ^ 53 ∧
        -68 ≤ (Dbl.sqrt (Dbl.ofQuot N v)).e ∧ (Dbl.sqrt (Dbl.ofQuot N v)).e ≤ -36) := by
    rcases hq with ⟨h1, -⟩ | ⟨h1, h2, h3, h4⟩
    · left
      simp [Dbl.sqrt, h1]
    · right
      have hm : 0 < (Dbl.ofQuot N v).m := lt_of_lt_of_le (by norm_num) h1
      obtain ⟨s1, s2, -⟩ := Dbl.sqrt_spec _ hm (lt_of_le_of_lt h2 (by norm_num))
      obtain ⟨s3, s4⟩ := Dbl.sqrt_exponent _ h1 h2 (-83) (-21) h3 h4
      exact ⟨s1, s2, by omega, by omega⟩
  refine ⟨?_, ?_, ?_, ?_⟩
  · rcases hx with ⟨h1, -⟩ | ⟨h1, h2, h3, h4⟩
    · exact Or.inl h1
    · have hnn : 0 ≤ (Dbl.ofQuot w v).m := le_trans (by norm_num) h1
      exact Or.inr ⟨by rw [abs_of_nonneg hnn]; exact h1, by rw [abs_of_nonneg hnn]; exact h2,
        by omega, by omega⟩
  · rcases hq with ⟨h1, -⟩ | ⟨h1, h2, h3, h4⟩
    · exact Or.inl h1
    · have hnn : 0 ≤ (Dbl.ofQuot N v).m := le_trans (by norm_num) h1
      exact Or.inr ⟨by rw [abs_of_nonneg hnn]; exact h1, by rw [abs_of_nonneg hnn]; exact h2,
        by omega, by omega⟩
  · rcases hr with ⟨h1, -⟩ | ⟨h1, h2, h3, h4⟩
    · exact Or.inl h1
    · have hnn : 0 ≤ (Dbl.sqrt (Dbl.ofQuot N v)).m := le_trans (by norm_num) h1
      exact Or.inr ⟨by rw [abs_of_nonneg hnn]; exact h1, by rw [abs_of_nonneg hnn]; exact h2,
        by omega, by omega⟩
  · unfold score
    generalize Dbl.ofQuot w v = x at hx
    generalize Dbl.sqrt (Dbl.ofQuot N v) = y at hr
    have hxm : |x.m| ≤ 2 ^ 53 ∧ -100 ≤ x.e ∧ x.e ≤ 100 := by
      rcases hx with ⟨h1, h2⟩ | ⟨h1, h2, h3, h4⟩
      · rw [h1, h2]
        norm_num
      · have hnn : 0 ≤ x.m := le_trans (by norm_num) h1
        exact ⟨by rw [abs_of_nonneg hnn]; exact h2, by omega, by omega⟩
    have hym : |(Dbl.twice y).m| ≤ 2 ^ 53 ∧ -100 ≤ (Dbl.twice y).e ∧ (Dbl.twice y).e ≤ 100 := by
      simp only [Dbl.twice]
      rcases hr with ⟨h1, h2⟩ | ⟨h1, h2, h3, h4⟩
      · rw [h1, h2]
        norm_num
      · have hnn : 0 ≤ y.m := le_trans (by norm_num) h1
        exact ⟨by rw [abs_of_nonneg hnn]; exact h2, by omega, by omega⟩
    by_cases hs : x.val + (Dbl.twice y).val = 0
    · left
      have hz := Dbl.add_zero_sum x (Dbl.twice y) hs
      unfold Dbl.val at hz
      have hP : (2 : ℚ) ^ (Dbl.add x (Dbl.twice y)).e ≠ 0 := (zpow_pos (by norm_num) _).ne'
      rcases mul_eq_zero.1 hz with h | h
      · exact_mod_cast h
      · exact absurd h hP
    · right
      obtain ⟨a1, a2, -⟩ := Dbl.add_spec x (Dbl.twice y) hs
      obtain ⟨a3, a4⟩ := Dbl.add_exponent x (Dbl.twice y) hs hxm.1 hym.1 hxm.2 hym.2
      exact ⟨a1, a2, by omega, by omega⟩

/-! ## Scores over the reals

The comparison of two scores read over the reals, without rounding, is decided
exactly by `score_gt`. -/

/-- Comparison `a + p > q` for non-negative `p`, `q` from their squares. -/
theorem real_sqrt_gt (a p q : ℝ) (hp : 0 ≤ p) (hq : 0 ≤ q) :
    q < a + p ↔
      (0 < a ∧ (q * q - a * a - p * p < 0 ∨
        (q * q - a * a - p * p) * (q * q - a * a - p * p) < 4 * (a * a) * (p * p))) ∨
      (a = 0 ∧ q * q < p * p) ∨
      (a < 0 ∧ 0 < p * p - q * q - a * a ∧
        4 * (a * a) * (q * q) < (p * p - q * q - a * a) * (p * p - q * q - a * a)) := by
  rcases lt_trichotomy a 0 with ha | ha | ha
  · -- a < 0
    have h1 : ¬ (0 < a) := not_lt.2 ha.le
    have h2 : a ≠ 0 := ha.ne
    simp only [h1, h2, false_and, false_or, ha, true_and]
    have key : q < a + p ↔ (q - a) * (q - a) < p * p := by
      rw [← mul_self_lt_mul_self_iff (by linarith) hp]
      constructor <;> intro h <;> linarith
    rw [key]
    constructor
    · intro h
      have hc : -(2 * a * q) < p * p - q * q - a * a := by nlinarith
      have hnn : 0 ≤ -(2 * a * q) := by nlinarith
      refine ⟨by linarith, ?_⟩
      have := (mul_self_lt_mul_self_iff hnn (by linarith)).1 hc
      nlinarith
    · rintro ⟨hc, h⟩
      have hnn : 0 ≤ -(2 * a * q) := by nlinarith
      have h' : -(2 * a * q) * -(2 * a * q) < (p * p - q * q - a * a) * (p * p - q * q - a * a) := by
        nlinarith
      have := (mul_self_lt_mul_self_iff hnn hc.le).2 h'
      nlinarith
  · subst ha
    simp only [lt_self_iff_false, false_and, false_or, true_and, zero_add, or_false]
    exact mul_self_lt_mul_self_iff hq hp
  · have h1 : ¬ (a < 0) := not_lt.2 ha.le
    have h2 : a ≠ 0 := ha.ne'
    simp only [h1, h2, false_and, or_false, ha, true_and]
    have key : q < a + p ↔ q * q < (a + p) * (a + p) :=
      mul_self_lt_mul_self_iff hq (by linarith)
    rw [key]
    have hnn : 0 ≤ 2 * a * p := by positivity
    constructor
    · intro h
      by_cases hc : q * q - a * a - p * p < 0
      · exact Or.inl hc
      · right
        have hc' : q * q - a * a - p * p < 2 * a * p := by nlinarith
        have := (mul_self_lt_mul_self_iff (not_lt.1 hc) hnn).1 hc'
        nlinarith
    · rintro (hc | h)
      · nlinarith
      · by_cases hc : q * q - a * a - p * p < 0
        · nlinarith
        · have h' : (q * q - a * a - p * p) * (q * q - a * a - p * p) < 2 * a * p * (2 * a * p) := by
            nlinarith
          have := (mul_self_lt_mul_self_iff (not_lt.1 hc) hnn).2 h'
          nlinarith

theorem sqrt_gt_iff (a P Q : Int) (hP : 0 ≤ P) (hQ : 0 ≤ Q) :
    sqrt_gt a P Q = true ↔ Real.sqrt (Q : ℝ) < (a : ℝ) + Real.sqrt (P : ℝ) := by
  have hP' : (0 : ℝ) ≤ (P : ℝ) := by exact_mod_cast hP
  have hQ' : (0 : ℝ) ≤ (Q : ℝ) := by exact_mod_cast hQ
  rw [real_sqrt_gt _ _ _ (Real.sqrt_nonneg _) (Real.sqrt_nonneg _),
    Real.mul_self_sqrt hP', Real.mul_self_sqrt hQ']
  unfold sqrt_gt
  rcases lt_trichotomy a 0 with ha | ha | ha
  · have h1 : ¬ (0 < a) := not_lt.2 ha.le
    have h2 : a ≠ 0 := ha.ne
    have h1' : ¬ ((0 : ℝ) < (a : ℝ)) := by exact_mod_cast h1
    have h2' : (a : ℝ) ≠ 0 := by exact_mod_cast h2
    have h3' : (a : ℝ) < 0 := by exact_mod_cast ha
    simp only [h1, h2, if_false, h1', h2', false_and, false_or, h3', true_and, decide_eq_true_eq]
    exact_mod_cast Iff.rfl
  · subst ha
    simp only [lt_self_iff_false, if_false, if_true, Int.cast_zero, false_and, false_or,
      true_and, or_false, decide_eq_true_eq]
    exact_mod_cast Iff.rfl
  · have h1 : ¬ (a < 0) := not_lt.2 ha.le
    have h2 : a ≠ 0 := ha.ne'
    have h1' : ¬ ((a : ℝ) < 0) := by exact_mod_cast h1
    have h2' : (a : ℝ) ≠ 0 := by exact_mod_cast h2
    have h3' : (0 : ℝ) < (a : ℝ) := by exact_mod_cast ha
    simp only [ha, if_true, h1', h2', false_and, or_false, h3', true_and, decide_eq_true_eq]
    exact_mod_cast Iff.rfl

theorem sqrt_scaled (N v u : ℝ) (hv : v ≠ 0) (hn : 0 ≤ N * v) :
    Real.sqrt (4 * (u * u * (u * u)) * (N * v * (v * v))) =
      2 * (u * u) * (v * v) * Real.sqrt (N / v) := by
  have hq : 0 ≤ N / v := by
    have : N / v = N * v / (v * v) := by field_simp; ring
    rw [this]
    exact div_nonneg hn (mul_self_nonneg v)
  rw [Real.sqrt_eq_iff_mul_self_eq]
  · have hs := Real.mul_self_sqrt hq
    have : 2 * (u * u) * (v * v) * Real.sqrt (N / v) * (2 * (u * u) * (v * v) * Real.sqrt (N / v)) =
        4 * (u * u * (u * u)) * (v * v * (v * v)) * (Real.sqrt (N / v) * Real.sqrt (N / v)) := by
      ring
    rw [this, hs]
    field_simp
    ring
  · have := mul_self_nonneg u
    have := mul_self_nonneg v
    have := mul_self_nonneg (u * u)
    have := mul_self_nonneg (v * v)
    nlinarith [mul_nonneg (mul_self_nonneg (u * u)) (mul_nonneg hn (mul_self_nonneg v))]
  · have := mul_self_nonneg u
    have := mul_self_nonneg v
    have := Real.sqrt_nonneg (N / v)
    positivity

theorem score_gt_iff (N w1 v1 w2 v2 : Int) (h1 : v1 ≠ 0) (h2 : v2 ≠ 0) (hn1 : 0 ≤ N * v1)
    (hn2 : 0 ≤ N * v2) : score_gt N w1 v1 w2 v2 = true ↔ scoreLt N w2 v2 w1 v1 := by
  have hP : 0 ≤ 4 * (v2 * v2 * (v2 * v2)) * (N * v1 * (v1 * v1)) :=
    mul_nonneg (mul_nonneg (by norm_num) (mul_self_nonneg _)) (mul_nonneg hn1 (mul_self_nonneg _))
  have hQ : 0 ≤ 4 * (v1 * v1 * (v1 * v1)) * (N * v2 * (v2 * v2)) :=
    mul_nonneg (mul_nonneg (by norm_num) (mul_self_nonneg _)) (mul_nonneg hn2 (mul_self_nonneg _))
  have h1' : (v1 : ℝ) ≠ 0 := by exact_mod_cast h1
  have h2' : (v2 : ℝ) ≠ 0 := by exact_mod_cast h2
  have hn1' : (0 : ℝ) ≤ (N : ℝ) * v1 := by exact_mod_cast hn1
  have hn2' : (0 : ℝ) ≤ (N : ℝ) * v2 := by exact_mod_cast hn2
  unfold score_gt scoreLt
  rw [sqrt_gt_iff _ _ _ hP hQ]
  push_cast
  rw [sqrt_scaled _ _ _ h1' hn1', sqrt_scaled _ _ _ h2' hn2']
  have hpos : (0 : ℝ) < (v1 : ℝ) * v1 * ((v2 : ℝ) * v2) :=
    mul_pos (mul_self_pos.2 h1') (mul_self_pos.2 h2')
  have e1 : (v1 : ℝ) * v1 * ((v2 : ℝ) * v2) * ((w2 : ℝ) / v2 + 2 * Real.sqrt ((N : ℝ) / v2)) =
      (w2 : ℝ) * v2 * (v1 * v1) + 2 * (v1 * v1) * (v2 * v2) * Real.sqrt ((N : ℝ) / v2) := by
    field_simp; ring
  have e2 : (v1 : ℝ) * v1 * ((v2 : ℝ) * v2) * ((w1 : ℝ) / v1 + 2 * Real.sqrt ((N : ℝ) / v1)) =
      (w1 : ℝ) * v1 * (v2 * v2) + 2 * (v2 * v2) * (v1 * v1) * Real.sqrt ((N : ℝ) / v1) := by
    field_simp; ring
  rw [← mul_lt_mul_left hpos (b := (w2 : ℝ) / v2 + 2 * Real.sqrt ((N : ℝ) / v2)), e1, e2]
  constructor <;> intro h <;> linarith

/-! ## Best child (C6, C7) -/

theorem best_child_loop_unvisited (h : Heap) (N : Int) (pre post : List Nat) (c : Nat)
    (cn : Node) (best : Option (Nat × Int × Int))
    (hpre : ∀ p ∈ pre, ∃ pn, h[p]? = some pn ∧ pn.visits ≠ 0)
    (hc : h[c]? = some cn) (hv : cn.visits = 0) :
    best_child_loop h N (pre ++ c :: post) best = some (some c) := by
  induction pre generalizing best with
  | nil => simp [best_child_loop, hc, hv]
  | cons p ps ih =>
    obtain ⟨pn, hp, hpv⟩ := hpre p (List.mem_cons_self _ _)
    have hps : ∀ q ∈ ps, ∃ qn, h[q]? = some qn ∧ qn.visits ≠ 0 :=
      fun q hq => hpre q (List.mem_cons_of_mem _ hq)
    simp only [List.cons_append, best_child_loop, hp, hpv, if_false]
    split_ifs
    · exact ih _ hps
    · exact ih _ hps

/-- C6: when the children of a node are `pre ++ c :: post`, every child of
`pre` has non-zero visits and `c` has visits 0 (so `c` is the first unvisited
child), `best_child` returns `c`, whatever the wins and visits of the other
children and of the node. -/
theorem best_child_unvisited (h : Heap) (node : Nat) (n : Node) (pre post : List Nat) (c : Nat)
    (cn : Node) (hn : h[node]? = some n) (hch : n.children = pre ++ c :: post)
    (hpre : ∀ p ∈ pre, ∃ pn, h[p]? = some pn ∧ pn.visits ≠ 0)
    (hc : h[c]? = some cn) (hv : cn.visits = 0) :
    best_child h node = some (some c) := by
  simp only [best_child, hn, hch]
  exact best_child_loop_unvisited h n.visits pre post c cn none hpre hc hv

theorem best_child_unvisited_witness : best_child sampleHeap 0 = some (some 2) :=
  best_child_unvisited sampleHeap 0
    { state := emptyBoard, player := -1, parent := none, children := [1, 2, 3], visits := 4,
      wins := 0 } [1] [3] 2
    { state := [[0, -1, 0], [0, 0, 0], [0, 0, 0]], player := 1, parent := some 0, children := [],
      visits := 0, wins := 0 } rfl rfl
    (by
      intro p hp
      rw [List.mem_singleton] at hp
      subst hp
      exact ⟨_, rfl, by decide⟩)
    rfl rfl

theorem doubleScoreLt_irrefl (N w v : Int) : ¬ doubleScoreLt N w v w v := by
  simp only [doubleScoreLt, Dbl.lt_iff]
  exact lt_irrefl _

theorem doubleScoreLt_trans (N w1 v1 w2 v2 w3 v3 : Int) (h1 : doubleScoreLt N w1 v1 w2 v2)
    (h2 : doubleScoreLt N w2 v2 w3 v3) : doubleScoreLt N w1 v1 w3 v3 := by
  simp only [doubleScoreLt, Dbl.lt_iff] at h1 h2 ⊢
  exact lt_trans h1 h2

theorem doubleScoreLt_of_not_of_lt (N w1 v1 w2 v2 w3 v3 : Int)
    (h1 : ¬ doubleScoreLt N w2 v2 w1 v1) (h2 : doubleScoreLt N w2 v2 w3 v3) :
    doubleScoreLt N w1 v1 w3 v3 := by
  simp only [doubleScoreLt, Dbl.lt_iff] at h1 h2 ⊢
  exact lt_of_le_of_lt (not_lt.1 h1) h2

theorem not_doubleScoreLt_trans (N w1 v1 w2 v2 w3 v3 : Int)
    (h1 : ¬ doubleScoreLt N w2 v2 w1 v1) (h2 : ¬ doubleScoreLt N w3 v3 w2 v2) :
    ¬ doubleScoreLt N w3 v3 w1 v1 := by
  simp only [doubleScoreLt, Dbl.lt_iff] at h1 h2 ⊢
  exact not_lt.2 (le_trans (not_lt.1 h1) (not_lt.1 h2))

theorem score_better_some (N : Int) (hN : 0 ≤ N) (child : Node) (hv : 0 < child.visits)
    (b : Nat) (bw bv : Int) :
    score_better N child (some (b, bw, bv)) = true ↔
      doubleScoreLt N bw bv child.wins child.visits := by
  have hnan : score_nan N child.visits = false := by
    simp only [score_nan, decide_eq_false_iff_not, not_lt]
    exact mul_nonneg hN hv.le
  simp only [score_better, hnan, Bool.not_false, Bool.true_and, doubleScoreLt]

theorem score_better_none (N : Int) (hN : 0 ≤ N) (child : Node) (hv : 0 < child.visits) :
    score_better N child none = true := by
  have hnan : score_nan N child.visits = false := by
    simp only [score_nan, decide_eq_false_iff_not, not_lt]
    exact mul_nonneg hN hv.le
  simp [score_better, hnan]

/-- The loop of `best_child` over children that were all visited, entered
with a current best `(b, bw, bv)`: the result is the current best when no
child beats it, and otherwise the first child of maximal score, the scores
being compared as doubles. -/
theorem best_child_loop_uct (h : Heap) (N : Int) (hN : 0 ≤ N) (cs : List Nat)
    (hcs : ∀ c ∈ cs, ∃ cn, h[c]? = some cn ∧ 0 < cn.visits) (b : Nat) (bw bv : Int) :
    ∃ r rw rv, best_child_loop h N cs (some (b, bw, bv)) = some (some r) ∧
      ¬ doubleScoreLt N rw rv bw bv ∧
      (∀ d ∈ cs, ∀ dn, h[d]? = some dn → ¬ doubleScoreLt N rw rv dn.wins dn.visits) ∧
      ((r = b ∧ rw = bw ∧ rv = bv) ∨
        ∃ (i : Nat) (rn : Node), cs[i]? = some r ∧ h[r]? = some rn ∧ rn.wins = rw ∧
          rn.visits = rv ∧
          doubleScoreLt N bw bv rw rv ∧
          ∀ (j d : Nat) (dn : Node), j < i → cs[j]? = some d → h[d]? = some dn →
            doubleScoreLt N dn.wins dn.visits rw rv) := by
  induction cs generalizing b bw bv with
  | nil =>
    exact ⟨b, bw, bv, rfl, doubleScoreLt_irrefl _ _ _, fun d hd => absurd hd (List.not_mem_nil d),
      Or.inl ⟨rfl, rfl, rfl⟩⟩
  | cons c cs ih =>
    obtain ⟨cn, hc, hcv⟩ := hcs c (List.mem_cons_self _ _)
    have hcs' : ∀ d ∈ cs, ∃ dn, h[d]? = some dn ∧ 0 < dn.visits :=
      fun d hd => hcs d (List.mem_cons_of_mem _ hd)
    simp only [best_child_loop, hc, hcv.ne', if_false]
    by_cases hb : score_better N cn (some (b, bw, bv)) = true
    · have hlt := (score_better_some N hN cn hcv b bw bv).1 hb
      simp only [hb, if_true]
      obtain ⟨r, rw, rv, hr, h1, h2, h3⟩ := ih hcs' c cn.wins cn.visits
      refine ⟨r, rw, rv, hr, ?_, ?_, Or.inr ?_⟩
      · intro hlt2
        exact h1 (doubleScoreLt_trans _ _ _ _ _ _ _ hlt2 hlt)
      · intro d hd dn hdn
        rcases List.mem_cons.1 hd with rfl | hd
        · rw [hc] at hdn
          injection hdn with hdn
          subst hdn
          exact h1
        · exact h2 d hd dn hdn
      · rcases h3 with ⟨rfl, rfl, rfl⟩ | ⟨i, rn, hi, hrn, hw, hv, hlt3, hearlier⟩
        · exact ⟨0, cn, List.getElem?_cons_zero, hc, rfl, rfl, hlt,
            fun j d dn hj => absurd hj (Nat.not_lt_zero j)⟩
        · refine ⟨i + 1, rn, by simpa using hi, hrn, hw, hv, doubleScoreLt_trans _ _ _ _ _ _ _ hlt hlt3,
            fun j d dn hj hjd hdn => ?_⟩
          cases j with
          | zero =>
            simp only [List.getElem?_cons_zero, Option.some.injEq] at hjd
            subst hjd
            rw [hc] at hdn
            injection hdn with hdn
            subst hdn
            exact hlt3
          | succ j =>
            exact hearlier j d dn (by omega) (by simpa using hjd) hdn
    · have hnlt : ¬ doubleScoreLt N bw bv cn.wins cn.visits :=
        fun hlt => hb ((score_better_some N hN cn hcv b bw bv).2 hlt)
      simp only [hb, if_false]
      obtain ⟨r, rw, rv, hr, h1, h2, h3⟩ := ih hcs' b bw bv
      refine ⟨r, rw, rv, hr, h1, ?_, ?_⟩
      · intro d hd dn hdn
        rcases List.mem_cons.1 hd with rfl | hd
        · rw [hc] at hdn
          injection hdn with hdn
          subst hdn
          exact not_doubleScoreLt_trans _ _ _ _ _ _ _ hnlt h1
        · exact h2 d hd dn hdn
      · rcases h3 with h3 | ⟨i, rn, hi, hrn, hw, hv, hlt3, hearlier⟩
        · exact Or.inl h3
        · refine Or.inr ⟨i + 1, rn, by simpa using hi, hrn, hw, hv, hlt3,
            fun j d dn hj hjd hdn => ?_⟩
          cases j with
          | zero =>
            simp only [List.getElem?_cons_zero, Option.some.injEq] at hjd
            subst hjd
            rw [hc] at hdn
            injection hdn with hdn
            subst hdn
            exact doubleScoreLt_of_not_of_lt _ _ _ _ _ _ _ hnlt hlt3
          | succ j =>
            exact hearlier j d dn (by omega) (by simpa using hjd) hdn

/-- C7 (counterexample): the scores are computed and compared in doubles, not
over the reals. In `tieHeap` the two children have the same score 3.4 over the
reals, so the first one is the first maximiser; the doubles are
`7656119366529843 * 2^-51` and `7656119366529844 * 2^-51`, and `best_child`
returns the second child, although the earlier child has no strictly smaller
score. In `nearHeap` the second child has the strictly greater score over the
reals; the two doubles are equal, both `9007199250546688 * 2^-53`, and
`best_child` returns the first child. -/
theorem best_child_rounding :
    (best_child tieHeap 0 = some (some 2) ∧
      score 125 72 80 = ⟨7656119366529843, -51⟩ ∧ score 125 3 45 = ⟨7656119366529844, -51⟩ ∧
      ¬ scoreLt 125 72 80 3 45) ∧
    (best_child nearHeap 0 = some (some 1) ∧
      score 0 2147483645 2147483646 = ⟨9007199250546688, -53⟩ ∧
      score 0 2147483646 2147483647 = ⟨9007199250546688, -53⟩ ∧
      scoreLt 0 2147483645 2147483646 2147483646 2147483647) := by
  refine ⟨⟨by decide, by decide, by decide, ?_⟩, by decide, by decide, by decide, ?_⟩
  · rw [← score_gt_iff 125 3 45 72 80 (by decide) (by decide) (by decide) (by decide)]
    decide
  · rw [← score_gt_iff 0 2147483646 2147483647 2147483645 2147483646 (by decide) (by decide)
      (by decide) (by decide)]
    decide

/-- C7 (as the code behaves): for a node with visits `N ≥ 0` and a non-empty
list of children that all have positive visits and wins that are not negative
(all counters being values of a 32-bit `int`, for which every double met is a
normal number, `score_normal`), `best_child` returns the first child of
maximal score, where the score
`wins / visits + 2 * sqrt(N / visits)` is computed in doubles, each operation
rounded, and scores are compared as doubles: no child has a strictly greater
double score and every earlier child has a strictly smaller one. -/
theorem best_child_double_uct (h : Heap) (node : Nat) (n : Node) (hn : h[node]? = some n)
    (hne : n.children ≠ []) (hN : 0 ≤ n.visits ∧ n.visits ≤ INT_MAX)
    (hv : ∀ c ∈ n.children, ∃ cn, h[c]? = some cn ∧ 0 < cn.visits ∧ cn.visits ≤ INT_MAX ∧
      0 ≤ cn.wins ∧ cn.wins ≤ INT_MAX) :
    ∃ (i c : Nat) (cn : Node), best_child h node = some (some c) ∧ n.children[i]? = some c ∧
      h[c]? = some cn ∧
      (∀ d ∈ n.children, ∀ dn, h[d]? = some dn →
        ¬ doubleScoreLt n.visits cn.wins cn.visits dn.wins dn.visits) ∧
      (∀ (j d : Nat) (dn : Node), j < i → n.children[j]? = some d → h[d]? = some dn →
        doubleScoreLt n.visits dn.wins dn.visits cn.wins cn.visits) := by
  have hN := hN.1
  have hv : ∀ c ∈ n.children, ∃ cn, h[c]? = some cn ∧ 0 < cn.visits := by
    intro c hc
    obtain ⟨cn, h1, h2, -⟩ := hv c hc
    exact ⟨cn, h1, h2⟩
  simp only [best_child, hn]
  cases hch : n.children with
  | nil => exact absurd hch hne
  | cons c0 cs =>
    rw [hch] at hv
    obtain ⟨c0n, hc0, hc0v⟩ := hv c0 (List.mem_cons_self _ _)
    have hcs : ∀ d ∈ cs, ∃ dn, h[d]? = some dn ∧ 0 < dn.visits :=
      fun d hd => hv d (List.mem_cons_of_mem _ hd)
    simp only [best_child_loop, hc0, hc0v.ne', if_false, score_better_none _ hN c0n hc0v, if_true]
    obtain ⟨r, rw, rv, hr, h1, h2, h3⟩ :=
      best_child_loop_uct h n.visits hN cs hcs c0 c0n.wins c0n.visits
    rcases h3 with ⟨rfl, rfl, rfl⟩ | ⟨i, rn, hi, hrn, hw, hv2, hlt, hearlier⟩
    · refine ⟨0, r, c0n, hr, List.getElem?_cons_zero, hc0, fun d hd dn hdn => ?_,
        fun j d dn hj => absurd hj (Nat.not_lt_zero j)⟩
      rcases List.mem_cons.1 hd with rfl | hd
      · rw [hc0] at hdn
        injection hdn with hdn
        subst hdn
        exact doubleScoreLt_irrefl _ _ _
      · exact h2 d hd dn hdn
    · subst hw
      subst hv2
      refine ⟨i + 1, r, rn, hr, by simpa using hi, hrn, fun d hd dn hdn => ?_,
        fun j d dn hj hjd hdn => ?_⟩
      · rcases List.mem_cons.1 hd with rfl | hd
        · rw [hc0] at hdn
          injection hdn with hdn
          subst hdn
          exact h1
        · exact h2 d hd dn hdn
      · cases j with
        | zero =>
          simp only [List.getElem?_cons_zero, Option.some.injEq] at hjd
          subst hjd
          rw [hc0] at hdn
          injection hdn with hdn
          subst hdn
          exact hlt
        | succ j =>
          exact hearlier j d dn (by omega) (by simpa using hjd) hdn

theorem best_child_double_uct_witness :
    best_child sampleHeapVisited 0 = some (some 2) ∧
    ∃ (i c : Nat) (cn : Node), best_child sampleHeapVisited 0 = some (some c) ∧
      [1, 2, 3][i]? = some c ∧ sampleHeapVisited[c]? = some cn ∧
      ∀ d ∈ [1, 2, 3], ∀ dn, sampleHeapVisited[d]? = some dn →
        ¬ doubleScoreLt 5 cn.wins cn.visits dn.wins dn.visits := by
  refine ⟨by decide, ?_⟩
  obtain ⟨i, c, cn, h1, h2, h3, h4, _⟩ := best_child_double_uct sampleHeapVisited 0
    { state := emptyBoard, player := -1, parent := none, children := [1, 2, 3], visits := 5,
      wins := 0 } rfl (by decide) (by decide)
    (by
      intro c hc
      simp only [List.mem_cons, List.mem_singleton, List.not_mem_nil, or_false] at hc
      rcases hc with rfl | rfl | rfl
      · exact ⟨_, rfl, by decide⟩
      · exact ⟨_, rfl, by decide⟩
      · exact ⟨_, rfl, by decide⟩)
  exact ⟨i, c, cn, h1, h2, h3, h4⟩

/-! ## Backpropagation (C8) -/

theorem parentChain_some (fuel : Nat) (h : Heap) (k : Nat) (l : List Nat)
    (hl : parentChain fuel h (some k) = some l) :
    ∃ f n t, fuel = f + 1 ∧ h[k]? = some n ∧ parentChain f h n.parent = some t ∧ l = k :: t := by
  cases fuel with
  | zero => simp [parentChain] at hl
  | succ f =>
    simp only [parentChain] at hl
    cases hk : h[k]? with
    | none => simp [hk] at hl
    | some n =>
      simp only [hk, Option.map_eq_some'] at hl
      obtain ⟨t, ht, rfl⟩ := hl
      exact ⟨f, n, t, rfl, rfl, ht, rfl⟩

theorem parentChain_length_le (f : Nat) (h : Heap) (p : Option Nat) (l : List Nat)
    (hl : parentChain f h p = some l) : l.length ≤ f := by
  induction f generalizing p l with
  | zero =>
    cases p with
    | none =>
      simp only [parentChain, Option.some.injEq] at hl
      subst hl
      exact le_refl _
    | some k => simp [parentChain] at hl
  | succ f ih =>
    cases p with
    | none =>
      simp only [parentChain, Option.some.injEq] at hl
      subst hl
      exact Nat.zero_le _
    | some k =>
      obtain ⟨f1, n, t, hf, hk, ht, rfl⟩ := parentChain_some _ h k l hl
      have hf1 : f1 = f := by omega
      subst hf1
      have := ih _ _ ht
      simp only [List.length_cons]
      omega

theorem parentChain_fuel (f : Nat) (h : Heap) (p : Option Nat) (l : List Nat)
    (hl : parentChain f h p = some l) (g : Nat) (hg : l.length ≤ g) :
    parentChain g h p = some l := by
  induction f generalizing p l g with
  | zero =>
    cases p with
    | none =>
      simp only [parentChain, Option.some.injEq] at hl
      subst hl
      cases g <;> simp [parentChain]
    | some k => simp [parentChain] at hl
  | succ f ih =>
    cases p with
    | none =>
      simp only [parentChain, Option.some.injEq] at hl
      subst hl
      cases g <;> simp [parentChain]
    | some k =>
      obtain ⟨f1, n, t, hf, hk, ht, rfl⟩ := parentChain_some _ h k l hl
      have hf1 : f1 = f := by omega
      subst hf1
      cases g with
      | zero => simp at hg
      | succ g =>
        simp only [parentChain, hk, ih _ _ ht g (by simpa using hg), Option.map_some']

theorem parentChain_suffix (f : Nat) (h : Heap) (p : Option Nat) (l : List Nat)
    (hl : parentChain f h p = some l) (j : Nat) (hj : j ∈ l) :
    ∃ g t, parentChain g h (some j) = some t ∧ t.length ≤ l.length := by
  induction f generalizing p l with
  | zero =>
    cases p with
    | none =>
      simp only [parentChain, Option.some.injEq] at hl
      subst hl
      simp at hj
    | some k => simp [parentChain] at hl
  | succ f ih =>
    cases p with
    | none =>
      simp only [parentChain, Option.some.injEq] at hl
      subst hl
      simp at hj
    | some k =>
      obtain ⟨f1, n, t, hf, hk, ht, rfl⟩ := parentChain_some _ h k l hl
      have hf1 : f1 = f := by omega
      subst hf1
      rcases List.mem_cons.1 hj with rfl | hj
      · exact ⟨_, _, hl, le_refl _⟩
      · obtain ⟨g, t2, hg, hlen⟩ := ih _ _ ht hj
        exact ⟨g, t2, hg, by simp only [List.length_cons]; omega⟩

theorem parentChain_nodup (f : Nat) (h : Heap) (p : Option Nat) (l : List Nat)
    (hl : parentChain f h p = some l) : l.Nodup := by
  induction f generalizing p l with
  | zero =>
    cases p with
    | none =>
      simp only [parentChain, Option.some.injEq] at hl
      subst hl
      exact List.nodup_nil
    | some k => simp [parentChain] at hl
  | succ f ih =>
    cases p with
    | none =>
      simp only [parentChain, Option.some.injEq] at hl
      subst hl
      exact List.nodup_nil
    | some k =>
      obtain ⟨f1, n, t, hf, hk, ht, rfl⟩ := parentChain_some _ h k l hl
      have hf1 : f1 = f := by omega
      subst hf1
      refine List.nodup_cons.2 ⟨fun hmem => ?_, ih _ _ ht⟩
      obtain ⟨g, t2, hg, hlen⟩ := parentChain_suffix _ h _ t ht k hmem
      have e1 := parentChain_fuel _ h _ _ hg (max g (f1 + 1))
        (le_trans (parentChain_length_le _ h _ _ hg) (le_max_left _ _))
      have e2 := parentChain_fuel _ h _ _ hl (max g (f1 + 1))
        (le_trans (parentChain_length_le _ h _ _ hl) (le_max_right _ _))
      rw [e1] at e2
      injection e2 with e2
      subst e2
      simp only [List.length_cons] at hlen
      omega

theorem parentChain_congr (f : Nat) (h h1 : Heap) (p : Option Nat)
    (hpar : ∀ j : Nat, (h1[j]?).map Node.parent = (h[j]?).map Node.parent) :
    parentChain f h1 p = parentChain f h p := by
  induction f generalizing p with
  | zero => cases p <;> rfl
  | succ f ih =>
    cases p with
    | none => rfl
    | some k =>
      have hk := hpar k
      simp only [parentChain]
      cases e1 : h1[k]? with
      | none =>
        cases e : h[k]? with
        | none => rfl
        | some n => rw [e1, e] at hk; simp at hk
      | some n1 =>
        cases e : h[k]? with
        | none => rw [e1, e] at hk; simp at hk
        | some n =>
          rw [e1, e] at hk
          simp only [Option.map_some', Option.some.injEq] at hk
          simp only [hk, ih]

theorem backpropagate_step (f : Nat) (h : Heap) (x : Nat) (n : Node) (r : Int)
    (hn : h[x]? = some n) :
    backpropagate (f + 1) h (some x) r = backpropagate f (h.set x (bump r n)) n.parent r := by
  simp only [backpropagate, hn, bump]
  split_ifs <;> rfl

theorem set_bump_parent (h : Heap) (x : Nat) (n : Node) (r : Int) (hn : h[x]? = some n) (j : Nat) :
    ((h.set x (bump r n))[j]?).map Node.parent = (h[j]?).map Node.parent := by
  rw [List.getElem?_set]
  split_ifs with h1 h2
  · subst h1
    simp [hn, bump]
  · subst h1
    rw [List.getElem?_eq_none (not_lt.1 h2)] at hn
    simp at hn
  · rfl

theorem length_eq_of_getElem?_map (h h1 : Heap) (g : Nat → Node → Node)
    (hget : ∀ j : Nat, h1[j]? = (h[j]?).map (g j)) : h1.length = h.length := by
  rcases Nat.lt_trichotomy h1.length h.length with hlt | heq | hgt
  · have h1n := hget h1.length
    rw [List.getElem?_eq_none (le_refl _), List.getElem?_eq_getElem hlt] at h1n
    simp at h1n
  · exact heq
  · have h1n := hget h.length
    rw [List.getElem?_eq_none (le_refl _), List.getElem?_eq_getElem hgt] at h1n
    simp at h1n

/-- The effect of `backpropagate` along a parent chain `l`. -/
theorem backpropagate_chain (f : Nat) (h : Heap) (p : Option Nat) (r : Int) (l : List Nat)
    (hl : parentChain f h p = some l) (fuel : Nat) (hfuel : l.length ≤ fuel) :
    ∃ h1, backpropagate fuel h p r = some h1 ∧
      ∀ j : Nat, h1[j]? = (h[j]?).map (fun n => if j ∈ l then bump r n else n) := by
  induction f generalizing h p l fuel with
  | zero =>
    cases p with
    | none =>
      simp only [parentChain, Option.some.injEq] at hl
      subst hl
      refine ⟨h, by cases fuel <;> rfl, fun j => ?_⟩
      simp
    | some k => simp [parentChain] at hl
  | succ f ih =>
    cases p with
    | none =>
      simp only [parentChain, Option.some.injEq] at hl
      subst hl
      refine ⟨h, by cases fuel <;> rfl, fun j => ?_⟩
      simp
    | some x =>
      have hnd := parentChain_nodup _ h _ l hl
      obtain ⟨f1, n, t, hf, hx, ht, rfl⟩ := parentChain_some _ h x l hl
      have hf1 : f1 = f := by omega
      subst hf1
      cases fuel with
      | zero => simp at hfuel
      | succ fuel =>
        rw [backpropagate_step fuel h x n r hx]
        have ht1 : parentChain f1 (h.set x (bump r n)) n.parent = some t := by
          rw [parentChain_congr f1 h _ _ (set_bump_parent h x n r hx)]
          exact ht
        obtain ⟨h1, hb, hget⟩ := ih _ _ _ ht1 fuel (by simpa using hfuel)
        refine ⟨h1, hb, fun j => ?_⟩
        rw [hget j, List.getElem?_set]
        have hxt : x ∉ t := (List.nodup_cons.1 hnd).1
        have hxlt : x < h.length := (List.getElem?_eq_some_iff.1 hx).1
        by_cases hjx : x = j
        · subst hjx
          simp [hxlt, hx, hxt]
        · have : (j ∈ x :: t) ↔ j ∈ t := by
            simp [List.mem_cons, Ne.symm hjx]
          simp only [hjx, if_false, this]

theorem backpropagate_int_step (f : Nat) (h : Heap) (x : Nat) (n : Node) (r : Int)
    (hn : h[x]? = some n) (hv : n.visits < INT_MAX) (hw : n.player = r → n.wins < INT_MAX) :
    backpropagate_int (f + 1) h (some x) r =
      backpropagate_int f (h.set x (bump r n)) n.parent r := by
  simp only [backpropagate_int, hn, bump, not_le.2 hv, if_false]
  by_cases hp : n.player = r
  · simp only [hp, if_true, not_le.2 (hw hp), if_false]
  · simp only [hp, if_false]

/-- With no counter at `INT_MAX` on the parent chain `l`, the loop with 32-bit
counters and the loop without range check do the same. -/
theorem backpropagate_int_chain (f : Nat) (h : Heap) (p : Option Nat) (r : Int) (l : List Nat)
    (hl : parentChain f h p = some l) (fuel : Nat)
    (hb : ∀ j ∈ l, ∀ n, h[j]? = some n → n.visits < INT_MAX ∧ (n.player = r → n.wins < INT_MAX)) :
    backpropagate_int fuel h p r = backpropagate fuel h p r := by
  induction f generalizing h p l fuel with
  | zero =>
    cases p with
    | none => cases fuel <;> rfl
    | some k => simp [parentChain] at hl
  | succ f ih =>
    cases p with
    | none => cases fuel <;> rfl
    | some x =>
      have hnd := parentChain_nodup _ h _ l hl
      obtain ⟨f1, n, t, hf, hx, ht, rfl⟩ := parentChain_some _ h x l hl
      have hf1 : f1 = f := by omega
      subst hf1
      cases fuel with
      | zero => rfl
      | succ fuel =>
        obtain ⟨hxv, hxw⟩ := hb x (List.mem_cons_self _ _) n hx
        rw [backpropagate_step fuel h x n r hx, backpropagate_int_step fuel h x n r hx hxv hxw]
        have ht1 : parentChain f1 (h.set x (bump r n)) n.parent = some t := by
          rw [parentChain_congr f1 h _ _ (set_bump_parent h x n r hx)]
          exact ht
        have hxt : x ∉ t := (List.nodup_cons.1 hnd).1
        refine ih _ _ _ ht1 fuel (fun j hj m hm => ?_)
        have hjx : x ≠ j := fun e => hxt (e ▸ hj)
        rw [List.getElem?_set_ne hjx] at hm
        exact hb j (List.mem_cons_of_mem _ hj) m hm

/-- Whenever the loop with 32-bit counters returns a heap, the loop without
range check returns the same heap. -/
theorem backpropagate_int_some (fuel : Nat) (h : Heap) (p : Option Nat) (r : Int) (h1 : Heap)
    (hb : backpropagate_int fuel h p r = some h1) : backpropagate fuel h p r = some h1 := by
  induction fuel generalizing h p with
  | zero =>
    cases p with
    | none => simpa [backpropagate_int, backpropagate] using hb
    | some k => simp [backpropagate_int] at hb
  | succ fuel ih =>
    cases p with
    | none => simpa [backpropagate_int, backpropagate] using hb
    | some k =>
      cases hk : h[k]? with
      | none => simp [backpropagate_int, hk] at hb
      | some n =>
        by_cases hv : INT_MAX ≤ n.visits
        · simp [backpropagate_int, hk, hv] at hb
        · by_cases hw : n.player = r → n.wins < INT_MAX
          · rw [backpropagate_int_step fuel h k n r hk (not_le.1 hv) hw] at hb
            rw [backpropagate_step fuel h k n r hk]
            exact ih _ _ hb
          · push_neg at hw
            simp [backpropagate_int, hk, hv, hw.1, hw.2] at hb

/-- C8 (counterexample): `saturatedHeap` is a tree of one node, the root, whose
visits are `INT_MAX`; `backpropagate` from the root overflows on `visits++`,
whatever the result is, so the visits of the root are not incremented by 1. -/
theorem backpropagate_int_overflow :
    parentChain 1 saturatedHeap (some 0) = some [0] ∧
    (saturatedHeap[0]?).map Node.visits = some INT_MAX ∧
    ∀ (fuel : Nat) (r : Int), backpropagate_int fuel saturatedHeap (some 0) r = none := by
  refine ⟨by decide, by decide, fun fuel r => ?_⟩
  cases fuel with
  | zero => rfl
  | succ fuel => simp [backpropagate_int, saturatedHeap, INT_MAX]

/-- C8 (as the code behaves): when the parent chain from `x` reaches `nullptr`
(a tree), with `l` the addresses on the chain from `x` up to the root
inclusive, and when on the chain no visits counter is `INT_MAX` and no wins
counter of a node whose player equals `r` is `INT_MAX`, `backpropagate(x, r)`
terminates; every node on the chain gets visits + 1, and wins + 1 exactly when
its player equals `r`; every node off the chain, and the state, player, parent
and children of every node, are unchanged; no node is added or removed. The
loop without range check returns the same heap. -/
theorem backpropagate_int_spec (f : Nat) (h : Heap) (x : Nat) (r : Int) (l : List Nat)
    (hl : parentChain f h (some x) = some l) (fuel : Nat) (hfuel : l.length ≤ fuel)
    (hb : ∀ j ∈ l, ∀ n, h[j]? = some n → n.visits < INT_MAX ∧ (n.player = r → n.wins < INT_MAX)) :
    ∃ h1, backpropagate_int fuel h (some x) r = some h1 ∧
      backpropagate fuel h (some x) r = some h1 ∧ h1.length = h.length ∧ x ∈ l ∧ l.Nodup ∧
      ∀ (j : Nat) (n : Node), h[j]? = some n →
        (j ∈ l → h1[j]? = some
          { n with visits := n.visits + 1, wins := if n.player = r then n.wins + 1 else n.wins }) ∧
        (j ∉ l → h1[j]? = some n) := by
  obtain ⟨h1, hb1, hget⟩ := backpropagate_chain f h (some x) r l hl fuel hfuel
  refine ⟨h1, ?_, hb1, ?_, ?_, parentChain_nodup _ h _ l hl, fun j n hj => ?_⟩
  · rw [backpropagate_int_chain f h (some x) r l hl fuel hb]
    exact hb1
  · exact length_eq_of_getElem?_map h h1 _ hget
  · obtain ⟨_, _, t, _, _, _, rfl⟩ := parentChain_some _ h x l hl
    exact List.mem_cons_self _ _
  · rw [hget j, hj]
    constructor
    · intro hm
      simp [hm, bump]
    · intro hm
      simp [hm]

theorem backpropagate_int_spec_witness :
    parentChain 2 sampleHeap (some 2) = some [2, 0] ∧
    ∃ h1, backpropagate_int 2 sampleHeap (some 2) 1 = some h1 ∧ h1.length = 4 := by
  have hl : parentChain 2 sampleHeap (some 2) = some [2, 0] := by decide
  obtain ⟨h1, hb, -, hlen, -⟩ := backpropagate_int_spec 2 sampleHeap 2 1 [2, 0] hl 2 (le_refl _)
    (by
      intro j hj n hn
      simp only [List.mem_cons, List.mem_singleton, List.not_mem_nil, or_false] at hj
      rcases hj with rfl | rfl
      · simp only [sampleHeap] at hn
        injection hn with hn
        subst hn
        exact ⟨by decide, fun _ => by decide⟩
      · simp only [sampleHeap] at hn
        injection hn with hn
        subst hn
        exact ⟨by decide, fun _ => by decide⟩)
  exact ⟨hl, h1, hb, hlen⟩

/-! ## Simulation (C9, C10) -/

theorem isEmpty_eq_false_of_ne_nil {α : Type} (l : List α) (hl : l ≠ []) : l.isEmpty = false := by
  cases l with
  | nil => exact absurd rfl hl
  | cons a t => rfl

/-- C9: for a node with a 3x3 state, a player that is a mark (non-zero, as 1
and -1 are), no winner and exactly one empty cell `mv`, such that writing the
player of the node into `mv` leaves no complete line, `simulate` returns 0
after one draw, whatever the draws are. -/
theorem simulate_forced_draw (rng : Nat → Nat) (fuel : Nat) (h : Heap) (node pos : Nat)
    (n : Node) (mv : Nat × Nat) (hn : h[node]? = some n) (h3 : is3x3 n.state)
    (hp : n.player ≠ 0) (hw : get_winner n.state = 0)
    (hm : get_legal_moves n.state = [mv])
    (hline : ¬ ∃ l ∈ lines, ∃ m, complete (setCell n.state mv.1 mv.2 n.player) l m)
    (hfuel : 2 ≤ fuel) :
    simulate rng fuel h node pos = some (0, pos + 1) := by
  obtain ⟨f, rfl⟩ : ∃ f, fuel = f + 2 := ⟨fuel - 2, by omega⟩
  have hmem := (mem_get_legal_moves n.state mv).1 (by rw [hm]; exact List.mem_singleton_self _)
  obtain ⟨ha, hb, hz⟩ := hmem
  have hw1 : get_winner (setCell n.state mv.1 mv.2 n.player) = 0 := get_winner_zero _ hline
  have hfull : get_legal_moves (setCell n.state mv.1 mv.2 n.player) = [] := by
    rw [get_legal_moves_eq_nil]
    intro a ha1 b hb1
    rw [cell_setCell_3x3 _ h3 _ _ _ _ _ ha hb]
    split_ifs with hab
    · exact hp
    · intro hzero
      have hin : (a, b) ∈ get_legal_moves n.state :=
        (mem_get_legal_moves n.state (a, b)).2 ⟨ha1, hb1, hzero⟩
      rw [hm, List.mem_singleton] at hin
      exact hab hin
  have hmove : rollout_move n.state (rng pos) = some mv := by
    simp [rollout_move, hm, Nat.mod_one]
  simp only [simulate, hn, simulate_loop, hw, if_true, hm, List.isEmpty_cons, Bool.false_eq_true,
    if_false, hmove, hw1, hfull, List.isEmpty_nil]

theorem simulate_forced_draw_witness :
    get_winner [[1, -1, 1], [1, -1, -1], [-1, 1, 0]] = 0 ∧
    get_legal_moves [[1, -1, 1], [1, -1, -1], [-1, 1, 0]] = [(2, 2)] ∧
    simulate (fun _ => 7) 2 [freshRoot [[1, -1, 1], [1, -1, -1], [-1, 1, 0]] 1] 0 0 = some (0, 1) := by
  have hw : get_winner [[1, -1, 1], [1, -1, -1], [-1, 1, 0]] = 0 := by decide
  have hm : get_legal_moves [[1, -1, 1], [1, -1, -1], [-1, 1, 0]] = [(2, 2)] := by decide
  refine ⟨hw, hm, ?_⟩
  refine simulate_forced_draw (fun _ => 7) 2 [freshRoot [[1, -1, 1], [1, -1, -1], [-1, 1, 0]] 1]
    0 0 (freshRoot [[1, -1, 1], [1, -1, -1], [-1, 1, 0]] 1) (2, 2) rfl (by decide)
    (by decide) hw hm ?_ (le_refl _)
  rintro ⟨l, hl, m, hc⟩
  have hne := get_winner_of_line _ l hl m hc
  exact hne (by decide)

/-- C10 (code as written): on the board reached from the empty board by one
move at (0, 0), which has eight legal moves, a rollout step only ever picks one
of the first three, so the legal move (1, 1) is never selected: the draw comes
from `dist(0, 2)` and is reduced modulo the number of legal moves. -/
theorem rollout_move_first_three (r : Nat) :
    (get_legal_moves [[-1, 0, 0], [0, 0, 0], [0, 0, 0]]).length = 8 ∧
    (1, 1) ∈ get_legal_moves [[-1, 0, 0], [0, 0, 0], [0, 0, 0]] ∧
    rollout_move [[-1, 0, 0], [0, 0, 0], [0, 0, 0]] r ≠ some (1, 1) ∧
    (rollout_move [[-1, 0, 0], [0, 0, 0], [0, 0, 0]] r = some (0, 1) ∨
      rollout_move [[-1, 0, 0], [0, 0, 0], [0, 0, 0]] r = some (0, 2) ∨
      rollout_move [[-1, 0, 0], [0, 0, 0], [0, 0, 0]] r = some (1, 0)) := by
  have hlm : get_legal_moves [[-1, 0, 0], [0, 0, 0], [0, 0, 0]] =
      [(0, 1), (0, 2), (1, 0), (1, 1), (1, 2), (2, 0), (2, 1), (2, 2)] := by decide
  have hd : dist 0 2 r = r % 3 := by simp [dist]
  have hr : r % 3 < 3 := Nat.mod_lt _ (by decide)
  refine ⟨by rw [hlm]; rfl, by rw [hlm]; decide, ?_, ?_⟩ <;>
    simp only [rollout_move, hlm, hd] <;>
    interval_cases hrr : r % 3 <;> simp

/-- A rollout step on a board with two legal moves: the three values of the
draw select the first move twice and the second move once. -/
theorem rollout_move_two_moves :
    get_legal_moves [[1, -1, 1], [1, -1, -1], [-1, 0, 0]] = [(2, 1), (2, 2)] ∧
    ((List.range 3).map (rollout_move [[1, -1, 1], [1, -1, -1], [-1, 0, 0]])) =
      [some (2, 1), some (2, 2), some (2, 1)] := by
  decide

/-! ## The tree invariant of the search (C4, C5) -/

theorem emptyCount_le (b : Board) : emptyCount b ≤ 9 := by
  unfold emptyCount
  rw [get_legal_moves_eq_filter]
  exact List.length_filter_le _ _

theorem get_legal_moves_setCell (b : Board) (h3 : is3x3 b) (mv : Nat × Nat)
    (hmv : mv ∈ get_legal_moves b) (v : Int) (hv : v ≠ 0) :
    get_legal_moves (setCell b mv.1 mv.2 v) = (get_legal_moves b).erase mv := by
  obtain ⟨ha, hb, _⟩ := (mem_get_legal_moves b mv).1 hmv
  rw [(get_legal_moves_nodup b).erase_eq_filter, get_legal_moves_eq_filter,
    get_legal_moves_eq_filter, List.filter_filter]
  apply List.filter_congr
  intro p _
  rw [cell_setCell_3x3 b h3 _ _ _ _ _ ha hb]
  by_cases hp : p = mv
  · subst hp
    simp [hv]
  · have : (p.1, p.2) ≠ (mv.1, mv.2) := fun h => hp (Prod.ext (by simpa using (Prod.mk.inj h).1)
      (by simpa using (Prod.mk.inj h).2))
    simp [this, hp]

theorem emptyCount_setCell (b : Board) (h3 : is3x3 b) (mv : Nat × Nat)
    (hmv : mv ∈ get_legal_moves b) (v : Int) (hv : v ≠ 0) :
    emptyCount (setCell b mv.1 mv.2 v) + 1 = emptyCount b := by
  unfold emptyCount
  rw [get_legal_moves_setCell b h3 mv hmv v hv, List.length_erase_of_mem hmv]
  have : 0 < (get_legal_moves b).length := List.length_pos_of_mem hmv
  omega

theorem player_ne_zero (p : Int) (hp : p = 1 ∨ p = -1) : p ≠ 0 := by
  rcases hp with rfl | rfl <;> decide

theorem TreeInv.child_valid {h : Heap} (hinv : TreeInv h) (k : Nat) (n : Node)
    (hn : h[k]? = some n) (c : Nat) (hc : c ∈ n.children) :
    ∃ cn, h[c]? = some cn ∧ cn.parent = some k ∧ 0 ≤ cn.visits ∧
      emptyCount cn.state < emptyCount n.state := by
  have hne : n.children ≠ [] := List.ne_nil_of_mem hc
  obtain ⟨hlen, hall⟩ := hinv.children_ok k n hn hne
  obtain ⟨i, hi, hget⟩ := List.getElem_of_mem hc
  have hi2 : i < (get_legal_moves n.state).length := hlen ▸ hi
  obtain ⟨c1, cn, hc1, -, hcn, hpar, -, hst⟩ := hall i hi2
  rw [List.getElem?_eq_getElem hi, hget] at hc1
  injection hc1 with hc1
  subst hc1
  obtain ⟨h3, hp, -⟩ := hinv.node_ok k n hn
  refine ⟨cn, hcn, hpar, (hinv.node_ok c cn hcn).2.2, ?_⟩
  have := emptyCount_setCell n.state h3 _ (List.get_mem (get_legal_moves n.state) i hi2) n.player
    (player_ne_zero _ hp)
  rw [hst]
  omega

theorem TreeInv_fresh (root : Node) (hv : root.visits = 0) (hc : root.children = [])
    (hpar : root.parent = none) (hp : root.player = 1 ∨ root.player = -1)
    (h3 : is3x3 root.state) : TreeInv [root] := by
  have hget : ∀ (k : Nat) (n : Node), [root][k]? = some n → k = 0 ∧ n = root := by
    intro k n hk
    cases k with
    | zero => simpa using hk.symm
    | succ k => simp at hk
  refine ⟨⟨root, rfl, hpar⟩, fun k n hk => ?_, fun k n hk hk0 => ?_, fun k n hk hne => ?_⟩
  · obtain ⟨-, rfl⟩ := hget k n hk
    exact ⟨h3, hp, by rw [hv]⟩
  · exact absurd (hget k n hk).1 hk0
  · obtain ⟨-, rfl⟩ := hget k n hk
    exact absurd hc hne

theorem expandHeap_cases (h : Heap) (k : Nat) (n : Node) (hn : h[k]? = some n) (j : Nat)
    (nj : Node) (hj : (expandHeap h k n)[j]? = some nj) :
    (j ≠ k ∧ h[j]? = some nj) ∨
    (j = k ∧ nj = { n with children := (n.children ++
      List.range' h.length (get_legal_moves n.state).length) }) ∨
    (∃ (i : Nat) (hi : i < (get_legal_moves n.state).length), j = h.length + i ∧
      nj = childNode n k ((get_legal_moves n.state).get ⟨i, hi⟩)) := by
  by_cases hjk : j = k
  · subst hjk
    rw [expandHeap_node h j n hn] at hj
    injection hj with hj
    exact Or.inr (Or.inl ⟨rfl, hj.symm⟩)
  · by_cases hlt : j < h.length
    · rw [expandHeap_old h k n j hlt hjk] at hj
      exact Or.inl ⟨hjk, hj⟩
    · have hjlen : j < (expandHeap h k n).length := (List.getElem?_eq_some_iff.1 hj).1
      rw [expandHeap_length] at hjlen
      have hi : j - h.length < (get_legal_moves n.state).length := by omega
      have hje : j = h.length + (j - h.length) := by omega
      refine Or.inr (Or.inr ⟨j - h.length, hi, hje, ?_⟩)
      rw [hje, expandHeap_new h k n _ hi] at hj
      injection hj with hj
      exact hj.symm

theorem expandHeap_keep (h : Heap) (k : Nat) (n : Node) (hn : h[k]? = some n) (p : Nat)
    (pn : Node) (hp : h[p]? = some pn) :
    ∃ pn1, (expandHeap h k n)[p]? = some pn1 ∧ pn1.state = pn.state ∧
      pn1.player = pn.player ∧ pn1.parent = pn.parent ∧ pn1.visits = pn.visits ∧
      pn1.wins = pn.wins ∧ (p ≠ k → pn1 = pn) := by
  by_cases hpk : p = k
  · subst hpk
    rw [hn] at hp
    injection hp with hp
    subst hp
    exact ⟨_, expandHeap_node h p n hn, rfl, rfl, rfl, rfl, rfl, fun hne => absurd rfl hne⟩
  · have hlt : p < h.length := (List.getElem?_eq_some_iff.1 hp).1
    exact ⟨pn, by rw [expandHeap_old h k n p hlt hpk]; exact hp, rfl, rfl, rfl, rfl, rfl,
      fun _ => rfl⟩

theorem TreeInv_expand (h : Heap) (hinv : TreeInv h) (k : Nat) (n : Node) (hn : h[k]? = some n)
    (hc : n.children = []) : TreeInv (expandHeap h k n) := by
  have hklt : k < h.length := (List.getElem?_eq_some_iff.1 hn).1
  obtain ⟨hn3, hnp, hnv⟩ := hinv.node_ok k n hn
  refine ⟨?_, fun j nj hj => ?_, fun j nj hj hj0 => ?_, fun j nj hj hne => ?_⟩
  · obtain ⟨r, hr, hrp⟩ := hinv.root_parent
    obtain ⟨r1, hr1, -, -, hpar, -⟩ := expandHeap_keep h k n hn 0 r hr
    exact ⟨r1, hr1, hpar.trans hrp⟩
  · rcases expandHeap_cases h k n hn j nj hj with ⟨-, hold⟩ | ⟨-, rfl⟩ | ⟨i, hi, -, rfl⟩
    · exact hinv.node_ok j nj hold
    · exact ⟨hn3, hnp, hnv⟩
    · refine ⟨is3x3_setCell _ hn3 _ _ _, ?_, le_refl _⟩
      simp only [childNode]
      rcases hnp with hnp | hnp <;> rw [hnp] <;> simp
  · rcases expandHeap_cases h k n hn j nj hj with ⟨-, hold⟩ | ⟨rfl, rfl⟩ | ⟨i, hi, rfl, rfl⟩
    · obtain ⟨p, pn, hpar, hlt, hp, hec⟩ := hinv.parent_ok j nj hold hj0
      obtain ⟨pn1, hp1, hst, -⟩ := expandHeap_keep h k n hn p pn hp
      exact ⟨p, pn1, hpar, hlt, hp1, by rw [hst]; exact hec⟩
    · obtain ⟨p, pn, hpar, hlt, hp, hec⟩ := hinv.parent_ok j n hn hj0
      obtain ⟨pn1, hp1, hst, -⟩ := expandHeap_keep h j n hn p pn hp
      exact ⟨p, pn1, hpar, hlt, hp1, by rw [hst]; exact hec⟩
    · refine ⟨k, _, rfl, by omega, expandHeap_node h k n hn, ?_⟩
      have := emptyCount_setCell n.state hn3 _ (List.get_mem (get_legal_moves n.state) i hi)
        n.player (player_ne_zero _ hnp)
      simp only [childNode]
      omega
  · rcases expandHeap_cases h k n hn j nj hj with ⟨-, hold⟩ | ⟨rfl, rfl⟩ | ⟨i, hi, rfl, rfl⟩
    · obtain ⟨hlen, hall⟩ := hinv.children_ok j nj hold hne
      refine ⟨hlen, fun i hi => ?_⟩
      obtain ⟨c, cn, hci, hlt, hcn, hpar, hpl, hst⟩ := hall i hi
      obtain ⟨cn1, hcn1, hst1, hpl1, hpar1, -⟩ := expandHeap_keep h k n hn c cn hcn
      exact ⟨c, cn1, hci, hlt, hcn1, hpar1.trans hpar, hpl1.trans hpl, hst1.trans hst⟩
    · refine ⟨by simp [hc], fun i hi => ?_⟩
      refine ⟨h.length + i, _, ?_, by omega, expandHeap_new h j n i hi, rfl, rfl, rfl⟩
      simp only [hc, List.nil_append]
      rw [List.getElem?_eq_getElem (by simpa using hi)]
      simp [List.getElem_range']
    · exact absurd rfl hne

/-- A heap with the same nodes up to visits and wins, visits staying non-negative. -/
theorem TreeInv_congr (h h1 : Heap) (hinv : TreeInv h)
    (hsame : ∀ (j : Nat) (n1 : Node), h1[j]? = some n1 → ∃ n, h[j]? = some n ∧
      n1.state = n.state ∧ n1.player = n.player ∧ n1.parent = n.parent ∧
      n1.children = n.children ∧ 0 ≤ n1.visits)
    (hlen : h1.length = h.length) : TreeInv h1 := by
  have hback : ∀ (j : Nat) (n : Node), h[j]? = some n → ∃ n1, h1[j]? = some n1 ∧
      n1.state = n.state ∧ n1.player = n.player ∧ n1.parent = n.parent ∧
      n1.children = n.children := by
    intro j n hj
    have hlt : j < h1.length := by rw [hlen]; exact (List.getElem?_eq_some_iff.1 hj).1
    obtain ⟨n', hn', h1', h2', h3', h4', -⟩ := hsame j _ (List.getElem?_eq_getElem hlt)
    rw [hj] at hn'
    injection hn' with hn'
    subst hn'
    exact ⟨_, List.getElem?_eq_getElem hlt, h1', h2', h3', h4'⟩
  refine ⟨?_, fun j n1 hj => ?_, fun j n1 hj hj0 => ?_, fun j n1 hj hne => ?_⟩
  · obtain ⟨r, hr, hrp⟩ := hinv.root_parent
    obtain ⟨r1, hr1, -, -, hpar, -⟩ := hback 0 r hr
    exact ⟨r1, hr1, hpar.trans hrp⟩
  · obtain ⟨n, hn, hst, hpl, -, -, hv⟩ := hsame j n1 hj
    obtain ⟨h3, hp, -⟩ := hinv.node_ok j n hn
    exact ⟨hst ▸ h3, hpl ▸ hp, hv⟩
  · obtain ⟨n, hn, hst, -, hpar, -, -⟩ := hsame j n1 hj
    obtain ⟨p, pn, hpp, hlt, hp, hec⟩ := hinv.parent_ok j n hn hj0
    obtain ⟨pn1, hp1, hst1, -⟩ := hback p pn hp
    exact ⟨p, pn1, hpar.trans hpp, hlt, hp1, by rw [hst, hst1]; exact hec⟩
  · obtain ⟨n, hn, hst, hpl, -, hch, -⟩ := hsame j n1 hj
    obtain ⟨hlen2, hall⟩ := hinv.children_ok j n hn (hch ▸ hne)
    rw [hst, hch, hpl]
    refine ⟨hlen2, fun i hi => ?_⟩
    obtain ⟨c, cn, hci, hlt, hcn, hpar, hpl2, hst2⟩ := hall i hi
    obtain ⟨cn1, hcn1, hst1, hpl1, hpar1, -⟩ := hback c cn hcn
    exact ⟨c, cn1, hci, hlt, hcn1, hpar1.trans hpar, hpl1.trans hpl2, hst1.trans hst2⟩

theorem Extends_refl (h : Heap) : Extends h h :=
  fun _ n hj => ⟨n, hj, rfl, rfl, rfl, rfl, rfl, fun _ => rfl⟩

theorem Extends_expand (h : Heap) (k : Nat) (n : Node) (hn : h[k]? = some n)
    (hc : n.children = []) : Extends h (expandHeap h k n) := by
  intro j nj hj
  obtain ⟨n1, hn1, h1, h2, h3, h4, h5, h6⟩ := expandHeap_keep h k n hn j nj hj
  refine ⟨n1, hn1, h1, h2, h3, h4, h5, fun hne => ?_⟩
  by_cases hjk : j = k
  · subst hjk
    rw [hn] at hj
    injection hj with hj
    subst hj
    exact absurd hc hne
  · rw [h6 hjk]

theorem best_child_loop_valid (h : Heap) (N : Int) (cs : List Nat)
    (hcs : ∀ c ∈ cs, ∃ cn, h[c]? = some cn) (best : Option (Nat × Int × Int)) :
    ∃ r, best_child_loop h N cs best = some r ∧
      (r = best.map (fun b => b.1) ∨ ∃ c ∈ cs, r = some c) := by
  induction cs generalizing best with
  | nil => exact ⟨_, rfl, Or.inl rfl⟩
  | cons c cs ih =>
    obtain ⟨cn, hc⟩ := hcs c (List.mem_cons_self _ _)
    have hcs' : ∀ d ∈ cs, ∃ dn, h[d]? = some dn := fun d hd => hcs d (List.mem_cons_of_mem _ hd)
    simp only [best_child_loop, hc]
    split_ifs with h0 hb
    · exact ⟨_, rfl, Or.inr ⟨c, List.mem_cons_self _ _, rfl⟩⟩
    · obtain ⟨r, hr, hor⟩ := ih hcs' (some (c, cn.wins, cn.visits))
      refine ⟨r, hr, Or.inr ?_⟩
      rcases hor with rfl | ⟨d, hd, rfl⟩
      · exact ⟨c, List.mem_cons_self _ _, rfl⟩
      · exact ⟨d, List.mem_cons_of_mem _ hd, rfl⟩
    · obtain ⟨r, hr, hor⟩ := ih hcs' best
      refine ⟨r, hr, ?_⟩
      rcases hor with rfl | ⟨d, hd, rfl⟩
      · exact Or.inl rfl
      · exact Or.inr ⟨d, List.mem_cons_of_mem _ hd, rfl⟩

/-- On a node with children, all allocated and with non-negative visits (as
the parent), `best_child` returns one of the children, never `nullptr`. -/
theorem best_child_mem (h : Heap) (k : Nat) (n : Node) (hn : h[k]? = some n)
    (hne : n.children ≠ []) (hN : 0 ≤ n.visits)
    (hcs : ∀ c ∈ n.children, ∃ cn, h[c]? = some cn ∧ 0 ≤ cn.visits) :
    ∃ c ∈ n.children, best_child h k = some (some c) := by
  simp only [best_child, hn]
  cases hch : n.children with
  | nil => exact absurd hch hne
  | cons c0 cs =>
    rw [hch] at hcs
    obtain ⟨c0n, hc0, hc0v⟩ := hcs c0 (List.mem_cons_self _ _)
    have hcs' : ∀ d ∈ cs, ∃ dn, h[d]? = some dn := fun d hd =>
      let ⟨dn, hd1, _⟩ := hcs d (List.mem_cons_of_mem _ hd)
      ⟨dn, hd1⟩
    simp only [best_child_loop, hc0]
    by_cases h0 : c0n.visits = 0
    · simp only [h0, if_true]
      exact ⟨c0, List.mem_cons_self _ _, rfl⟩
    · have hpos : 0 < c0n.visits := lt_of_le_of_ne hc0v (Ne.symm h0)
      simp only [h0, if_false, score_better_none _ hN c0n hpos, if_true]
      obtain ⟨r, hr, hor⟩ := best_child_loop_valid h n.visits cs hcs'
        (some (c0, c0n.wins, c0n.visits))
      rcases hor with rfl | ⟨d, hd, rfl⟩
      · exact ⟨c0, List.mem_cons_self _ _, hr⟩
      · exact ⟨d, List.mem_cons_of_mem _ hd, hr⟩

theorem best_child_valid (h : Heap) (hinv : TreeInv h) (k : Nat) (n : Node)
    (hn : h[k]? = some n) : ∃ r, best_child h k = some r := by
  simp only [best_child, hn]
  obtain ⟨r, hr, -⟩ := best_child_loop_valid h n.visits n.children
    (fun c hc => let ⟨cn, hcn, _⟩ := hinv.child_valid k n hn c hc; ⟨cn, hcn⟩) none
  exact ⟨r, hr⟩

theorem TreeInv.best_child_of_children {h : Heap} (hinv : TreeInv h) (k : Nat) (n : Node)
    (hn : h[k]? = some n) (hne : n.children ≠ []) :
    ∃ c ∈ n.children, best_child h k = some (some c) :=
  MCTS.best_child_mem h k n hn hne (hinv.node_ok k n hn).2.2
    (fun c hc => let ⟨cn, hcn, _, hv, _⟩ := hinv.child_valid k n hn c hc; ⟨cn, hcn, hv⟩)

theorem not_terminal (n : Node) (ht : n.is_terminal = false) :
    get_winner n.state = 0 ∧ get_legal_moves n.state ≠ [] := by
  simp only [Node.is_terminal, Bool.or_eq_false_iff, bne_eq_false_iff_eq,
    List.isEmpty_eq_false] at ht
  exact ht

/-- The descent of `select` from a node `k` of a well-formed tree ends within
`emptyCount + 1` steps and returns an allocated node; the tree stays well
formed, old nodes only gain children, and a non-terminal start node has
children afterwards. -/
theorem select_loop_spec (rng : Nat → Nat) (fuel : Nat) (h : Heap) (hinv : TreeInv h)
    (pos k : Nat) (n : Node) (hn : h[k]? = some n) (hfuel : emptyCount n.state < fuel) :
    ∃ (h1 : Heap) (node pos1 : Nat) (nn : Node),
      select_loop rng fuel h pos k = some (h1, node, pos1) ∧ TreeInv h1 ∧ Extends h h1 ∧
      h1[node]? = some nn ∧
      (n.is_terminal = false → ∃ n1, h1[k]? = some n1 ∧ n1.children ≠ []) := by
  induction fuel generalizing k n with
  | zero => exact absurd hfuel (Nat.not_lt_zero _)
  | succ fuel ih =>
    simp only [select_loop, hn]
    by_cases ht : n.is_terminal = true
    · simp only [ht, if_true]
      exact ⟨h, k, pos, n, rfl, hinv, Extends_refl h, hn, fun hf => Bool.noConfusion hf⟩
    · have ht' : n.is_terminal = false := by simpa using ht
      obtain ⟨hw, hlm⟩ := not_terminal n ht'
      simp only [ht', Bool.false_eq_true, if_false]
      by_cases hfe : n.is_fully_expanded = true
      · have hlen : n.children.length = (get_legal_moves n.state).length := by
          simpa [Node.is_fully_expanded] using hfe
        have hne : n.children ≠ [] := by
          intro hnil
          rw [hnil] at hlen
          exact hlm (List.length_eq_zero.1 hlen.symm)
        obtain ⟨c, hc, hbest⟩ := hinv.best_child_of_children k n hn hne
        obtain ⟨cn, hcn, -, -, hec⟩ := hinv.child_valid k n hn c hc
        simp only [hfe, Bool.not_true, Bool.false_eq_true, if_false, hbest]
        obtain ⟨h1, node, pos1, nn, hsel, hinv1, hext, hnode, -⟩ :=
          ih c cn hcn (by omega)
        refine ⟨h1, node, pos1, nn, hsel, hinv1, hext, hnode, fun _ => ?_⟩
        obtain ⟨n1, hn1, -, -, -, -, -, hch⟩ := hext k n hn
        exact ⟨n1, hn1, by rw [hch hne]; exact hne⟩
      · have hfe' : n.is_fully_expanded = false := by simpa using hfe
        have hnil : n.children = [] := by
          by_contra hne
          have hlen := (hinv.children_ok k n hn hne).1
          simp [Node.is_fully_expanded, hlen] at hfe'
        have hk : 0 < (get_legal_moves n.state).length := List.length_pos.2 hlm
        have hd := dist_zero_lt _ (rng pos) hk
        simp only [hfe', Bool.not_false, if_true, expand_eq h k n (rng pos) hn hnil hlm]
        refine ⟨_, _, _, _, rfl, TreeInv_expand h hinv k n hn hnil, Extends_expand h k n hn hnil,
          expandHeap_new h k n _ hd, fun _ => ⟨_, expandHeap_node h k n hn, ?_⟩⟩
        simp only [hnil, List.nil_append]
        intro hr
        have := congrArg List.length hr
        simp only [List.length_range', List.length_nil] at this
        omega

theorem rollout_move_mem (state : Board) (r : Nat) (hlm : get_legal_moves state ≠ []) :
    ∃ mv ∈ get_legal_moves state, rollout_move state r = some mv := by
  have hk : 0 < (get_legal_moves state).length := List.length_pos.2 hlm
  have hlt : dist 0 2 r % (get_legal_moves state).length < (get_legal_moves state).length :=
    Nat.mod_lt _ hk
  exact ⟨_, List.getElem_mem hlt, by rw [rollout_move, List.getElem?_eq_getElem hlt]⟩

/-- The rollout of `simulate` from a 3x3 state with a non-zero player ends
within `emptyCount + 1` passes of the loop. -/
theorem simulate_loop_total (rng : Nat → Nat) (fuel : Nat) (state : Board) (player : Int)
    (pos : Nat) (h3 : is3x3 state) (hp : player ≠ 0) (hfuel : emptyCount state < fuel) :
    ∃ res, simulate_loop rng fuel state player pos = some res := by
  induction fuel generalizing state player pos with
  | zero => exact absurd hfuel (Nat.not_lt_zero _)
  | succ fuel ih =>
    simp only [simulate_loop]
    by_cases hw : get_winner state = 0
    · simp only [hw, if_true]
      by_cases hlm : get_legal_moves state = []
      · simp [hlm]
      · obtain ⟨mv, hmv, hroll⟩ := rollout_move_mem state (rng pos) hlm
        simp only [isEmpty_eq_false_of_ne_nil _ hlm, Bool.false_eq_true, if_false, hroll]
        have hec := emptyCount_setCell state h3 mv hmv player hp
        exact ih _ _ _ (is3x3_setCell state h3 _ _ _) (neg_ne_zero.2 hp) (by omega)
    · simp [hw]

/-- In a well-formed tree the parent chain of every node ends at the root and
has at most `10 - emptyCount` nodes. -/
theorem TreeInv.chain {h : Heap} (hinv : TreeInv h) (k : Nat) (n : Node) (hn : h[k]? = some n) :
    ∃ l, parentChain l.length h (some k) = some l ∧ 0 ∈ l ∧
      l.length + emptyCount n.state ≤ 10 := by
  induction k using Nat.strong_induction_on generalizing n with
  | _ k ih =>
    by_cases hk : k = 0
    · subst hk
      obtain ⟨r, hr, hrp⟩ := hinv.root_parent
      rw [hn] at hr
      injection hr with hr
      subst hr
      refine ⟨[0], ?_, List.mem_singleton_self _, ?_⟩
      · simp [parentChain, hn, hrp]
      · have := emptyCount_le n.state
        simp only [List.length_singleton]
        omega
    · obtain ⟨p, pn, hpar, hlt, hp, hec⟩ := hinv.parent_ok k n hn hk
      obtain ⟨l, hl, h0, hlen⟩ := ih p hlt pn hp
      refine ⟨k :: l, ?_, List.mem_cons_of_mem _ h0, ?_⟩
      · simp [parentChain, hn, hpar, hl]
      · simp only [List.length_cons]
        omega

theorem is_terminal_congr (n m : Node) (hs : n.state = m.state) :
    n.is_terminal = m.is_terminal := by
  simp only [Node.is_terminal, hs]

/-- One iteration of `search` on a well-formed tree: it terminates, keeps the
tree well formed, adds exactly one visit to the root, leaves the state and the
player of the root unchanged, and a non-terminal root has children afterwards. -/
theorem search_step_spec (rng : Nat → Nat) (fuel : Nat) (hfuel : 10 ≤ fuel) (h : Heap)
    (hinv : TreeInv h) (pos : Nat) (r : Node) (hr : h[0]? = some r) :
    ∃ (h2 : Heap) (pos2 : Nat) (r2 : Node), search_step rng fuel 0 h pos = some (h2, pos2) ∧
      TreeInv h2 ∧ h2[0]? = some r2 ∧ r2.visits = r.visits + 1 ∧ r2.state = r.state ∧
      r2.player = r.player ∧ (r.is_terminal = false → r2.children ≠ []) := by
  have hec := emptyCount_le r.state
  obtain ⟨h1, node, pos1, nn, hsel, hinv1, hext, hnode, hchild⟩ :=
    select_loop_spec rng fuel h hinv pos 0 r hr (by omega)
  obtain ⟨nn3, nnp, -⟩ := hinv1.node_ok node nn hnode
  have hec2 := emptyCount_le nn.state
  obtain ⟨res, hsim⟩ := simulate_loop_total rng fuel nn.state nn.player pos1 nn3
    (player_ne_zero _ nnp) (by omega)
  obtain ⟨l, hl, h0, hlen⟩ := hinv1.chain node nn hnode
  obtain ⟨h2, hback, hget⟩ := backpropagate_chain l.length h1 (some node) res.1 l hl fuel
    (by omega)
  have hlen2 := length_eq_of_getElem?_map h1 h2 _ hget
  obtain ⟨r1, hr1, hst1, hpl1, -, hv1, -, hch1⟩ := hext 0 r hr
  have hinv2 : TreeInv h2 := by
    refine TreeInv_congr h1 h2 hinv1 (fun j n2 hj => ?_) hlen2
    rw [hget j, Option.map_eq_some'] at hj
    obtain ⟨n1, hj1, hn2⟩ := hj
    refine ⟨n1, hj1, ?_⟩
    have hv := (hinv1.node_ok j n1 hj1).2.2
    by_cases hm : j ∈ l
    · rw [if_pos hm] at hn2
      subst hn2
      exact ⟨rfl, rfl, rfl, rfl, by show 0 ≤ n1.visits + 1; omega⟩
    · rw [if_neg hm] at hn2
      subst hn2
      exact ⟨rfl, rfl, rfl, rfl, hv⟩
  have hroot : h2[0]? = some (bump res.1 r1) := by
    rw [hget 0, hr1, Option.map_some', if_pos h0]
  refine ⟨h2, res.2, _, ?_, hinv2, hroot, ?_, hst1, hpl1, fun ht => ?_⟩
  · simp only [search_step, select, hsel, simulate, hnode, hsim, hback]
  · show r1.visits + 1 = r.visits + 1
    rw [hv1]
  · obtain ⟨n1, hn1, hne⟩ := hchild ht
    rw [hr1] at hn1
    injection hn1 with hn1
    subst hn1
    exact hne

theorem search_loop_spec (rng : Nat → Nat) (fuel : Nat) (hfuel : 10 ≤ fuel) (n : Nat) (h : Heap)
    (hinv : TreeInv h) (pos : Nat) (r : Node) (hr : h[0]? = some r) :
    ∃ (h1 : Heap) (pos1 : Nat) (r1 : Node), search_loop rng fuel 0 n h pos = some (h1, pos1) ∧
      TreeInv h1 ∧ h1[0]? = some r1 ∧ r1.visits = r.visits + n ∧ r1.state = r.state ∧
      r1.player = r.player ∧ (0 < n → r.is_terminal = false → r1.children ≠ []) := by
  induction n generalizing h pos r with
  | zero =>
    exact ⟨h, pos, r, rfl, hinv, hr, by simp, rfl, rfl, fun h0 => absurd h0 (Nat.lt_irrefl 0)⟩
  | succ n ih =>
    obtain ⟨h2, pos2, r2, hstep, hinv2, hr2, hv2, hs2, hp2, hc2⟩ :=
      search_step_spec rng fuel hfuel h hinv pos r hr
    obtain ⟨h1, pos1, r1, hloop, hinv1, hr1, hv1, hs1, hp1, hc1⟩ := ih h2 hinv2 pos2 r2 hr2
    refine ⟨h1, pos1, r1, ?_, hinv1, hr1, ?_, hs1.trans hs2, hp1.trans hp2, fun _ ht => ?_⟩
    · simp only [search_loop, hstep, hloop]
    · rw [hv1, hv2]
      push_cast
      ring
    · cases n with
      | zero =>
        simp only [search_loop, Option.some.injEq, Prod.mk.injEq] at hloop
        obtain ⟨rfl, -⟩ := hloop
        rw [hr2] at hr1
        injection hr1 with hr1
        subst hr1
        exact hc2 ht
      | succ n =>
        exact hc1 (Nat.succ_pos n) (by rw [is_terminal_congr r2 r hs2]; exact ht)

/-- C4: from a fresh root (visits 0, no children, no parent, player 1 or -1,
3x3 state), for every number `n` of iterations and every stream of draws,
`search(n)` terminates (any fuel of at least 10 is enough for its inner loops)
and leaves `root.visits = n`. -/
theorem search_root_visits (rng : Nat → Nat) (root : Node) (hv : root.visits = 0)
    (hc : root.children = []) (hpar : root.parent = none)
    (hp : root.player = 1 ∨ root.player = -1) (h3 : is3x3 root.state) (n fuel pos : Nat)
    (hfuel : 10 ≤ fuel) :
    ∃ (h1 : Heap) (res : Option Nat) (r1 : Node),
      search rng fuel 0 n [root] pos = some (h1, res) ∧ h1[0]? = some r1 ∧ r1.visits = n := by
  obtain ⟨h1, pos1, r1, hloop, hinv1, hr1, hv1, -⟩ :=
    search_loop_spec rng fuel hfuel n [root] (TreeInv_fresh root hv hc hpar hp h3) pos root rfl
  obtain ⟨res, hres⟩ := best_child_valid h1 hinv1 0 r1 hr1
  refine ⟨h1, res, r1, ?_, hr1, by rw [hv1, hv]; simp⟩
  simp only [search, hloop, hres]

theorem search_root_visits_witness :
    ∃ (h1 : Heap) (res : Option Nat) (r1 : Node),
      search (fun k => k) 10 0 10000 [freshRoot emptyBoard AI_PLAYER] 0 = some (h1, res) ∧
      h1[0]? = some r1 ∧ r1.visits = 10000 := by
  have h := search_root_visits (fun k => k) (freshRoot emptyBoard AI_PLAYER) rfl rfl rfl
    (Or.inr rfl) (by decide) 10000 10 0 (le_refl _)
  exact_mod_cast h

theorem TreeInv.child_state {h : Heap} (hinv : TreeInv h) (k : Nat) (n : Node)
    (hn : h[k]? = some n) (c : Nat) (hc : c ∈ n.children) :
    ∃ cn mv, h[c]? = some cn ∧ mv ∈ get_legal_moves n.state ∧ cn.player = -n.player ∧
      cn.state = setCell n.state mv.1 mv.2 n.player := by
  have hne : n.children ≠ [] := List.ne_nil_of_mem hc
  obtain ⟨hlen, hall⟩ := hinv.children_ok k n hn hne
  obtain ⟨i, hi, hget⟩ := List.getElem_of_mem hc
  have hi2 : i < (get_legal_moves n.state).length := hlen ▸ hi
  obtain ⟨c1, cn, hc1, -, hcn, -, hpl, hst⟩ := hall i hi2
  rw [List.getElem?_eq_getElem hi, hget] at hc1
  injection hc1 with hc1
  subst hc1
  exact ⟨cn, _, hcn, List.get_mem _ i hi2, hpl, hst⟩

/-- C5: from a fresh root with a 3x3 state without winner and with an empty
cell, for every `n ≥ 1` and every stream of draws, `search(n)` terminates and
returns one of the children of the root, whose state is a single-ply successor
of the root state: one cell `mv`, empty in the root state, now holds the
player of the root, and every other cell is unchanged. -/
theorem search_returns_successor (rng : Nat → Nat) (root : Node) (hv : root.visits = 0)
    (hc : root.children = []) (hpar : root.parent = none)
    (hp : root.player = 1 ∨ root.player = -1) (h3 : is3x3 root.state)
    (hw : get_winner root.state = 0) (hlm : get_legal_moves root.state ≠ []) (n fuel pos : Nat)
    (hn : 1 ≤ n) (hfuel : 10 ≤ fuel) :
    ∃ (h1 : Heap) (c : Nat) (r1 cn : Node) (mv : Nat × Nat),
      search rng fuel 0 n [root] pos = some (h1, some c) ∧ h1[0]? = some r1 ∧
      r1.state = root.state ∧ c ∈ r1.children ∧ h1[c]? = some cn ∧ is3x3 cn.state ∧
      mv.1 < 3 ∧ mv.2 < 3 ∧ cell root.state mv.1 mv.2 = 0 ∧
      cell cn.state mv.1 mv.2 = root.player ∧
      ∀ a b, (a, b) ≠ mv → cell cn.state a b = cell root.state a b := by
  have hnt : root.is_terminal = false := by
    simp [Node.is_terminal, hw, hlm]
  obtain ⟨h1, pos1, r1, hloop, hinv1, hr1, -, hs1, hp1, hc1⟩ :=
    search_loop_spec rng fuel hfuel n [root] (TreeInv_fresh root hv hc hpar hp h3) pos root rfl
  obtain ⟨c, hcmem, hbest⟩ := hinv1.best_child_of_children 0 r1 hr1 (hc1 (by omega) hnt)
  obtain ⟨cn, mv, hcn, hmv, -, hst⟩ := hinv1.child_state 0 r1 hr1 c hcmem
  rw [hs1, hp1] at hst
  rw [hs1] at hmv
  obtain ⟨ha, hb, hz⟩ := (mem_get_legal_moves root.state mv).1 hmv
  refine ⟨h1, c, r1, cn, mv, ?_, hr1, hs1, hcmem, hcn, (hinv1.node_ok c cn hcn).1, ha, hb, hz,
    ?_, fun a b hab => ?_⟩
  · simp only [search, hloop, hbest]
  · rw [hst, cell_setCell_3x3 _ h3 _ _ _ _ _ ha hb]
    simp
  · rw [hst, cell_setCell_3x3 _ h3 _ _ _ _ _ ha hb, if_neg hab]

theorem search_returns_successor_witness :
    ∃ (h1 : Heap) (c : Nat) (cn : Node) (mv : Nat × Nat),
      search (fun k => k) 10 0 10000 [freshRoot emptyBoard AI_PLAYER] 0 = some (h1, some c) ∧
      h1[c]? = some cn ∧ cell cn.state mv.1 mv.2 = AI_PLAYER ∧
      ∀ a b, (a, b) ≠ mv → cell cn.state a b = 0 := by
  obtain ⟨h1, c, r1, cn, mv, hs, -, -, -, hcn, -, -, -, -, hcell, hrest⟩ :=
    search_returns_successor (fun k => k) (freshRoot emptyBoard AI_PLAYER) rfl rfl rfl
      (Or.inr rfl) (by decide) (by decide) (by decide) 10000 10 0 (by decide) (le_refl _)
  refine ⟨h1, c, cn, mv, hs, hcn, hcell, fun a b hab => ?_⟩
  rw [hrest a b hab]
  simp only [freshRoot, cell, emptyBoard]
  rcases a with _ | _ | _ | a <;> rcases b with _ | _ | _ | b <;> simp [List.getD]

/-! ## The order of the scan in `get_winner` (C15) -/

theorem lineMark_three (b : Board) (p q r : Nat × Nat) :
    lineMark b [p, q, r] =
      if cell b p.1 p.2 = cell b q.1 q.2 ∧ cell b q.1 q.2 = cell b r.1 r.2 ∧ cell b p.1 p.2 ≠ 0
      then some (cell b p.1 p.2) else none := by
  simp only [lineMark, List.mem_cons, List.mem_singleton, List.not_mem_nil, or_false,
    forall_eq_or_imp, forall_eq]
  by_cases h : cell b p.1 p.2 = cell b q.1 q.2 ∧ cell b q.1 q.2 = cell b r.1 r.2 ∧
      cell b p.1 p.2 ≠ 0
  · rw [if_pos h, if_pos ⟨h.2.2, h.1.symm, by rw [h.1, h.2.1]⟩]
  · rw [if_neg h, if_neg]
    rintro ⟨h1, h2, h3⟩
    exact h ⟨h2.symm, by rw [h2, h3], h1⟩

theorem winner_reference_unfold (b : Board) :
    winner_reference b =
      if cell b 0 0 = cell b 0 1 ∧ cell b 0 1 = cell b 0 2 ∧ cell b 0 0 ≠ 0 then cell b 0 0
      else if cell b 1 0 = cell b 1 1 ∧ cell b 1 1 = cell b 1 2 ∧ cell b 1 0 ≠ 0 then cell b 1 0
      else if cell b 2 0 = cell b 2 1 ∧ cell b 2 1 = cell b 2 2 ∧ cell b 2 0 ≠ 0 then cell b 2 0
      else if cell b 0 0 = cell b 1 0 ∧ cell b 1 0 = cell b 2 0 ∧ cell b 0 0 ≠ 0 then cell b 0 0
      else if cell b 0 1 = cell b 1 1 ∧ cell b 1 1 = cell b 2 1 ∧ cell b 0 1 ≠ 0 then cell b 0 1
      else if cell b 0 2 = cell b 1 2 ∧ cell b 1 2 = cell b 2 2 ∧ cell b 0 2 ≠ 0 then cell b 0 2
      else if cell b 0 0 = cell b 1 1 ∧ cell b 1 1 = cell b 2 2 ∧ cell b 0 0 ≠ 0 then cell b 0 0
      else if cell b 0 2 = cell b 1 1 ∧ cell b 1 1 = cell b 2 0 ∧ cell b 0 2 ≠ 0 then cell b 0 2
      else 0 := by
  simp only [winner_reference, lines, List.findSome?, lineMark_three]
  by_cases h0 : cell b 0 0 = cell b 0 1 ∧ cell b 0 1 = cell b 0 2 ∧ cell b 0 0 ≠ 0
  · simp only [if_pos h0]
  simp only [if_neg h0]
  by_cases h1 : cell b 1 0 = cell b 1 1 ∧ cell b 1 1 = cell b 1 2 ∧ cell b 1 0 ≠ 0
  · simp only [if_pos h1]
  simp only [if_neg h1]
  by_cases h2 : cell b 2 0 = cell b 2 1 ∧ cell b 2 1 = cell b 2 2 ∧ cell b 2 0 ≠ 0
  · simp only [if_pos h2]
  simp only [if_neg h2]
  by_cases h3 : cell b 0 0 = cell b 1 0 ∧ cell b 1 0 = cell b 2 0 ∧ cell b 0 0 ≠ 0
  · simp only [if_pos h3]
  simp only [if_neg h3]
  by_cases h4 : cell b 0 1 = cell b 1 1 ∧ cell b 1 1 = cell b 2 1 ∧ cell b 0 1 ≠ 0
  · simp only [if_pos h4]
  simp only [if_neg h4]
  by_cases h5 : cell b 0 2 = cell b 1 2 ∧ cell b 1 2 = cell b 2 2 ∧ cell b 0 2 ≠ 0
  · simp only [if_pos h5]
  simp only [if_neg h5]
  by_cases h6 : cell b 0 0 = cell b 1 1 ∧ cell b 1 1 = cell b 2 2 ∧ cell b 0 0 ≠ 0
  · simp only [if_pos h6]
  simp only [if_neg h6]
  by_cases h7 : cell b 0 2 = cell b 1 1 ∧ cell b 1 1 = cell b 2 0 ∧ cell b 0 2 ≠ 0
  · simp only [if_pos h7]
  simp only [if_neg h7]

/-- C15: `get_winner`, which tests row i and then column i for i = 0, 1, 2
before the diagonals, returns the same value as the reference scan that tests
the rows, then the columns, then the diagonals. Holds for every board, in
particular for every 3x3 board with cells in {0, 1, -1}. -/
theorem get_winner_eq_reference (b : Board) : get_winner b = winner_reference b := by
  rw [get_winner_unfold, winner_reference_unfold]
  generalize cell b 0 0 = a00
  generalize cell b 0 1 = a01
  generalize cell b 0 2 = a02
  generalize cell b 1 0 = a10
  generalize cell b 1 1 = a11
  generalize cell b 1 2 = a12
  generalize cell b 2 0 = a20
  generalize cell b 2 1 = a21
  generalize cell b 2 2 = a22
  by_cases r0 : a00 = a01 ∧ a01 = a02 ∧ a00 ≠ 0
  · rw [if_pos r0, if_pos r0]
  · rw [if_neg r0, if_neg r0]
    by_cases c0 : a00 = a10 ∧ a10 = a20 ∧ a00 ≠ 0
    · rw [if_pos c0]
      by_cases r1 : a10 = a11 ∧ a11 = a12 ∧ a10 ≠ 0
      · rw [if_pos r1]; exact c0.1
      · rw [if_neg r1]
        by_cases r2 : a20 = a21 ∧ a21 = a22 ∧ a20 ≠ 0
        · rw [if_pos r2, c0.1, c0.2.1]
        · rw [if_neg r2, if_pos c0]
    · rw [if_neg c0]
      by_cases r1 : a10 = a11 ∧ a11 = a12 ∧ a10 ≠ 0
      · rw [if_pos r1, if_pos r1]
      · rw [if_neg r1, if_neg r1]
        by_cases c1 : a01 = a11 ∧ a11 = a21 ∧ a01 ≠ 0
        · rw [if_pos c1]
          by_cases r2 : a20 = a21 ∧ a21 = a22 ∧ a20 ≠ 0
          · rw [if_pos r2, c1.1, c1.2.1, r2.1]
          · rw [if_neg r2, if_neg c0, if_pos c1]
        · rw [if_neg c1, if_neg c0, if_neg c1]

/-! ## Expansion of a node that already has children (C12) -/

theorem rollout_spec (rng : Nat → Nat) (fuel : Nat) (state : Board) (player : Int) (pos : Nat)
    (h3 : is3x3 state) (hp : player ≠ 0) (hfuel : emptyCount state < fuel) :
    ∃ (bs : List Board) (final : Board), rollout_boards rng fuel state player pos = some bs ∧
      bs.head? = some state ∧ bs.getLast? = some final ∧ bs.length ≤ emptyCount state + 1 ∧
      List.Chain' RolloutStep bs ∧
      simulate_loop rng fuel state player pos = some (get_winner final, pos + (bs.length - 1)) ∧
      (get_winner final = 0 → get_legal_moves final = []) := by
  induction fuel generalizing state player pos with
  | zero => exact absurd hfuel (Nat.not_lt_zero _)
  | succ fuel ih =>
    simp only [simulate_loop, rollout_boards]
    by_cases hw : get_winner state = 0
    · simp only [hw, if_true]
      by_cases hlm : get_legal_moves state = []
      · refine ⟨[state], state, by simp [hlm], rfl, rfl, by simp, List.chain'_singleton _,
          by simp [hlm, hw], fun _ => hlm⟩
      · obtain ⟨mv, hmv, hroll⟩ := rollout_move_mem state (rng pos) hlm
        have hec := emptyCount_setCell state h3 mv hmv player hp
        obtain ⟨bs, final, hbs, hhead, hlast, hlen, hchain, hsim, hfin⟩ :=
          ih (setCell state mv.1 mv.2 player) (-player) (pos + 1) (is3x3_setCell state h3 _ _ _)
            (neg_ne_zero.2 hp) (by omega)
        simp only [isEmpty_eq_false_of_ne_nil _ hlm, Bool.false_eq_true, if_false, hroll, hbs,
          hsim, Option.map_some']
        have hz := ((mem_get_legal_moves state mv).1 hmv).2.2
        cases bs with
        | nil => simp at hhead
        | cons b0 bt =>
          simp only [List.head?_cons, Option.some.injEq] at hhead
          subst hhead
          refine ⟨_, final, rfl, rfl, ?_, ?_, ?_, ?_, hfin⟩
          · rw [List.getLast?_cons_cons]
            exact hlast
          · simp only [List.length_cons] at hlen ⊢
            omega
          · exact List.Chain'.cons ⟨mv, player, hmv, hz, hp, rfl, by omega⟩ hchain
          · simp only [List.length_cons, Nat.add_sub_cancel, Option.some.injEq, Prod.mk.injEq,
              true_and]
            omega
    · refine ⟨[state], state, by simp [hw], rfl, rfl, by simp, List.chain'_singleton _,
        by simp [hw], fun h0 => absurd h0 hw⟩

/-- C18: for a node with a 3x3 state and a player in {1, -1}, and every stream
of draws, the rollout of `simulate` terminates with fuel `e + 1`, where `e ≤ 9`
is the number of empty cells of the state: the boards met by the loop start at
the state of the node, each move writes a non-zero mark into an empty cell and
strictly decreases the number of empty cells, there are at most `e` moves (one
draw each), the result is `get_winner` of the final board, and it is 0 only
when the final board is full. -/
theorem simulate_terminates (rng : Nat → Nat) (h : Heap) (node pos : Nat) (n : Node)
    (hn : h[node]? = some n) (h3 : is3x3 n.state) (hp : n.player = 1 ∨ n.player = -1)
    (fuel : Nat) (hfuel : emptyCount n.state < fuel) :
    emptyCount n.state ≤ 9 ∧
    ∃ (bs : List Board) (final : Board),
      rollout_boards rng fuel n.state n.player pos = some bs ∧
      bs.head? = some n.state ∧ bs.getLast? = some final ∧ List.Chain' RolloutStep bs ∧
      bs.length - 1 ≤ emptyCount n.state ∧
      simulate rng fuel h node pos = some (get_winner final, pos + (bs.length - 1)) ∧
      (get_winner final = 0 → get_legal_moves final = []) := by
  obtain ⟨bs, final, hbs, hhead, hlast, hlen, hchain, hsim, hfin⟩ :=
    rollout_spec rng fuel n.state n.player pos h3 (player_ne_zero _ hp) hfuel
  refine ⟨emptyCount_le _, bs, final, hbs, hhead, hlast, hchain, by omega, ?_, hfin⟩
  simp only [simulate, hn, hsim]

theorem simulate_terminates_witness :
    ∃ (bs : List Board) (final : Board),
      rollout_boards (fun _ => 0) 3 lateBoard 1 5 = some bs ∧ bs.getLast? = some final ∧
      bs.length - 1 ≤ 2 ∧
      simulate (fun _ => 0) 3 [freshRoot lateBoard 1] 0 5 =
        some (get_winner final, 5 + (bs.length - 1)) := by
  have h3 : is3x3 (freshRoot lateBoard 1).state := by decide
  have hf : emptyCount (freshRoot lateBoard 1).state < 3 := by decide
  have he : emptyCount (freshRoot lateBoard 1).state = 2 := by decide
  obtain ⟨-, bs, final, hbs, -, hlast, -, hlen, hsim, -⟩ :=
    simulate_terminates (fun _ => 0) [freshRoot lateBoard 1] 0 5 (freshRoot lateBoard 1) rfl
      h3 (Or.inl rfl) 3 hf
  exact ⟨bs, final, hbs, hlast, he ▸ hlen, hsim⟩

/-! ## Classification of states (C14) -/

/-- C14 (counterexample): in the first iteration of a search from the empty
board with the draws `sampleDraws`, `select` returns the child 1 of the root
and the rollout from it ends on `fullWonBoard`, a full board with a winner:
conditions (2) and (3) both hold there, so not exactly one of the three. -/
theorem full_won_board_occurs :
    (select sampleDraws 10 [freshRoot emptyBoard AI_PLAYER] 0 0).map
      (fun res => (res.2.1, res.2.2, (res.1[res.2.1]?).map (fun nn => (nn.state, nn.player)))) =
      some (1, 1, some ([[-1, 0, 0], [0, 0, 0], [0, 0, 0]], 1)) ∧
    (rollout_boards sampleDraws 10 [[-1, 0, 0], [0, 0, 0], [0, 0, 0]] 1 1).map
      (fun bs => bs.getLast?) = some (some fullWonBoard) ∧
    get_winner fullWonBoard ≠ 0 ∧ get_legal_moves fullWonBoard = [] ∧
    stateClasses fullWonBoard = 2 := by
  refine ⟨by rfl, by rfl, by decide, by decide, by decide⟩

/-- C14 (as the code behaves): for every board, hence for every state of a
node or of a rollout, at least one of the three conditions holds, at most two
do, condition (1) holds exactly when neither (2) nor (3) does, which is when
`is_terminal` is false, and (2) and (3) hold together exactly on a board with a
winner and no empty cell. -/
theorem state_classification (b : Board) :
    1 ≤ stateClasses b ∧ stateClasses b ≤ 2 ∧
    ((get_winner b = 0 ∧ get_legal_moves b ≠ []) ↔
      ¬ (get_winner b ≠ 0) ∧ ¬ (get_legal_moves b = [])) ∧
    (stateClasses b = 2 ↔ get_winner b ≠ 0 ∧ get_legal_moves b = []) ∧
    (∀ n : Node, n.state = b →
      (n.is_terminal = false ↔ get_winner b = 0 ∧ get_legal_moves b ≠ [])) := by
  unfold stateClasses
  refine ⟨?_, ?_, ?_, ?_, fun n hn => ?_⟩
  · by_cases hw : get_winner b = 0 <;> by_cases hl : get_legal_moves b = [] <;> simp [hw, hl]
  · by_cases hw : get_winner b = 0 <;> by_cases hl : get_legal_moves b = [] <;> simp [hw, hl]
  · by_cases hw : get_winner b = 0 <;> by_cases hl : get_legal_moves b = [] <;> simp [hw, hl]
  · by_cases hw : get_winner b = 0 <;> by_cases hl : get_legal_moves b = [] <;> simp [hw, hl]
  · subst hn
    simp [Node.is_terminal]

/-! ## The descent of `select` (C17) -/

/-- The descent of `select` from a node `k` of a well-formed tree: it follows
`best_child` links, takes at most `emptyCount` of them, and stops either at a
terminal node, which it returns, or at a non-terminal node without children,
which it expands to return one of the new children. -/
theorem select_loop_cases (rng : Nat → Nat) (fuel : Nat) (h : Heap) (hinv : TreeInv h)
    (pos k : Nat) (n : Node) (hn : h[k]? = some n) (hfuel : emptyCount n.state < fuel) :
    ∃ (path : List Nat) (last : Nat) (ln : Node) (hs : Heap) (node ps : Nat),
      select_path rng fuel h pos k = some path ∧
      select_loop rng fuel h pos k = some (hs, node, ps) ∧
      path.head? = some k ∧ path.getLast? = some last ∧
      path.length ≤ emptyCount n.state + 1 ∧
      List.Chain' (fun a b => best_child h a = some (some b)) path ∧
      h[last]? = some ln ∧
      ((ln.is_terminal = true ∧ hs = h ∧ node = last ∧ ps = pos) ∨
       (ln.is_terminal = false ∧ ln.children = [] ∧ hs = expandHeap h last ln ∧
        node = h.length + dist 0 ((get_legal_moves ln.state).length - 1) (rng pos) ∧
        ps = pos + 1 ∧ expand h last (rng pos) = some (hs, node))) := by
  induction fuel generalizing k n with
  | zero => exact absurd hfuel (Nat.not_lt_zero _)
  | succ fuel ih =>
    simp only [select_loop, select_path, hn]
    by_cases ht : n.is_terminal = true
    · simp only [ht, if_true]
      exact ⟨[k], k, n, h, k, pos, rfl, rfl, rfl, rfl, by simp, List.chain'_singleton _, hn,
        Or.inl ⟨ht, rfl, rfl, rfl⟩⟩
    · have ht' : n.is_terminal = false := by simpa using ht
      obtain ⟨hw, hlm⟩ := not_terminal n ht'
      simp only [ht', Bool.false_eq_true, if_false]
      by_cases hfe : n.is_fully_expanded = true
      · have hlen : n.children.length = (get_legal_moves n.state).length := by
          simpa [Node.is_fully_expanded] using hfe
        have hne : n.children ≠ [] := by
          intro hnil
          rw [hnil] at hlen
          exact hlm (List.length_eq_zero.1 hlen.symm)
        obtain ⟨c, hc, hbest⟩ := hinv.best_child_of_children k n hn hne
        obtain ⟨cn, hcn, -, -, hec⟩ := hinv.child_valid k n hn c hc
        simp only [hfe, Bool.not_true, Bool.false_eq_true, if_false, hbest]
        obtain ⟨path, last, ln, hs, node, ps, hpath, hsel, hhead, hlast, hlen2, hchain, hln,
          hcases⟩ := ih c cn hcn (by omega)
        cases path with
        | nil => simp at hhead
        | cons p0 pt =>
          simp only [List.head?_cons, Option.some.injEq] at hhead
          subst hhead
          refine ⟨k :: p0 :: pt, last, ln, hs, node, ps, by rw [hpath]; rfl, hsel, rfl, ?_, ?_,
            List.Chain'.cons hbest hchain, hln, hcases⟩
          · rw [List.getLast?_cons_cons]
            exact hlast
          · simp only [List.length_cons] at hlen2 ⊢
            omega
      · have hfe' : n.is_fully_expanded = false := by simpa using hfe
        have hnil : n.children = [] := by
          by_contra hne
          have hlen := (hinv.children_ok k n hn hne).1
          simp [Node.is_fully_expanded, hlen] at hfe'
        have hexp := expand_eq h k n (rng pos) hn hnil hlm
        simp only [hfe', Bool.not_false, if_true, hexp]
        exact ⟨[k], k, n, _, _, _, rfl, rfl, rfl, rfl, by simp, List.chain'_singleton _, hn,
          Or.inr ⟨ht', hnil, rfl, rfl, rfl, hexp⟩⟩

/-! ## Shape and counters of the tree of `search` (C13, C16, C19, C20) -/

theorem get_singleton (root : Node) (k : Nat) (n : Node) (hk : [root][k]? = some n) :
    k = 0 ∧ n = root := by
  cases k with
  | zero => simpa using hk.symm
  | succ k => simp at hk

theorem ShapeInv_fresh (root : Node) (hv : root.visits = 0) (hc : root.children = [])
    (hpar : root.parent = none) (hp : root.player = 1 ∨ root.player = -1)
    (h3 : is3x3 root.state) : ShapeInv [root] := by
  refine ⟨TreeInv_fresh root hv hc hpar hp h3, fun k n hk _ => ?_, fun k n hk => ?_,
    fun k n p hk hpk => ?_⟩
  · obtain ⟨-, rfl⟩ := get_singleton root k n hk
    exact hc
  · obtain ⟨-, rfl⟩ := get_singleton root k n hk
    rw [hc]
    exact List.nodup_nil
  · obtain ⟨-, rfl⟩ := get_singleton root k n hk
    rw [hpar] at hpk
    cases hpk

theorem CountInv_fresh (root : Node) (hv : root.visits = 0) (hw : root.wins = 0)
    (hc : root.children = []) : CountInv [root] (fun _ => 0) := by
  refine ⟨fun k n hk => ?_, fun k n hk => ?_, fun _ _ => rfl, fun _ _ _ _ => ⟨Nat.zero_le _,
    fun _ => rfl⟩⟩
  · obtain ⟨-, rfl⟩ := get_singleton root k n hk
    rw [hv, hw]
    exact ⟨le_refl _, le_refl _⟩
  · obtain ⟨-, rfl⟩ := get_singleton root k n hk
    simp [childVisits, hc, hv]

theorem childVisits_congr (h h1 : Heap) (n n1 : Node) (hch : n1.children = n.children)
    (hv : ∀ c ∈ n.children, visitsAt h1 c = visitsAt h c) :
    childVisits h1 n1 = childVisits h n := by
  unfold childVisits
  rw [hch]
  exact congrArg List.sum (List.map_congr_left hv)

theorem visitsAt_of_get (h : Heap) (c : Nat) (cn : Node) (hc : h[c]? = some cn) :
    visitsAt h c = cn.visits := by
  simp only [visitsAt, hc]

theorem visitsAt_expand_old (h : Heap) (k : Nat) (n : Node) (hn : h[k]? = some n) (c : Nat)
    (cn : Node) (hc : h[c]? = some cn) : visitsAt (expandHeap h k n) c = visitsAt h c := by
  obtain ⟨cn1, hcn1, -, -, -, hv, -⟩ := expandHeap_keep h k n hn c cn hc
  rw [visitsAt_of_get _ c cn1 hcn1, visitsAt_of_get _ c cn hc, hv]

theorem ShapeInv_expand (h : Heap) (hs : ShapeInv h) (k : Nat) (n : Node) (hn : h[k]? = some n)
    (hc : n.children = []) (ht : n.is_terminal = false) : ShapeInv (expandHeap h k n) := by
  have hklt : k < h.length := (List.getElem?_eq_some_iff.1 hn).1
  have hlisted : ∀ (j : Nat) (nj : Node) (p : Nat), h[j]? = some nj → nj.parent = some p →
      ∃ pn, (expandHeap h k n)[p]? = some pn ∧ j ∈ pn.children := by
    intro j nj p hj hp
    obtain ⟨pn, hpn, hmem⟩ := hs.listed j nj p hj hp
    have hpk : p ≠ k := by
      rintro rfl
      rw [hn] at hpn
      injection hpn with hpn
      subst hpn
      rw [hc] at hmem
      exact absurd hmem (List.not_mem_nil j)
    exact ⟨pn, by rw [expandHeap_old h k n p (List.getElem?_eq_some_iff.1 hpn).1 hpk]; exact hpn,
      hmem⟩
  refine ⟨TreeInv_expand h hs.tree k n hn hc, fun j nj hj htj => ?_, fun j nj hj => ?_,
    fun j nj p hj hp => ?_⟩
  · rcases expandHeap_cases h k n hn j nj hj with ⟨-, hold⟩ | ⟨-, rfl⟩ | ⟨i, hi, -, rfl⟩
    · exact hs.terminal_leaf j nj hold htj
    · have : n.is_terminal = true := htj
      rw [ht] at this
      cases this
    · rfl
  · rcases expandHeap_cases h k n hn j nj hj with ⟨-, hold⟩ | ⟨-, rfl⟩ | ⟨i, hi, -, rfl⟩
    · exact hs.children_nodup j nj hold
    · simp only [hc, List.nil_append]
      exact List.nodup_range' _ _
    · exact List.nodup_nil
  · rcases expandHeap_cases h k n hn j nj hj with ⟨-, hold⟩ | ⟨rfl, rfl⟩ | ⟨i, hi, rfl, rfl⟩
    · exact hlisted j nj p hold hp
    · exact hlisted j n p hn hp
    · simp only [childNode, Option.some.injEq] at hp
      subst hp
      refine ⟨_, expandHeap_node h k n hn, ?_⟩
      simp only [hc, List.nil_append, List.mem_range'_1]
      omega

theorem childVisits_expand_new (h : Heap) (k : Nat) (n : Node) :
    ((List.range' h.length (get_legal_moves n.state).length).map
      (visitsAt (expandHeap h k n))).sum = 0 := by
  apply List.sum_eq_zero
  intro x hx
  obtain ⟨c, hc, rfl⟩ := List.mem_map.1 hx
  obtain ⟨hlo, hhi⟩ := List.mem_range'_1.1 hc
  have hi : c - h.length < (get_legal_moves n.state).length := by omega
  have hce : c = h.length + (c - h.length) := by omega
  rw [hce, visitsAt_of_get _ _ _ (expandHeap_new h k n _ hi)]
  rfl

theorem CountInv_expand (h : Heap) (hs : ShapeInv h) (cnt : Nat → Nat) (hci : CountInv h cnt)
    (k : Nat) (n : Node) (hn : h[k]? = some n) (hc : n.children = []) :
    CountInv (expandHeap h k n) cnt := by
  have hnone : ∀ j : Nat, h.length ≤ j → cnt j = 0 :=
    fun j hj => hci.cnt_alloc j (List.getElem?_eq_none hj)
  refine ⟨fun j nj hj => ?_, fun j nj hj => ?_, fun j hj => ?_, fun j nj hj htj => ?_⟩
  · rcases expandHeap_cases h k n hn j nj hj with ⟨-, hold⟩ | ⟨-, rfl⟩ | ⟨i, hi, -, rfl⟩
    · exact hci.wins_ok j nj hold
    · exact hci.wins_ok k n hn
    · exact ⟨le_refl _, le_refl _⟩
  · rcases expandHeap_cases h k n hn j nj hj with ⟨-, hold⟩ | ⟨rfl, rfl⟩ | ⟨i, hi, rfl, rfl⟩
    · rw [hci.visits_eq j nj hold]
      congr 1
      refine (childVisits_congr h _ nj nj rfl (fun c hcm => ?_)).symm
      obtain ⟨cn, hcn, -⟩ := hs.tree.child_valid j nj hold c hcm
      exact visitsAt_expand_old h k n hn c cn hcn
    · have h0 := hci.visits_eq j n hn
      simp only [childVisits, hc, List.map_nil, List.sum_nil, add_zero] at h0
      simp only [childVisits, hc, List.nil_append, childVisits_expand_new h j n, add_zero]
      exact h0
    · rw [hnone _ (Nat.le_add_right _ _)]
      simp [childVisits, childNode]
  · apply hci.cnt_alloc
    have hlen : (expandHeap h k n).length ≤ j := by
      by_contra hlt
      rw [List.getElem?_eq_getElem (not_le.1 hlt)] at hj
      cases hj
    rw [expandHeap_length] at hlen
    exact List.getElem?_eq_none (by omega)
  · rcases expandHeap_cases h k n hn j nj hj with ⟨-, hold⟩ | ⟨rfl, rfl⟩ | ⟨i, hi, rfl, rfl⟩
    · exact hci.cnt_nonterminal j nj hold htj
    · exact hci.cnt_nonterminal j n hn htj
    · rw [hnone _ (Nat.le_add_right _ _)]
      exact ⟨Nat.zero_le _, fun _ => rfl⟩

theorem ShapeInv_congr (h h1 : Heap) (hs : ShapeInv h)
    (hsame : ∀ (j : Nat) (n1 : Node), h1[j]? = some n1 → ∃ n, h[j]? = some n ∧
      n1.state = n.state ∧ n1.player = n.player ∧ n1.parent = n.parent ∧
      n1.children = n.children ∧ 0 ≤ n1.visits)
    (hlen : h1.length = h.length) : ShapeInv h1 := by
  have hback : ∀ (j : Nat) (n : Node), h[j]? = some n → ∃ n1, h1[j]? = some n1 ∧
      n1.children = n.children := by
    intro j n hj
    have hlt : j < h1.length := by rw [hlen]; exact (List.getElem?_eq_some_iff.1 hj).1
    obtain ⟨n', hn', -, -, -, h4', -⟩ := hsame j _ (List.getElem?_eq_getElem hlt)
    rw [hj] at hn'
    injection hn' with hn'
    subst hn'
    exact ⟨_, List.getElem?_eq_getElem hlt, h4'⟩
  refine ⟨TreeInv_congr h h1 hs.tree hsame hlen, fun j n1 hj ht => ?_, fun j n1 hj => ?_,
    fun j n1 p hj hp => ?_⟩
  · obtain ⟨n, hn, hst, -, -, hch, -⟩ := hsame j n1 hj
    rw [hch]
    exact hs.terminal_leaf j n hn (by rw [← is_terminal_congr n1 n hst]; exact ht)
  · obtain ⟨n, hn, -, -, -, hch, -⟩ := hsame j n1 hj
    rw [hch]
    exact hs.children_nodup j n hn
  · obtain ⟨n, hn, -, -, hpar, -, -⟩ := hsame j n1 hj
    obtain ⟨pn, hpn, hmem⟩ := hs.listed j n p hn (hpar ▸ hp)
    obtain ⟨pn1, hpn1, hch⟩ := hback p pn hpn
    exact ⟨pn1, hpn1, by rw [hch]; exact hmem⟩

theorem get_set_bump (h : Heap) (x : Nat) (n : Node) (r : Int) (hx : h[x]? = some n) (j : Nat)
    (nj : Node) (hj : (h.set x (bump r n))[j]? = some nj) :
    (j = x ∧ nj = bump r n) ∨ (j ≠ x ∧ h[j]? = some nj) := by
  have hxlt : x < h.length := (List.getElem?_eq_some_iff.1 hx).1
  by_cases hjx : j = x
  · subst hjx
    rw [List.getElem?_set_self hxlt] at hj
    injection hj with hj
    exact Or.inl ⟨rfl, hj.symm⟩
  · rw [List.getElem?_set_ne (Ne.symm hjx)] at hj
    exact Or.inr ⟨hjx, hj⟩

theorem ShapeInv_set_bump (h : Heap) (hs : ShapeInv h) (x : Nat) (n : Node) (r : Int)
    (hx : h[x]? = some n) : ShapeInv (h.set x (bump r n)) := by
  refine ShapeInv_congr h _ hs (fun j nj hj => ?_) (List.length_set _ _ _)
  rcases get_set_bump h x n r hx j nj hj with ⟨rfl, rfl⟩ | ⟨-, hold⟩
  · have hv := (hs.tree.node_ok j n hx).2.2
    exact ⟨n, hx, rfl, rfl, rfl, rfl, by show 0 ≤ n.visits + 1; omega⟩
  · exact ⟨nj, hold, rfl, rfl, rfl, rfl, (hs.tree.node_ok j nj hold).2.2⟩

theorem visitsAt_set_bump (h : Heap) (x : Nat) (n : Node) (r : Int) (hx : h[x]? = some n)
    (c : Nat) : visitsAt (h.set x (bump r n)) c = visitsAt h c + if c = x then 1 else 0 := by
  have hxlt : x < h.length := (List.getElem?_eq_some_iff.1 hx).1
  by_cases hcx : c = x
  · subst hcx
    simp [visitsAt, List.getElem?_set, hxlt, hx, bump]
  · simp [visitsAt, List.getElem?_set, Ne.symm hcx, hcx]

theorem sum_visitsAt_set_bump (h : Heap) (x : Nat) (n : Node) (r : Int) (hx : h[x]? = some n)
    (cs : List Nat) (hnd : cs.Nodup) :
    (cs.map (visitsAt (h.set x (bump r n)))).sum =
      (cs.map (visitsAt h)).sum + if x ∈ cs then 1 else 0 := by
  induction cs with
  | nil => simp
  | cons c cs ih =>
    obtain ⟨hc, hnd'⟩ := List.nodup_cons.1 hnd
    simp only [List.map_cons, List.sum_cons, ih hnd', visitsAt_set_bump h x n r hx c,
      List.mem_cons]
    by_cases hcx : c = x
    · subst hcx
      simp only [eq_self_iff_true, true_or, if_true, hc, if_false, add_zero]
      ring
    · simp only [hcx, Ne.symm hcx, if_false, false_or, add_zero]
      ring

theorem TreeInv.not_own_child {h : Heap} (hinv : TreeInv h) (k : Nat) (n : Node)
    (hn : h[k]? = some n) : k ∉ n.children := by
  intro hmem
  obtain ⟨cn, hcn, -, -, hec⟩ := hinv.child_valid k n hn k hmem
  rw [hn] at hcn
  injection hcn with hcn
  subst hcn
  exact absurd hec (Nat.lt_irrefl _)

theorem TreeInv.not_own_parent {h : Heap} (hinv : TreeInv h) (k : Nat) (n : Node)
    (hn : h[k]? = some n) : n.parent ≠ some k := by
  intro hpar
  by_cases hk : k = 0
  · subst hk
    obtain ⟨r, hr, hrp⟩ := hinv.root_parent
    rw [hn] at hr
    injection hr with hr
    subst hr
    rw [hrp] at hpar
    cases hpar
  · obtain ⟨p, pn, hp, hlt, -⟩ := hinv.parent_ok k n hn hk
    rw [hp] at hpar
    injection hpar with hpar
    omega

theorem ShapeInv.child_iff_parent {h : Heap} (hs : ShapeInv h) (x j : Nat) (n nj : Node)
    (hx : h[x]? = some n) (hj : h[j]? = some nj) : x ∈ nj.children ↔ n.parent = some j := by
  constructor
  · intro hmem
    obtain ⟨cn, hcn, hpar, -⟩ := hs.tree.child_valid j nj hj x hmem
    rw [hx] at hcn
    injection hcn with hcn
    subst hcn
    exact hpar
  · intro hpar
    obtain ⟨pn, hpn, hmem⟩ := hs.listed x n j hx hpar
    rw [hj] at hpn
    injection hpn with hpn
    subst hpn
    exact hmem

/-- Backpropagation restores the equation between visits and simulations: if
before the call the equation holds at every node except that the start node
lacks one visit, it holds everywhere after the call. -/
theorem backpropagate_counts (cnt : Nat → Nat) (r : Int) (f : Nat) (h : Heap) (p : Option Nat)
    (l : List Nat) (hl : parentChain f h p = some l) (fuel : Nat) (hfuel : l.length ≤ fuel)
    (hs : ShapeInv h)
    (hdef : ∀ (j : Nat) (nj : Node), h[j]? = some nj →
      nj.visits + (if p = some j then 1 else 0) = (cnt j : Int) + childVisits h nj) :
    ∃ h1, backpropagate fuel h p r = some h1 ∧
      ∀ (j : Nat) (nj : Node), h1[j]? = some nj →
        nj.visits = (cnt j : Int) + childVisits h1 nj := by
  induction f generalizing h p l fuel with
  | zero =>
    cases p with
    | none =>
      refine ⟨h, by cases fuel <;> rfl, fun j nj hj => ?_⟩
      simpa using hdef j nj hj
    | some k => simp [parentChain] at hl
  | succ f ih =>
    cases p with
    | none =>
      refine ⟨h, by cases fuel <;> rfl, fun j nj hj => ?_⟩
      simpa using hdef j nj hj
    | some x =>
      obtain ⟨f1, n, t, hf, hx, ht, rfl⟩ := parentChain_some _ h x l hl
      have hf1 : f1 = f := by omega
      subst hf1
      cases fuel with
      | zero => simp at hfuel
      | succ fuel =>
        rw [backpropagate_step fuel h x n r hx]
        have ht1 : parentChain f1 (h.set x (bump r n)) n.parent = some t := by
          rw [parentChain_congr f1 h _ _ (set_bump_parent h x n r hx)]
          exact ht
        refine ih _ _ _ ht1 fuel (by simpa using hfuel) (ShapeInv_set_bump h hs x n r hx)
          (fun j nj hj => ?_)
        rcases get_set_bump h x n r hx j nj hj with ⟨rfl, rfl⟩ | ⟨hjx, hold⟩
        · have h0 := hdef j n hx
          simp only [if_true] at h0
          have hsum := sum_visitsAt_set_bump h j n r hx n.children (hs.children_nodup j n hx)
          rw [if_neg (hs.tree.not_own_child j n hx), add_zero] at hsum
          rw [if_neg (hs.tree.not_own_parent j n hx), add_zero]
          show n.visits + 1 = (cnt j : Int) +
            ((bump r n).children.map (visitsAt (h.set j (bump r n)))).sum
          show n.visits + 1 = (cnt j : Int) +
            (n.children.map (visitsAt (h.set j (bump r n)))).sum
          rw [hsum]
          exact h0
        · have h0 := hdef j nj hold
          have hne : ¬ (some x = some j) := fun he => hjx (Option.some.inj he).symm
          rw [if_neg hne, add_zero] at h0
          have hsum := sum_visitsAt_set_bump h x n r hx nj.children (hs.children_nodup j nj hold)
          show nj.visits + _ = (cnt j : Int) + (nj.children.map (visitsAt (h.set x (bump r n)))).sum
          rw [hsum, h0]
          have hiff := hs.child_iff_parent x j n nj hx hold
          unfold childVisits
          by_cases hm : x ∈ nj.children
          · rw [if_pos hm, if_pos (hiff.1 hm)]
            ring
          · rw [if_neg hm, if_neg (fun hp => hm (hiff.2 hp))]
            ring

/-- What `select` from the root does to a tree that satisfies the invariants:
the invariants are kept with the same simulation counts, old nodes are kept,
the selected node is allocated, a selected non-terminal node is new and is not
the root, and every new node has no wins, no visits and no children. -/
theorem select_inv (rng : Nat → Nat) (fuel : Nat) (h : Heap) (hs : ShapeInv h)
    (cnt : Nat → Nat) (hci : CountInv h cnt) (pos : Nat) (r : Node) (hr : h[0]? = some r)
    (hfuel : emptyCount r.state < fuel) :
    ∃ (hsel : Heap) (node psel : Nat) (nn : Node),
      select rng fuel h 0 pos = some (hsel, node, psel) ∧ ShapeInv hsel ∧ CountInv hsel cnt ∧
      Extends h hsel ∧ hsel[node]? = some nn ∧
      (nn.is_terminal = false → h[node]? = none ∧ node ≠ 0) ∧
      (∀ (j : Nat) (nj : Node), hsel[j]? = some nj → h[j]? = none →
        nj.wins = 0 ∧ nj.visits = 0 ∧ nj.children = []) := by
  obtain ⟨path, last, ln, hsel, node, psel, -, hselect, -, -, -, -, hln, hcases⟩ :=
    select_loop_cases rng fuel h hs.tree pos 0 r hr hfuel
  rcases hcases with ⟨hterm, rfl, rfl, rfl⟩ | ⟨hnt, hnil, rfl, rfl, rfl, -⟩
  · refine ⟨hsel, node, psel, ln, hselect, hs, hci, Extends_refl _, hln,
      fun hf => ?_, fun j nj hj hnone => ?_⟩
    · rw [hterm] at hf
      cases hf
    · rw [hj] at hnone
      cases hnone
  · obtain ⟨-, hlm⟩ := not_terminal ln hnt
    have hk : 0 < (get_legal_moves ln.state).length := List.length_pos.2 hlm
    have hd := dist_zero_lt _ (rng pos) hk
    have hpos : 0 < h.length := (List.getElem?_eq_some_iff.1 hr).1
    refine ⟨_, _, _, _, hselect, ShapeInv_expand h hs last ln hln hnil hnt,
      CountInv_expand h hs cnt hci last ln hln hnil, Extends_expand h last ln hln hnil,
      expandHeap_new h last ln _ hd, fun _ => ⟨List.getElem?_eq_none (Nat.le_add_right _ _),
        by omega⟩, fun j nj hj hnone => ?_⟩
    rcases expandHeap_cases h last ln hln j nj hj with ⟨-, hold⟩ | ⟨rfl, -⟩ | ⟨i, hi, -, rfl⟩
    · rw [hold] at hnone
      cases hnone
    · rw [hln] at hnone
      cases hnone
    · exact ⟨rfl, rfl, rfl⟩

/-- What `backpropagate` from a selected node does to a tree that satisfies
the invariants: the invariants are kept, with one more simulation counted for
the selected node; no node is added; states are unchanged; wins are
unchanged when the result is 0. -/
theorem backpropagate_inv (fuel : Nat) (hfuel : 10 ≤ fuel) (h : Heap) (hs : ShapeInv h)
    (cnt : Nat → Nat) (hci : CountInv h cnt) (node : Nat) (nn : Node) (hn : h[node]? = some nn)
    (hfresh : nn.is_terminal = false → cnt node = 0 ∧ node ≠ 0) (res : Int) :
    ∃ h2, backpropagate fuel h (some node) res = some h2 ∧ ShapeInv h2 ∧
      CountInv h2 (fun j => cnt j + if j = node then 1 else 0) ∧ h2.length = h.length ∧
      ∀ (j : Nat) (n2 : Node), h2[j]? = some n2 → ∃ n1, h[j]? = some n1 ∧
        n2.state = n1.state ∧ (res = 0 → n2.wins = n1.wins) := by
  obtain ⟨l, hl, h0, hlen⟩ := hs.tree.chain node nn hn
  obtain ⟨h2, hback, hget⟩ := backpropagate_chain l.length h (some node) res l hl fuel
    (by omega)
  have hlen2 := length_eq_of_getElem?_map h h2 _ hget
  have hrel : ∀ (j : Nat) (n2 : Node), h2[j]? = some n2 → ∃ n1, h[j]? = some n1 ∧
      (n2 = bump res n1 ∨ n2 = n1) := by
    intro j n2 hj
    rw [hget j, Option.map_eq_some'] at hj
    obtain ⟨n1, hj1, hn2⟩ := hj
    refine ⟨n1, hj1, ?_⟩
    by_cases hm : j ∈ l
    · rw [if_pos hm] at hn2
      exact Or.inl hn2.symm
    · rw [if_neg hm] at hn2
      exact Or.inr hn2.symm
  have hshape : ShapeInv h2 := by
    refine ShapeInv_congr h h2 hs (fun j n2 hj => ?_) hlen2
    obtain ⟨n1, hj1, hor⟩ := hrel j n2 hj
    have hv := (hs.tree.node_ok j n1 hj1).2.2
    rcases hor with rfl | rfl
    · exact ⟨n1, hj1, rfl, rfl, rfl, rfl, by show 0 ≤ n1.visits + 1; omega⟩
    · exact ⟨n2, hj1, rfl, rfl, rfl, rfl, hv⟩
  obtain ⟨h2', hback', hvis⟩ := backpropagate_counts (fun j => cnt j + if j = node then 1 else 0)
    res l.length h (some node) l hl fuel (by omega) hs (fun j nj hj => by
      rw [hci.visits_eq j nj hj]
      by_cases hjn : j = node
      · subst hjn
        simp only [if_true, Nat.cast_add, Nat.cast_one]
        ring
      · have hne : ¬ (some node = some j) := fun he => hjn (Option.some.inj he).symm
        simp only [hjn, hne, if_false, add_zero])
  rw [hback] at hback'
  injection hback' with hback'
  subst hback'
  refine ⟨h2, hback, hshape, ⟨fun j n2 hj => ?_, hvis, fun j hj => ?_, fun j n2 hj hnt => ?_⟩,
    hlen2, fun j n2 hj => ?_⟩
  · obtain ⟨n1, hj1, hor⟩ := hrel j n2 hj
    obtain ⟨hw0, hwv⟩ := hci.wins_ok j n1 hj1
    rcases hor with rfl | rfl
    · simp only [bump]
      split_ifs <;> constructor <;> omega
    · exact ⟨hw0, hwv⟩
  · have hjlen : h.length ≤ j := by
      by_contra hlt
      rw [List.getElem?_eq_getElem (by rw [hlen2]; exact not_le.1 hlt)] at hj
      cases hj
    have hjn : j ≠ node := by
      rintro rfl
      have := (List.getElem?_eq_some_iff.1 hn).1
      omega
    simp only [hjn, if_false, add_zero]
    exact hci.cnt_alloc j (List.getElem?_eq_none hjlen)
  · obtain ⟨n1, hj1, hor⟩ := hrel j n2 hj
    have hst : n2.state = n1.state := by rcases hor with rfl | rfl <;> rfl
    have hnt1 : n1.is_terminal = false := by rw [← is_terminal_congr n2 n1 hst]; exact hnt
    obtain ⟨hle, hroot⟩ := hci.cnt_nonterminal j n1 hj1 hnt1
    by_cases hjn : j = node
    · subst hjn
      rw [hn] at hj1
      injection hj1 with hj1
      subst hj1
      obtain ⟨hc0, hne0⟩ := hfresh hnt1
      simp only [if_true, hc0]
      exact ⟨le_refl _, fun h0 => absurd h0 hne0⟩
    · simp only [hjn, if_false, add_zero]
      exact ⟨hle, hroot⟩
  · obtain ⟨n1, hj1, hor⟩ := hrel j n2 hj
    refine ⟨n1, hj1, by rcases hor with rfl | rfl <;> rfl, fun hres => ?_⟩
    rcases hor with rfl | rfl
    · subst hres
      have hp := player_ne_zero _ (hs.tree.node_ok j n1 hj1).2.1
      simp only [bump, hp, if_false]
    · rfl

/-- One iteration of `search` keeps the invariants and counts one more
simulation for the node returned by `select`. -/
theorem search_step_inv (rng : Nat → Nat) (fuel : Nat) (hfuel : 10 ≤ fuel) (h : Heap)
    (hs : ShapeInv h) (cnt : Nat → Nat) (hci : CountInv h cnt) (pos : Nat) :
    ∃ (h2 : Heap) (pos2 : Nat) (hsel : Heap) (node psel : Nat),
      search_step rng fuel 0 h pos = some (h2, pos2) ∧
      select rng fuel h 0 pos = some (hsel, node, psel) ∧ ShapeInv h2 ∧
      CountInv h2 (fun j => cnt j + if j = node then 1 else 0) := by
  obtain ⟨r, hr, -⟩ := hs.tree.root_parent
  have hec := emptyCount_le r.state
  obtain ⟨hsel, node, psel, nn, hselect, hs1, hci1, -, hnode, hfresh, -⟩ :=
    select_inv rng fuel h hs cnt hci pos r hr (by omega)
  obtain ⟨nn3, nnp, -⟩ := hs1.tree.node_ok node nn hnode
  have hec2 := emptyCount_le nn.state
  obtain ⟨res, hsim⟩ := simulate_loop_total rng fuel nn.state nn.player psel nn3
    (player_ne_zero _ nnp) (by omega)
  obtain ⟨h2, hback, hs2, hci2, -⟩ := backpropagate_inv fuel hfuel hsel hs1 cnt hci1 node nn hnode
    (fun hnt => ⟨hci.cnt_alloc node (hfresh hnt).1, (hfresh hnt).2⟩) res.1
  refine ⟨h2, res.2, hsel, node, psel, ?_, hselect, hs2, hci2⟩
  simp only [search_step, hselect, simulate, hnode, hsim, hback]

/-- After any number of iterations of `search` the invariants hold, with the
simulation counts given by the trace of selected nodes. -/
theorem search_loop_inv (rng : Nat → Nat) (fuel : Nat) (hfuel : 10 ≤ fuel) (n : Nat) (h : Heap)
    (hs : ShapeInv h) (cnt : Nat → Nat) (hci : CountInv h cnt) (pos : Nat) :
    ∃ (h1 : Heap) (pos1 : Nat) (T : List Nat),
      search_loop rng fuel 0 n h pos = some (h1, pos1) ∧
      search_trace rng fuel 0 n h pos = some T ∧ T.length = n ∧ ShapeInv h1 ∧
      CountInv h1 (fun j => cnt j + T.count j) := by
  induction n generalizing h pos cnt with
  | zero =>
    refine ⟨h, pos, [], rfl, rfl, rfl, hs, ?_⟩
    simpa using hci
  | succ n ih =>
    obtain ⟨h2, pos2, hsel, node, psel, hstep, hselect, hs2, hci2⟩ :=
      search_step_inv rng fuel hfuel h hs cnt hci pos
    obtain ⟨h1, pos1, T, hloop, htrace, hlen, hs1, hci1⟩ := ih h2 hs2 _ hci2 pos2
    refine ⟨h1, pos1, node :: T, ?_, ?_, by simp [hlen], hs1, ?_⟩
    · simp only [search_loop, hstep, hloop]
    · simp only [search_trace, hselect, hstep, htrace, Option.map_some']
    · have hfun : (fun j => cnt j + (node :: T).count j) =
          (fun j => (cnt j + if j = node then 1 else 0) + T.count j) := by
        funext j
        rw [List.count_cons]
        by_cases hj : j = node
        · subst hj
          simp
          omega
        · have : (node == j) = false := by simpa using Ne.symm hj
          simp [hj, this]
      rw [hfun]
      exact hci1

/-- The invariants after `n` iterations from a fresh root. -/
theorem search_fresh_inv (rng : Nat → Nat) (root : Node) (hv : root.visits = 0)
    (hw : root.wins = 0) (hc : root.children = []) (hpar : root.parent = none)
    (hp : root.player = 1 ∨ root.player = -1) (h3 : is3x3 root.state) (n fuel pos : Nat)
    (hfuel : 10 ≤ fuel) :
    ∃ (h1 : Heap) (pos1 : Nat) (T : List Nat),
      search_loop rng fuel 0 n [root] pos = some (h1, pos1) ∧
      search_trace rng fuel 0 n [root] pos = some T ∧ T.length = n ∧ ShapeInv h1 ∧
      CountInv h1 (fun j => T.count j) := by
  obtain ⟨h1, pos1, T, hloop, htrace, hlen, hs1, hci1⟩ :=
    search_loop_inv rng fuel hfuel n [root] (ShapeInv_fresh root hv hc hpar hp h3) (fun _ => 0)
      (CountInv_fresh root hv hw hc) pos
  refine ⟨h1, pos1, T, hloop, htrace, hlen, hs1, ?_⟩
  simpa using hci1

/-! ## Visits and wins after any number of iterations (C13, C19, C20) -/

/-- C13 (counterexample): after one iteration of `search` from the empty board
the root has 1 visit and its children have 1 visit in total, so
`visits ≥ 1 + sum of the visits of the children` fails at the root. -/
theorem root_visits_after_one_iteration :
    (search_loop (fun _ => 0) 10 0 1 [freshRoot emptyBoard AI_PLAYER] 0).map
      (fun res => (res.1[0]?).map (fun r => (r.visits, childVisits res.1 r))) =
      some (some (1, 1)) := by
  rfl

/-- C13 (as the code behaves): after any number of iterations of `search` from
a fresh root, every node of the tree satisfies
`visits ≥ sum of the visits of its children`. -/
theorem visits_ge_child_visits (rng : Nat → Nat) (root : Node) (hv : root.visits = 0)
    (hw : root.wins = 0) (hc : root.children = []) (hpar : root.parent = none)
    (hp : root.player = 1 ∨ root.player = -1) (h3 : is3x3 root.state) (n fuel pos : Nat)
    (hfuel : 10 ≤ fuel) :
    ∃ (h1 : Heap) (pos1 : Nat), search_loop rng fuel 0 n [root] pos = some (h1, pos1) ∧
      ∀ (k : Nat) (nk : Node), h1[k]? = some nk → childVisits h1 nk ≤ nk.visits := by
  obtain ⟨h1, pos1, T, hloop, -, -, -, hci⟩ :=
    search_fresh_inv rng root hv hw hc hpar hp h3 n fuel pos hfuel
  refine ⟨h1, pos1, hloop, fun k nk hk => ?_⟩
  have := hci.visits_eq k nk hk
  have h0 : (0 : Int) ≤ (T.count k : Int) := Int.natCast_nonneg _
  omega

theorem visits_ge_child_visits_witness :
    ∃ (h1 : Heap) (pos1 : Nat),
      search_loop (fun k => k) 10 0 100 [freshRoot emptyBoard AI_PLAYER] 0 = some (h1, pos1) ∧
      ∀ (k : Nat) (nk : Node), h1[k]? = some nk → childVisits h1 nk ≤ nk.visits :=
  visits_ge_child_visits (fun k => k) (freshRoot emptyBoard AI_PLAYER) rfl rfl rfl rfl
    (Or.inr rfl) (by decide) 100 10 0 (le_refl _)

/-- C19: after any number of iterations of `search` from a fresh root, with
`T` the list of the nodes returned by `select` (the simulated nodes), every
non-terminal node of the tree satisfies `visits - sum of the visits of its
children = number of times it was simulated`; that number is 1 if the node was
simulated (it was then returned by the expansion of its parent) and 0
otherwise; for a non-terminal root it is 0, so the visits of the root equal
the sum of the visits of its children. -/
theorem visits_minus_child_visits (rng : Nat → Nat) (root : Node) (hv : root.visits = 0)
    (hw : root.wins = 0) (hc : root.children = []) (hpar : root.parent = none)
    (hp : root.player = 1 ∨ root.player = -1) (h3 : is3x3 root.state) (n fuel pos : Nat)
    (hfuel : 10 ≤ fuel) :
    ∃ (h1 : Heap) (pos1 : Nat) (T : List Nat),
      search_loop rng fuel 0 n [root] pos = some (h1, pos1) ∧
      search_trace rng fuel 0 n [root] pos = some T ∧
      ∀ (k : Nat) (nk : Node), h1[k]? = some nk → nk.is_terminal = false →
        nk.visits - childVisits h1 nk = (T.count k : Int) ∧
        (nk.visits - childVisits h1 nk = if k ∈ T then 1 else 0) ∧
        (k = 0 → k ∉ T ∧ nk.visits = childVisits h1 nk) := by
  obtain ⟨h1, pos1, T, hloop, htrace, -, -, hci⟩ :=
    search_fresh_inv rng root hv hw hc hpar hp h3 n fuel pos hfuel
  refine ⟨h1, pos1, T, hloop, htrace, fun k nk hk hnt => ?_⟩
  have heq := hci.visits_eq k nk hk
  obtain ⟨hle, hroot⟩ := hci.cnt_nonterminal k nk hk hnt
  refine ⟨by omega, ?_, fun hk0 => ?_⟩
  · by_cases hm : k ∈ T
    · have hpos : 0 < T.count k := List.count_pos_iff.2 hm
      rw [if_pos hm]
      omega
    · have hz : T.count k = 0 := List.count_eq_zero.2 hm
      rw [if_neg hm]
      omega
  · have hz := hroot hk0
    exact ⟨List.count_eq_zero.1 hz, by omega⟩

theorem visits_minus_child_visits_witness :
    ∃ (h1 : Heap) (pos1 : Nat) (T : List Nat),
      search_loop (fun k => k) 10 0 100 [freshRoot emptyBoard AI_PLAYER] 0 = some (h1, pos1) ∧
      search_trace (fun k => k) 10 0 100 [freshRoot emptyBoard AI_PLAYER] 0 = some T ∧
      ∀ (k : Nat) (nk : Node), h1[k]? = some nk → nk.is_terminal = false →
        nk.visits - childVisits h1 nk = (T.count k : Int) := by
  obtain ⟨h1, pos1, T, hloop, htrace, hall⟩ :=
    visits_minus_child_visits (fun k => k) (freshRoot emptyBoard AI_PLAYER) rfl rfl rfl rfl
      (Or.inr rfl) (by decide) 100 10 0 (le_refl _)
  exact ⟨h1, pos1, T, hloop, htrace, fun k nk hk hnt => (hall k nk hk hnt).1⟩

/-- C20: after any number of iterations of `search` from a fresh root (player
1 or -1), every node satisfies `0 ≤ wins ≤ visits`; and in the next iteration,
if the rollout result is 0 (a draw), every node keeps its wins and every node
created by the iteration has wins 0. -/
theorem wins_bounds (rng : Nat → Nat) (root : Node) (hv : root.visits = 0)
    (hw : root.wins = 0) (hc : root.children = []) (hpar : root.parent = none)
    (hp : root.player = 1 ∨ root.player = -1) (h3 : is3x3 root.state) (n fuel pos : Nat)
    (hfuel : 10 ≤ fuel) :
    ∃ (h1 : Heap) (pos1 : Nat), search_loop rng fuel 0 n [root] pos = some (h1, pos1) ∧
      (∀ (k : Nat) (nk : Node), h1[k]? = some nk → 0 ≤ nk.wins ∧ nk.wins ≤ nk.visits) ∧
      ∃ (hsel : Heap) (node psel : Nat) (res : Int) (pos2 : Nat) (h2 : Heap),
        select rng fuel h1 0 pos1 = some (hsel, node, psel) ∧
        simulate rng fuel hsel node psel = some (res, pos2) ∧
        backpropagate fuel hsel (some node) res = some h2 ∧
        search_step rng fuel 0 h1 pos1 = some (h2, pos2) ∧
        (res = 0 → ∀ (j : Nat) (n2 : Node), h2[j]? = some n2 →
          (∀ n1, h1[j]? = some n1 → n2.wins = n1.wins) ∧ (h1[j]? = none → n2.wins = 0)) := by
  obtain ⟨h1, pos1, T, hloop, -, -, hs, hci⟩ :=
    search_fresh_inv rng root hv hw hc hpar hp h3 n fuel pos hfuel
  refine ⟨h1, pos1, hloop, hci.wins_ok, ?_⟩
  obtain ⟨r, hr, -⟩ := hs.tree.root_parent
  have hec := emptyCount_le r.state
  obtain ⟨hsel, node, psel, nn, hselect, hs1, hci1, hext, hnode, hfresh, hnew⟩ :=
    select_inv rng fuel h1 hs _ hci pos1 r hr (by omega)
  obtain ⟨nn3, nnp, -⟩ := hs1.tree.node_ok node nn hnode
  have hec2 := emptyCount_le nn.state
  obtain ⟨res, hsim⟩ := simulate_loop_total rng fuel nn.state nn.player psel nn3
    (player_ne_zero _ nnp) (by omega)
  obtain ⟨h2, hback, -, -, -, hrel⟩ := backpropagate_inv fuel hfuel hsel hs1 _ hci1 node nn hnode
    (fun hnt => ⟨hci.cnt_alloc node (hfresh hnt).1, (hfresh hnt).2⟩) res.1
  refine ⟨hsel, node, psel, res.1, res.2, h2, hselect, by simp only [simulate, hnode, hsim],
    hback, by simp only [search_step, hselect, simulate, hnode, hsim, hback],
    fun hres j n2 hj => ?_⟩
  obtain ⟨ns, hjs, -, hwins⟩ := hrel j n2 hj
  rw [hwins hres]
  refine ⟨fun n1 hj1 => ?_, fun hnone => (hnew j ns hjs hnone).1⟩
  obtain ⟨ns', hjs', -, -, -, -, hw', -⟩ := hext j n1 hj1
  rw [hjs] at hjs'
  injection hjs' with hjs'
  subst hjs'
  exact hw'

theorem wins_bounds_witness :
    ∃ (h1 : Heap) (pos1 : Nat),
      search_loop (fun k => k) 10 0 100 [freshRoot emptyBoard AI_PLAYER] 0 = some (h1, pos1) ∧
      ∀ (k : Nat) (nk : Node), h1[k]? = some nk → 0 ≤ nk.wins ∧ nk.wins ≤ nk.visits := by
  obtain ⟨h1, pos1, hloop, hall, -⟩ :=
    wins_bounds (fun k => k) (freshRoot emptyBoard AI_PLAYER) rfl rfl rfl rfl
      (Or.inr rfl) (by decide) 100 10 0 (le_refl _)
  exact ⟨h1, pos1, hloop, hall⟩

/-! ## The counters of `search` stay in the range of `int` -/

/-- In a tree with the invariants of `search` no node has more visits than
the root. -/
theorem visits_le_root (h : Heap) (hs : ShapeInv h) (cnt : Nat → Nat) (hci : CountInv h cnt)
    (r : Node) (hr : h[0]? = some r) (k : Nat) (n : Node) (hn : h[k]? = some n) :
    n.visits ≤ r.visits := by
  induction k using Nat.strong_induction_on generalizing n with
  | _ k ih =>
    by_cases hk : k = 0
    · subst hk
      rw [hr] at hn
      injection hn with hn
      subst hn
      exact le_refl _
    · obtain ⟨p, pn, hpar, hpk, hp, -⟩ := hs.tree.parent_ok k n hn hk
      obtain ⟨pn', hp', hmem⟩ := hs.listed k n p hn hpar
      rw [hp] at hp'
      injection hp' with hp'
      subst hp'
      have h1 := ih p hpk pn hp
      have h2 := hci.visits_eq p pn hp
      have h3 : visitsAt h k ≤ childVisits h pn := by
        unfold childVisits
        apply List.single_le_sum
        · intro x hx
          rw [List.mem_map] at hx
          obtain ⟨c, -, rfl⟩ := hx
          unfold visitsAt
          cases hc : h[c]? with
          | none => exact le_refl _
          | some cn => exact (hs.tree.node_ok c cn hc).2.2
        · exact List.mem_map.2 ⟨k, hmem, rfl⟩
      have h4 : visitsAt h k = n.visits := by simp only [visitsAt, hn]
      have h5 : (0 : Int) ≤ (cnt p : Int) := Int.natCast_nonneg _
      omega

/-- In a search from a fresh root no counter exceeds the number of iterations
done; and when fewer than `INT_MAX` iterations are done, the next iteration
increments no counter that is `INT_MAX`: `backpropagate_int` returns the heap
with which the iteration of `search_loop` goes on. -/
theorem search_no_overflow (rng : Nat → Nat) (root : Node) (hv : root.visits = 0)
    (hw : root.wins = 0) (hc : root.children = []) (hpar : root.parent = none)
    (hp : root.player = 1 ∨ root.player = -1) (h3 : is3x3 root.state) (n fuel pos : Nat)
    (hfuel : 10 ≤ fuel) :
    ∃ (h1 : Heap) (pos1 : Nat), search_loop rng fuel 0 n [root] pos = some (h1, pos1) ∧
      (∀ (k : Nat) (nk : Node), h1[k]? = some nk →
        0 ≤ nk.wins ∧ nk.wins ≤ nk.visits ∧ nk.visits ≤ (n : Int)) ∧
      ((n : Int) < INT_MAX →
        ∃ (hsel : Heap) (node psel : Nat) (res : Int) (pos2 : Nat) (h2 : Heap),
          select rng fuel h1 0 pos1 = some (hsel, node, psel) ∧
          simulate rng fuel hsel node psel = some (res, pos2) ∧
          backpropagate_int fuel hsel (some node) res = some h2 ∧
          search_step rng fuel 0 h1 pos1 = some (h2, pos2)) := by
  obtain ⟨h1, pos1, T, hloop, -, -, hs, hci⟩ :=
    search_fresh_inv rng root hv hw hc hpar hp h3 n fuel pos hfuel
  obtain ⟨h1', pos1', r1, hloop', -, hr1, hv1, -⟩ :=
    search_loop_spec rng fuel hfuel n [root] (TreeInv_fresh root hv hc hpar hp h3) pos root rfl
  rw [hloop] at hloop'
  simp only [Option.some.injEq, Prod.mk.injEq] at hloop'
  obtain ⟨rfl, rfl⟩ := hloop'
  rw [hv, zero_add] at hv1
  have hbound : ∀ (k : Nat) (nk : Node), h1[k]? = some nk →
      0 ≤ nk.wins ∧ nk.wins ≤ nk.visits ∧ nk.visits ≤ (n : Int) := by
    intro k nk hk
    have h4 := visits_le_root h1 hs _ hci r1 hr1 k nk hk
    exact ⟨(hci.wins_ok k nk hk).1, (hci.wins_ok k nk hk).2, by omega⟩
  refine ⟨h1, pos1, hloop, hbound, fun hn => ?_⟩
  have hec := emptyCount_le r1.state
  obtain ⟨hsel, node, psel, nn, hselect, hs1, hci1, hext, hnode, hfresh, hnew⟩ :=
    select_inv rng fuel h1 hs _ hci pos1 r1 hr1 (by omega)
  obtain ⟨nn3, nnp, -⟩ := hs1.tree.node_ok node nn hnode
  have hec2 := emptyCount_le nn.state
  obtain ⟨res, hsim⟩ := simulate_loop_total rng fuel nn.state nn.player psel nn3
    (player_ne_zero _ nnp) (by omega)
  obtain ⟨h2, hback, -⟩ := backpropagate_inv fuel hfuel hsel hs1 _ hci1 node nn hnode
    (fun hnt => ⟨hci.cnt_alloc node (hfresh hnt).1, (hfresh hnt).2⟩) res.1
  obtain ⟨l, hl, -, -⟩ := hs1.tree.chain node nn hnode
  have hsmall : ∀ j ∈ l, ∀ m, hsel[j]? = some m →
      m.visits < INT_MAX ∧ (m.player = res.1 → m.wins < INT_MAX) := by
    intro j _ m hm
    have hwv := hci1.wins_ok j m hm
    have hvis : m.visits ≤ (n : Int) := by
      cases hj : h1[j]? with
      | none =>
        rw [(hnew j m hm hj).2.1]
        exact Int.natCast_nonneg _
      | some m1 =>
        obtain ⟨m', hm', -, -, -, hvv, -⟩ := hext j m1 hj
        rw [hm] at hm'
        have hmm : m = m' := Option.some.inj hm'
        rw [hmm, hvv]
        exact (hbound j m1 hj).2.2
    have e : INT_MAX = 2147483647 := rfl
    rw [e] at hn ⊢
    exact ⟨by omega, fun _ => by omega⟩
  refine ⟨hsel, node, psel, res.1, res.2, h2, hselect, by simp only [simulate, hnode, hsim],
    ?_, by simp only [search_step, hselect, simulate, hnode, hsim, hback]⟩
  rw [backpropagate_int_chain _ hsel (some node) res.1 l hl fuel hsmall]
  exact hback

/-! ## Structure of the tree (C16) -/

/-- C16: in the tree reached from a fresh root (player 1 or -1) by any number
of iterations of `search`, every node has either no children or exactly one
child per legal move of its state; a terminal node has no children; no address
is listed twice among the children of a node and no legal move is listed
twice; the i-th child corresponds to the i-th legal move: it holds the state
after that move, the opposite player, and its parent field is the node that
lists it. -/
theorem tree_structure (rng : Nat → Nat) (root : Node) (hv : root.visits = 0)
    (hw : root.wins = 0) (hc : root.children = []) (hpar : root.parent = none)
    (hp : root.player = 1 ∨ root.player = -1) (h3 : is3x3 root.state) (n fuel pos : Nat)
    (hfuel : 10 ≤ fuel) :
    ∃ (h1 : Heap) (pos1 : Nat), search_loop rng fuel 0 n [root] pos = some (h1, pos1) ∧
      ∀ (k : Nat) (nk : Node), h1[k]? = some nk →
        (nk.children.length = 0 ∨
          nk.children.length = (get_legal_moves nk.state).length) ∧
        (nk.is_terminal = true → nk.children = []) ∧
        nk.children.Nodup ∧ (get_legal_moves nk.state).Nodup ∧
        ∀ (i c : Nat), nk.children[i]? = some c →
          ∃ (mv : Nat × Nat) (cn : Node), (get_legal_moves nk.state)[i]? = some mv ∧
            h1[c]? = some cn ∧ cn.parent = some k ∧ cn.player = -nk.player ∧
            cn.state = setCell nk.state mv.1 mv.2 nk.player := by
  obtain ⟨h1, pos1, T, hloop, -, -, hs, -⟩ :=
    search_fresh_inv rng root hv hw hc hpar hp h3 n fuel pos hfuel
  refine ⟨h1, pos1, hloop, fun k nk hk => ⟨?_, hs.terminal_leaf k nk hk,
    hs.children_nodup k nk hk, get_legal_moves_nodup _, fun i c hic => ?_⟩⟩
  · by_cases hne : nk.children = []
    · exact Or.inl (by rw [hne]; rfl)
    · exact Or.inr (hs.tree.children_ok k nk hk hne).1
  · have hne : nk.children ≠ [] := by
      intro hnil
      rw [hnil] at hic
      cases hic
    obtain ⟨hlen, hall⟩ := hs.tree.children_ok k nk hk hne
    have hi : i < nk.children.length := (List.getElem?_eq_some_iff.1 hic).1
    have hi2 : i < (get_legal_moves nk.state).length := hlen ▸ hi
    obtain ⟨c1, cn, hc1, -, hcn, hpar1, hpl, hst⟩ := hall i hi2
    rw [hic] at hc1
    injection hc1 with hc1
    subst hc1
    exact ⟨_, cn, List.getElem?_eq_getElem hi2, hcn, hpar1, hpl, hst⟩

theorem tree_structure_witness :
    ∃ (h1 : Heap) (pos1 : Nat),
      search_loop (fun k => k) 10 0 100 [freshRoot emptyBoard AI_PLAYER] 0 = some (h1, pos1) ∧
      ∀ (k : Nat) (nk : Node), h1[k]? = some nk →
        (nk.is_terminal = true → nk.children = []) ∧ nk.children.Nodup := by
  obtain ⟨h1, pos1, hloop, hall⟩ :=
    tree_structure (fun k => k) (freshRoot emptyBoard AI_PLAYER) rfl rfl rfl rfl
      (Or.inr rfl) (by decide) 100 10 0 (le_refl _)
  exact ⟨h1, pos1, hloop, fun k nk hk => ⟨(hall k nk hk).2.1, (hall k nk hk).2.2.1⟩⟩

/-- C17: on the tree reached from a fresh root by any number of iterations of
`search`, `select` is total and safe. With any fuel above the number `e` of
empty cells of the root state it returns a node: the descent path starts at
the root, follows `best_child` results that are never `nullptr`, and has at
most `e` descent steps; it ends either at a terminal node, which is returned
with the tree unchanged, or at a non-terminal node without children and with a
legal move, on which `expand` is called and succeeds (its index is within the
new children); the returned node is then one of the children created by this
call, newly allocated, with visits 0, wins 0 and no children. -/
theorem select_safe (rng : Nat → Nat) (root : Node) (hv : root.visits = 0)
    (hc : root.children = []) (hpar : root.parent = none)
    (hp : root.player = 1 ∨ root.player = -1) (h3 : is3x3 root.state) (n fuel pos : Nat)
    (hfuel : 10 ≤ fuel) (fuel2 : Nat) (hfuel2 : emptyCount root.state < fuel2) :
    ∃ (h1 : Heap) (pos1 : Nat), search_loop rng fuel 0 n [root] pos = some (h1, pos1) ∧
      ∃ (path : List Nat) (last : Nat) (ln : Node) (hsel : Heap) (node psel : Nat),
        select_path rng fuel2 h1 pos1 0 = some path ∧
        select rng fuel2 h1 0 pos1 = some (hsel, node, psel) ∧
        path.head? = some 0 ∧ path.getLast? = some last ∧
        path.length - 1 ≤ emptyCount root.state ∧
        List.Chain' (fun a b => best_child h1 a = some (some b)) path ∧
        h1[last]? = some ln ∧
        ((ln.is_terminal = true ∧ hsel = h1 ∧ node = last ∧ psel = pos1) ∨
         (ln.is_terminal = false ∧ ln.children = [] ∧ get_legal_moves ln.state ≠ [] ∧
          expand h1 last (rng pos1) = some (hsel, node) ∧ psel = pos1 + 1 ∧
          dist 0 ((get_legal_moves ln.state).length - 1) (rng pos1) <
            (get_legal_moves ln.state).length ∧
          h1[node]? = none ∧
          ∃ (nn lnew : Node), hsel[node]? = some nn ∧ nn.visits = 0 ∧ nn.wins = 0 ∧
            nn.children = [] ∧ nn.parent = some last ∧ hsel[last]? = some lnew ∧
            node ∈ lnew.children ∧
            lnew.children.length = (get_legal_moves ln.state).length)) := by
  obtain ⟨h1, pos1, r1, hloop, hinv, hr1, -, hst, -⟩ :=
    search_loop_spec rng fuel hfuel n [root] (TreeInv_fresh root hv hc hpar hp h3) pos root rfl
  refine ⟨h1, pos1, hloop, ?_⟩
  obtain ⟨path, last, ln, hsel, node, psel, hpath, hselect, hhead, hlast, hlen, hchain, hln,
    hcases⟩ := select_loop_cases rng fuel2 h1 hinv pos1 0 r1 hr1 (by rw [hst]; exact hfuel2)
  rw [hst] at hlen
  refine ⟨path, last, ln, hsel, node, psel, hpath, hselect, hhead, hlast, by omega, hchain, hln,
    ?_⟩
  rcases hcases with hterm | ⟨hnt, hnil, rfl, rfl, rfl, hexp⟩
  · exact Or.inl hterm
  · obtain ⟨-, hlm⟩ := not_terminal ln hnt
    have hk : 0 < (get_legal_moves ln.state).length := List.length_pos.2 hlm
    have hd := dist_zero_lt _ (rng pos1) hk
    refine Or.inr ⟨hnt, hnil, hlm, hexp, rfl, hd, List.getElem?_eq_none (Nat.le_add_right _ _),
      _, _, expandHeap_new h1 last ln _ hd, rfl, rfl, rfl, rfl, expandHeap_node h1 last ln hln,
      ?_, ?_⟩
    · simp only [hnil, List.nil_append, List.mem_range'_1]
      omega
    · simp [hnil]

theorem select_safe_witness :
    ∃ (h1 : Heap) (pos1 : Nat),
      search_loop (fun k => k) 10 0 100 [freshRoot emptyBoard AI_PLAYER] 0 = some (h1, pos1) ∧
      ∃ (path : List Nat) (hsel : Heap) (node psel : Nat),
        select_path (fun k => k) 10 h1 pos1 0 = some path ∧
        select (fun k => k) 10 h1 0 pos1 = some (hsel, node, psel) ∧ path.length - 1 ≤ 9 := by
  have he : emptyCount (freshRoot emptyBoard AI_PLAYER).state = 9 := by decide
  obtain ⟨h1, pos1, hloop, path, last, ln, hsel, node, psel, hpath, hselect, -, -, hlen, -⟩ :=
    select_safe (fun k => k) (freshRoot emptyBoard AI_PLAYER) rfl rfl rfl
      (Or.inr rfl) (by decide) 100 10 0 (le_refl _) 10 (by decide)
  exact ⟨h1, pos1, hloop, path, hsel, node, psel, hpath, hselect, he ▸ hlen⟩

/-! ## `best_child` without children (C11) -/

/-- C11 (counterexample): on a root without children `best_child` returns
`nullptr` as an ordinary result (`some none`), it does not fail (`none`); and
`search(3)` on a root whose state is already won returns `nullptr` as well. -/
theorem best_child_returns_null :
    best_child [freshRoot emptyBoard AI_PLAYER] 0 = some none ∧
    (search (fun _ => 0) 10 0 3 [freshRoot wonBoard AI_PLAYER] 0).map Prod.snd = some none := by
  refine ⟨by rfl, by rfl⟩

/-- C11 (as the code behaves): `best_child` on an allocated node with no
children returns `nullptr` and signals nothing; in particular, for a fresh
root whose state is already terminal and for every `n`, `search(n)` runs its
`n` iterations, leaves the root without children and returns `nullptr`. -/
theorem search_terminal_root (rng : Nat → Nat) (root : Node) (hv : root.visits = 0)
    (hw : root.wins = 0) (hc : root.children = []) (hpar : root.parent = none)
    (hp : root.player = 1 ∨ root.player = -1) (h3 : is3x3 root.state)
    (ht : root.is_terminal = true) (n fuel pos : Nat) (hfuel : 10 ≤ fuel) :
    (∀ (h : Heap) (node : Nat) (nd : Node), h[node]? = some nd → nd.children = [] →
      best_child h node = some none) ∧
    ∃ (h1 : Heap) (r1 : Node), search rng fuel 0 n [root] pos = some (h1, none) ∧
      h1[0]? = some r1 ∧ r1.children = [] ∧ r1.visits = n := by
  have hbc : ∀ (h : Heap) (node : Nat) (nd : Node), h[node]? = some nd → nd.children = [] →
      best_child h node = some none := by
    intro h node nd hnd hch
    simp only [best_child, hnd, hch, best_child_loop, Option.map_none']
  refine ⟨hbc, ?_⟩
  obtain ⟨h1, pos1, T, hloop, -, -, hs, -⟩ :=
    search_fresh_inv rng root hv hw hc hpar hp h3 n fuel pos hfuel
  obtain ⟨h1', pos1', r1, hloop', -, hr1, hv1, hst, -⟩ :=
    search_loop_spec rng fuel hfuel n [root] (TreeInv_fresh root hv hc hpar hp h3) pos root rfl
  rw [hloop] at hloop'
  injection hloop' with hloop'
  injection hloop' with hh hp1
  subst hh
  have hch : r1.children = [] :=
    hs.terminal_leaf 0 r1 hr1 (by rw [is_terminal_congr r1 root hst]; exact ht)
  refine ⟨h1, r1, ?_, hr1, hch, by rw [hv1, hv]; simp⟩
  simp only [search, hloop, hbc h1 0 r1 hr1 hch]

theorem search_terminal_root_witness :
    ∃ (h1 : Heap) (r1 : Node),
      search (fun k => k) 10 0 10000 [freshRoot wonBoard AI_PLAYER] 0 = some (h1, none) ∧
      h1[0]? = some r1 ∧ r1.children = [] ∧ r1.visits = 10000 := by
  have h := (search_terminal_root (fun k => k) (freshRoot wonBoard AI_PLAYER) rfl rfl rfl rfl
    (Or.inr rfl) (by decide) (by decide) 10000 10 0 (le_refl _)).2
  exact_mod_cast h

end MCTS
